import Mathlib

/-!
# Bundle writer: dependency closure, catalog filter and manifest assembly

A shallow embedding of `src/bundle/bundle_writer.go`.

* Go strings are Lean `String`s, Go `int`s are `Int` (only copied and compared
  with zero), slices are `List`s, pointers to records are the records.
* The catalog is the one record whose pointers the source reads unchecked and
  that `json.Unmarshal` may leave nil. It is modelled twice: `TemplateJSON` is
  the catalog with the `templates` object and every unit present;
  `Nilable.TemplateJSON` has `Option` where the source has a pointer, and the
  functions over it end in `Run.panic` where the source dereferences nil. The
  two agree on the catalogs with every unit present (`toNilable_lookup`,
  `toNilable_resolver`).
* A Go `map[string]V` is an association list with at most one binding per key,
  kept in insertion order; Go leaves the iteration order of a map unspecified,
  so the order in which keys come out is one admissible order and the theorems
  speak about membership only.
* `fmt.Printf` appends a line to an explicit output list.
* A function returning `(value, error)` returns `Except String value`; the
  recursive walk, which mutates its map in place and returns an `error`,
  returns the state it leaves behind together with `Option String`.
* The recursion of `getRequiredComponentNamesInternal` is bounded by a depth
  budget; `none` means the budget was exhausted. `recursionBound` is a budget
  that is always enough.
-/

deriving instance DecidableEq for Except

namespace Bundle

/-! ## Data model -/

structure BundleHelmRelease where
  UID : String
  ChartName : String
  DisplayName : String
  Version : String
  RepositoryURL : String
  ValuesFile : String
deriving DecidableEq, Repr

structure BundleStencil where
  UID : String
  Filename : String
  TemplateFilename : String
  ContextID : String
  Status : Int
  Tags : List String
  Sequence : Int
deriving DecidableEq, Repr

structure BundleBaseTemplates where
  Name : String
  Repo : String
  Branch : String
  Stencils : List BundleStencil
deriving DecidableEq, Repr

/-- Metadata record; `Timestamp` is the clock reading, kept as a number. -/
structure Metadata where
  App : String
  Timestamp : Nat
  Annotations : List String
deriving DecidableEq, Repr

structure BundleStencilGroup where
  UID : String
  Name : String
  Tags : List String
deriving DecidableEq, Repr

structure BundlePolicy where
  UID : String
  Name : String
  Selector : String
  Sequence : Int
  Tags : List String
deriving DecidableEq, Repr

structure BundleTransformation where
  UID : String
  Name : String
  Tags : List String
deriving DecidableEq, Repr

structure ManifestBundle where
  Version : String
  Metadata : Option Metadata
  UID : String
  Name : String
  StencilGroups : List BundleStencilGroup
  BaseTemplates : List BundleBaseTemplates
  Policies : List BundlePolicy
  Transformations : List BundleTransformation
  Tags : List String
  HelmReleases : List BundleHelmRelease
  Configurations : List String
deriving DecidableEq, Repr

structure StencilTemplate where
  Name : String
  FilenamePattern : String
  Filename : String
  Description : String
  ContextType : String
  Tags : List String
  PreferredSequence : Int
  Suggested : Bool
  MinUsage : Int
  MaxUsage : Int
  Dependencies : List String
deriving DecidableEq, Repr

structure PolicyTemplate where
  Name : String
  Dependencies : List String
deriving DecidableEq, Repr

structure TransformationsTemplate where
  Name : String
  Dependencies : List String
deriving DecidableEq, Repr

structure HelmReleaseTemplate where
  Name : String
  Dependencies : List String
deriving DecidableEq, Repr

structure TemplatesStruct where
  Stencils : List StencilTemplate
  Policies : List PolicyTemplate
  Transformations : List TransformationsTemplate
  HelmReleases : List HelmReleaseTemplate
deriving DecidableEq, Repr

structure TemplateJSON where
  Version : String
  Public : Bool
  Name : String
  Icon : String
  LongName : String
  Description : String
  Templates : TemplatesStruct
deriving DecidableEq, Repr

/-- The three marks of the walk (`white = 0`, `grey = 1`, `black = 2`). -/
inductive color where
  | white
  | grey
  | black
deriving DecidableEq, Repr

/-- The values that implement `DependencyInterface`: the four template kinds. -/
inductive DependencyInterface where
  | stencil (v : StencilTemplate)
  | policy (v : PolicyTemplate)
  | transformation (v : TransformationsTemplate)
  | helmRelease (v : HelmReleaseTemplate)
deriving DecidableEq, Repr

def DependencyInterface.getName : DependencyInterface → String
  | .stencil v => v.Name
  | .policy v => v.Name
  | .transformation v => v.Name
  | .helmRelease v => v.Name

def DependencyInterface.getDependencies : DependencyInterface → List String
  | .stencil v => v.Dependencies
  | .policy v => v.Dependencies
  | .transformation v => v.Dependencies
  | .helmRelease v => v.Dependencies

/-! ## Strings -/

/-- Pieces of a character list between the occurrences of `/`. -/
def splitSlash : List Char → List (List Char)
  | [] => [[]]
  | c :: cs =>
    if c = '/' then [] :: splitSlash cs
    else
      match splitSlash cs with
      | [] => [[c]]
      | p :: ps => (c :: p) :: ps

/-- The Go call `strings.Split(s, "/")`. -/
def stringsSplitSlash (s : String) : List String :=
  (splitSlash s.data).map String.mk

/-! ## Maps with string keys -/

/-- A Go map with string keys: one binding per key, in insertion order. -/
abbrev GoMap (V : Type) := List (String × V)

/-- Lookup `m[k]` with the presence flag. -/
def GoMap.get? {V : Type} : GoMap V → String → Option V
  | [], _ => none
  | (k, v) :: rest, key => if k = key then some v else GoMap.get? rest key

/-- Assignment `m[k] = v`. -/
def GoMap.set {V : Type} : GoMap V → String → V → GoMap V
  | [], key, val => [(key, val)]
  | (k, v) :: rest, key, val =>
    if k = key then (k, val) :: rest else (k, v) :: GoMap.set rest key val

/-- The keys a `range` over the map goes through. -/
def GoMap.keys {V : Type} (m : GoMap V) : List String :=
  m.map Prod.fst

/-! ## Catalog lookup -/

def malformedMessage (name : String) : String :=
  "dependency name '" ++ name ++
    "' should be 'TEMPLATE_TYPE/TEMPLATE_NAME', where TEMPLATE_TYPE is one of 'stencils', 'policies', 'transformations', or 'helm_charts'"

def notFoundMessage (name : String) : String :=
  "could not find dependency with name '" ++ name ++ "'"

/-- The loop `for _, v := range units { if v.Name == templateName { return v.Dependencies, nil } }`
followed by the final `could not find` error. -/
def findDependencies (units : List (String × List String)) (name templateName : String) :
    Except String (List String) :=
  match units.find? (fun u => u.1 = templateName) with
  | some u => .ok u.2
  | none => .error (notFoundMessage name)

def getTemplateDependencies (templateJSON : TemplateJSON) (name : String) :
    Except String (List String) :=
  match stringsSplitSlash name with
  | [templateType, templateName] =>
    if templateType = "stencils" then
      findDependencies (templateJSON.Templates.Stencils.map fun v => (v.Name, v.Dependencies))
        name templateName
    else if templateType = "policies" then
      findDependencies (templateJSON.Templates.Policies.map fun v => (v.Name, v.Dependencies))
        name templateName
    else if templateType = "transformations" then
      findDependencies
        (templateJSON.Templates.Transformations.map fun v => (v.Name, v.Dependencies))
        name templateName
    else if templateType = "helm_charts" then
      findDependencies (templateJSON.Templates.HelmReleases.map fun v => (v.Name, v.Dependencies))
        name templateName
    else .error (malformedMessage name)
  | _ => .error (malformedMessage name)

def generateFullyQualifiedName (v : DependencyInterface) : Except String String :=
  let name := v.getName
  match v with
  | .stencil _ => .ok ("stencils" ++ "/" ++ name)
  | .policy _ => .ok ("policies" ++ "/" ++ name)
  | .transformation _ => .ok ("transformations" ++ "/" ++ name)
  | .helmRelease _ => .ok ("helm_releases" ++ "/" ++ name)

/-! ## Dependency resolver -/

/-- The loop of `getInitialComponentNames`, with `result` as accumulator. -/
def getInitialComponentNamesLoop :
    List StencilTemplate → List String → Except String (List String)
  | [], result => .ok result
  | stencil :: rest, result =>
    if stencil.MinUsage > 0 then
      match generateFullyQualifiedName (.stencil stencil) with
      | .error err => .error err
      | .ok fullyQualifiedStencilName =>
        getInitialComponentNamesLoop rest (result ++ [fullyQualifiedStencilName])
    else getInitialComponentNamesLoop rest result

def getInitialComponentNames (templateJSON : TemplateJSON) : Except String (List String) :=
  getInitialComponentNamesLoop templateJSON.Templates.Stencils []

/-- What one walk reads and writes: the `visited` map and the printed lines. -/
structure ResolveState where
  visited : GoMap color
  output : List String
deriving DecidableEq, Repr

def circularMessage (name rootName : String) : String :=
  "circular dependency for '" ++ name ++ "' detected while processing dependency list of '" ++
    rootName ++ "'\n"

/-- The loop `for _, templateDependency := range templateDependencies` of the walk, with the
recursive call as the parameter `call`. -/
def forEachDependency (call : String → ResolveState → Option (ResolveState × Option String)) :
    List String → ResolveState → Option (ResolveState × Option String)
  | [], st => some (st, none)
  | templateDependency :: rest, st =>
    match call templateDependency st with
    | none => none
    | some (st1, some err) => some (st1, some err)
    | some (st1, none) => forEachDependency call rest st1

/-- The recursive walk. The first number is the depth budget. -/
def getRequiredComponentNamesInternal (templateJSON : TemplateJSON) (rootName : String) :
    Nat → String → ResolveState → Option (ResolveState × Option String)
  | 0, _, _ => none
  | depth + 1, name, st =>
    let st1 : ResolveState :=
      match st.visited.get? name with
      | some _ => st
      | none => { st with visited := st.visited.set name color.white }
    match (st1.visited.get? name).getD color.white with
    | color.grey => some ({ st1 with output := st1.output ++ [circularMessage name rootName] }, none)
    | color.black => some (st1, none)
    | color.white =>
      let st2 : ResolveState := { st1 with visited := st1.visited.set name color.grey }
      match getTemplateDependencies templateJSON name with
      | .error err => some (st2, some err)
      | .ok templateDependencies =>
        match forEachDependency (getRequiredComponentNamesInternal templateJSON rootName depth)
            templateDependencies st2 with
        | none => none
        | some (st3, some err) => some (st3, some err)
        | some (st3, none) => some ({ st3 with visited := st3.visited.set name color.black }, none)

/-- The loop `for depencencyName, _ := range visited { requiredComponentNameMap[depencencyName] = true }`. -/
def mergeVisited (requiredComponentNameMap : GoMap Bool) : List String → GoMap Bool
  | [] => requiredComponentNameMap
  | depencencyName :: rest => mergeVisited (requiredComponentNameMap.set depencencyName true) rest

/-- The loop over the initial names of `getRequiredComponentNames`; the result carries the lines
printed so far. -/
def getRequiredComponentNamesLoop (templateJSON : TemplateJSON) (depth : Nat) :
    List String → GoMap Bool → List String → Option (List String × Except String (GoMap Bool))
  | [], requiredComponentNameMap, output => some (output, .ok requiredComponentNameMap)
  | initialComponentName :: rest, requiredComponentNameMap, output =>
    match getRequiredComponentNamesInternal templateJSON initialComponentName depth
        initialComponentName { visited := [], output := output } with
    | none => none
    | some (st, some err) => some (st.output, .error err)
    | some (st, none) =>
      getRequiredComponentNamesLoop templateJSON depth rest
        (mergeVisited requiredComponentNameMap st.visited.keys) st.output

/-- Resolver entry point: the printed lines and either the error or the required names. -/
def getRequiredComponentNames (depth : Nat) (templateJSON : TemplateJSON)
    (initialComponentNames : List String) : Option (List String × Except String (List String)) :=
  match getRequiredComponentNamesLoop templateJSON depth initialComponentNames [] [] with
  | none => none
  | some (output, .error err) => some (output, .error err)
  | some (output, .ok requiredComponentNameMap) => some (output, .ok requiredComponentNameMap.keys)

/-- Every dependency string written in the catalog. -/
def allDependencyNames (templateJSON : TemplateJSON) : List String :=
  (templateJSON.Templates.Stencils.map fun v => v.Dependencies).flatten ++
  (templateJSON.Templates.Policies.map fun v => v.Dependencies).flatten ++
  (templateJSON.Templates.Transformations.map fun v => v.Dependencies).flatten ++
  (templateJSON.Templates.HelmReleases.map fun v => v.Dependencies).flatten

/-- A depth budget that the walk never exhausts on this catalog. -/
def recursionBound (templateJSON : TemplateJSON) : Nat :=
  (allDependencyNames templateJSON).length + 2

/-! ## Catalog filter -/

/-- The inner loop of the filter: is `stencil.Name` equal to one of the required names. -/
def stencilRequired (stencil : StencilTemplate) : List String → Bool
  | [] => false
  | requiredComponentName :: rest =>
    if stencil.Name = requiredComponentName then true else stencilRequired stencil rest

/-- The outer loop of the filter, with `result` as accumulator. -/
def filterStencilsLoop (requiredComponentNames : List String) :
    List StencilTemplate → List StencilTemplate → List StencilTemplate
  | [], result => result
  | stencil :: rest, result =>
    if stencilRequired stencil requiredComponentNames then
      filterStencilsLoop requiredComponentNames rest (result ++ [stencil])
    else filterStencilsLoop requiredComponentNames rest result

def filterStencilsByRequiredComponentNames (templateJSON : TemplateJSON)
    (requiredComponentNames : List String) : List StencilTemplate :=
  filterStencilsLoop requiredComponentNames templateJSON.Templates.Stencils []

/-! ## Manifest assembler -/

/-- Modelled from the spec: `common.Service`, declared in the package `common` outside `src/`;
the assembler reads only the service name ("an ordered list of service names supplied by the
caller"). -/
structure Service where
  Name : String
deriving DecidableEq, Repr

/-- One call of `common.DownloadSingleFile(folder, DownloadFile{URL, Name}, branch)`. -/
structure Download where
  Folder : String
  URL : String
  Name : String
  Branch : String
deriving DecidableEq, Repr

/-- The collaborators of the assembler, which live outside `src/`: the temporary directory, the
path join, directory creation, the download (its answer may depend on the downloads made
before) and reading and parsing the downloaded `templates.json`. Answers of type
`Option String` are Go errors, `none` being `nil`. -/
structure Collaborators where
  TempDir : String
  filepathJoin : String → String → String
  MkdirAll : String → Option String
  DownloadSingleFile : List Download → Download → Option String
  readTemplateJSON : String → Except String TemplateJSON

/-- What the assembler does to the outside: the downloads made and the lines printed. -/
structure World where
  downloads : List Download
  output : List String
deriving DecidableEq, Repr

def getStencilTemplateFile (env : Collaborators) (w : World)
    (templateRepository tempFolder filename branch : String) : World × Except String String :=
  let manifestPath := templateRepository ++ filename
  let request : Download :=
    { Folder := tempFolder, URL := manifestPath, Name := filename, Branch := branch }
  let w1 : World := { w with downloads := w.downloads ++ [request] }
  match env.DownloadSingleFile w.downloads request with
  | some downErr => (w1, .error downErr)
  | none => (w1, .ok (env.filepathJoin tempFolder filename))

def downloadAndAddStencil (env : Collaborators) (w : World) (context : String)
    (stencil : StencilTemplate) (manifestFile : ManifestBundle)
    (bundleFolder templateRepository branch : String) (manifestStencils : List BundleStencil) :
    World × Except String (ManifestBundle × List BundleStencil) :=
  let filename0 := if context ≠ "" then context ++ "_" else ""
  let filename := filename0 ++ stencil.Filename
  let stencilPath := templateRepository ++ "stencils/" ++ stencil.Filename
  let stencilsFolder := env.filepathJoin bundleFolder "stencils"
  let request : Download :=
    { Folder := stencilsFolder, URL := stencilPath, Name := filename, Branch := branch }
  let w1 : World := { w with downloads := w.downloads ++ [request] }
  match env.DownloadSingleFile w.downloads request with
  | some downErr => (w1, .error downErr)
  | none =>
    let tempStencil : BundleStencil :=
      { UID := "", Filename := filename, TemplateFilename := stencil.Filename,
        ContextID := context, Status := 2, Tags := ["starter"],
        Sequence := stencil.PreferredSequence }
    (w1, .ok (manifestFile, manifestStencils ++ [tempStencil]))

/-- The loop `for _, service := range services` of `getRequiredStencils`. -/
def forEachService (env : Collaborators) (stencil : StencilTemplate)
    (bundleFolder templateRepository branch : String) :
    List Service → World → ManifestBundle → List BundleStencil →
      World × Except String (ManifestBundle × List BundleStencil)
  | [], w, manifestFile, manifestStencils => (w, .ok (manifestFile, manifestStencils))
  | service :: rest, w, manifestFile, manifestStencils =>
    match downloadAndAddStencil env w service.Name stencil manifestFile bundleFolder
        templateRepository branch manifestStencils with
    | (w1, .error err) => (w1, .error err)
    | (w1, .ok (manifestFile1, manifestStencils1)) =>
      forEachService env stencil bundleFolder templateRepository branch rest w1 manifestFile1
        manifestStencils1

/-- The body of the loop `for _, stencil := range requiredStencils` of `getRequiredStencils`:
the entries of one stencil. -/
def assembleStencil (env : Collaborators) (services : List Service)
    (bundleFolder templateRepository branch : String) (stencil : StencilTemplate) (w : World)
    (manifestFile : ManifestBundle) (manifestStencils : List BundleStencil) :
    World × Except String (ManifestBundle × List BundleStencil) :=
  if stencil.ContextType = "service" then
    forEachService env stencil bundleFolder templateRepository branch services w manifestFile
      manifestStencils
  else
    downloadAndAddStencil env w "" stencil manifestFile bundleFolder templateRepository branch
      manifestStencils

/-- The loop `for _, stencil := range requiredStencils` of `getRequiredStencils`. -/
def forEachStencil (env : Collaborators) (services : List Service)
    (bundleFolder templateRepository branch : String) :
    List StencilTemplate → World → ManifestBundle → List BundleStencil →
      World × Except String (ManifestBundle × List BundleStencil)
  | [], w, manifestFile, manifestStencils => (w, .ok (manifestFile, manifestStencils))
  | stencil :: rest, w, manifestFile, manifestStencils =>
    match assembleStencil env services bundleFolder templateRepository branch stencil w
        manifestFile manifestStencils with
    | (w1, .error err) => (w1, .error err)
    | (w1, .ok (manifestFile1, manifestStencils1)) =>
      forEachStencil env services bundleFolder templateRepository branch rest w1 manifestFile1
        manifestStencils1

/-- The stencils `getRequiredStencils` assembles for a parsed catalog: initial names, required
names, filter. The first number is the depth budget of the resolver. -/
def requiredStencilsOf (depth : Nat) (templJSON : TemplateJSON) :
    Option (List String × Except String (List StencilTemplate)) :=
  match getInitialComponentNames templJSON with
  | .error err => some ([], .error err)
  | .ok initialComponentNames =>
    match getRequiredComponentNames depth templJSON initialComponentNames with
    | none => none
    | some (output, .error err) => some (output, .error err)
    | some (output, .ok requiredComponentNames) =>
      some (output, .ok (filterStencilsByRequiredComponentNames templJSON requiredComponentNames))

/-- The function `getRequiredStencils`; `outputDir` is not read by the source and is left out.
The first number is the depth budget of the resolver. -/
def getRequiredStencils (env : Collaborators) (depth : Nat) (w : World)
    (templateRepository branch : String) (services : List Service) (bundleFolder : String)
    (manifestFile : ManifestBundle) (githubURL : String) :
    Option (World × Except String ManifestBundle) :=
  let templateFolder := env.filepathJoin env.TempDir "temp"
  match env.MkdirAll templateFolder with
  | some err => some (w, .error err)
  | none =>
    match getStencilTemplateFile env w templateRepository templateFolder "templates.json"
        branch with
    | (w1, .error err) =>
      some ({ w1 with output := w1.output ++
        ["Error while downloading the templates.json. err: " ++ err] }, .error err)
    | (w1, .ok tjPathfile) =>
      match env.readTemplateJSON tjPathfile with
      | .error err => some (w1, .error err)
      | .ok templJSON =>
        match requiredStencilsOf depth templJSON with
        | none => none
        | some (output, .error err) => some ({ w1 with output := w1.output ++ output }, .error err)
        | some (output, .ok requiredStencils) =>
          match forEachStencil env services bundleFolder templateRepository branch
              requiredStencils { w1 with output := w1.output ++ output } manifestFile [] with
          | (w2, .error err) => some (w2, .error err)
          | (w2, .ok (manifestFile1, manifestStencils)) =>
            let newTemplate : BundleBaseTemplates :=
              { Name := templJSON.Name, Repo := githubURL, Branch := branch,
                Stencils := manifestStencils }
            some (w2, .ok { manifestFile1 with
              BaseTemplates := manifestFile1.BaseTemplates ++ [newTemplate] })

/-! ## Example inputs -/

/-- A stencil with the given name, dependencies, minimum usage and context type. -/
def exampleStencil (name : String) (deps : List String) (minUsage : Int)
    (contextType : String) : StencilTemplate :=
  { Name := name, FilenamePattern := "", Filename := name ++ ".yml", Description := "",
    ContextType := contextType, Tags := [], PreferredSequence := 3, Suggested := false,
    MinUsage := minUsage, MaxUsage := 1, Dependencies := deps }

/-- A catalog with the given units. -/
def exampleCatalog (stencils : List StencilTemplate) (policies : List PolicyTemplate)
    (helmReleases : List HelmReleaseTemplate) : TemplateJSON :=
  { Version := "1", Public := true, Name := "rails", Icon := "", LongName := "",
    Description := "",
    Templates := { Stencils := stencils, Policies := policies, Transformations := [],
                   HelmReleases := helmReleases } }

/-- Two stencils on a cycle: A needs B and B needs A; A is mandatory. -/
def cycleCatalog : TemplateJSON :=
  exampleCatalog [exampleStencil "A" ["stencils/B"] 1 "", exampleStencil "B" ["stencils/A"] 0 ""]
    [] []

/-- A mandatory stencil whose dependency names a policy that the catalog does not have. -/
def danglingCatalog : TemplateJSON :=
  exampleCatalog [exampleStencil "A" ["policies/P"] 1 "", exampleStencil "B" [] 1 ""] [] []

/-- A catalog with one mandatory stencil and one Helm release. -/
def plainCatalog : TemplateJSON :=
  exampleCatalog [exampleStencil "A" [] 1 "service", exampleStencil "B" [] 0 ""] []
    [{ Name := "redis", Dependencies := [] }]

/-- A catalog in which no stencil is mandatory. -/
def optionalCatalog : TemplateJSON :=
  exampleCatalog [exampleStencil "A" ["stencils/B"] 0 "", exampleStencil "B" [] 0 ""] [] []

/-- Collaborators whose calls all succeed. -/
def exampleEnv (t : TemplateJSON) : Collaborators :=
  { TempDir := "/tmp", filepathJoin := fun a b => a ++ "/" ++ b, MkdirAll := fun _ => none,
    DownloadSingleFile := fun _ _ => none, readTemplateJSON := fun _ => .ok t }

/-- A manifest as `loadManifest` creates it. -/
def emptyManifest : ManifestBundle :=
  { Version := "1", Metadata := none, UID := "", Name := "", StencilGroups := [],
    BaseTemplates := [], Policies := [], Transformations := [], Tags := [], HelmReleases := [],
    Configurations := [] }

/-! ## The lookup contract in the words of the specification -/

/-- The template types a qualified name may start with. -/
def templateTypes : List String :=
  ["stencils", "policies", "transformations", "helm_charts"]

/-- The units of one template type as pairs of name and dependency list, in declaration order;
no units for a string that is not a template type. -/
def unitsOfType (templateJSON : TemplateJSON) (templateType : String) :
    List (String × List String) :=
  if templateType = "stencils" then
    templateJSON.Templates.Stencils.map fun v => (v.Name, v.Dependencies)
  else if templateType = "policies" then
    templateJSON.Templates.Policies.map fun v => (v.Name, v.Dependencies)
  else if templateType = "transformations" then
    templateJSON.Templates.Transformations.map fun v => (v.Name, v.Dependencies)
  else if templateType = "helm_charts" then
    templateJSON.Templates.HelmReleases.map fun v => (v.Name, v.Dependencies)
  else []

/-- The manifest entry of one instance of a stencil: the context is a service name, or empty. -/
def instanceEntry (context : String) (stencil : StencilTemplate) : BundleStencil :=
  { UID := "",
    Filename := if context = "" then stencil.Filename else context ++ "_" ++ stencil.Filename,
    TemplateFilename := stencil.Filename, ContextID := context, Status := 2,
    Tags := ["starter"], Sequence := stencil.PreferredSequence }

/-! ## Reachability in the dependency graph -/

/-- One dependency edge: `b` is in the list that `getTemplateDependencies` returns for `a`. -/
def DependsOn (templateJSON : TemplateJSON) (a b : String) : Prop :=
  ∃ deps, getTemplateDependencies templateJSON a = .ok deps ∧ b ∈ deps

/-- Reachable in zero or more dependency edges. -/
def Reachable (templateJSON : TemplateJSON) (a b : String) : Prop :=
  Relation.ReflTransGen (DependsOn templateJSON) a b

/-- The name is marked grey or black. -/
def Marked (m : GoMap color) (n : String) : Prop :=
  m.get? n = some color.grey ∨ m.get? n = some color.black

/-- The name resolves and all its dependencies are marked. -/
def Expanded (templateJSON : TemplateJSON) (m : GoMap color) (n : String) : Prop :=
  ∃ deps, getTemplateDependencies templateJSON n = .ok deps ∧ ∀ d ∈ deps, Marked m d

/-- How a successful walk changes the map: the grey names are the same, black stays black,
no white mark appears, and every new black name is expanded. -/
structure Extends (templateJSON : TemplateJSON) (m m1 : GoMap color) : Prop where
  grey_iff : ∀ n, m.get? n = some color.grey ↔ m1.get? n = some color.grey
  black_mono : ∀ n, m.get? n = some color.black → m1.get? n = some color.black
  white_anti : ∀ n, m1.get? n = some color.white → m.get? n = some color.white
  expanded : ∀ n, m1.get? n = some color.black →
    m.get? n = some color.black ∨ Expanded templateJSON m1 n

/-- Not yet marked grey or black. -/
def isFresh (m : GoMap color) (n : String) : Bool :=
  decide (m.get? n = none ∨ m.get? n = some color.white)

/-- How many of the listed names are still fresh. -/
def pending (names : List String) (m : GoMap color) : Nat :=
  (names.filter (isFresh m)).length

/-! ## The resolver under any iteration order of its maps -/

/-- The loop over the initial names with the order of the `range` over `visited` made explicit:
the loop of the initial name number `i` goes through the keys in the order `order i keys`. -/
def getRequiredComponentNamesLoopOrdered (order : Nat → List String → List String)
    (templateJSON : TemplateJSON) (depth : Nat) :
    Nat → List String → GoMap Bool → List String →
      Option (List String × Except String (GoMap Bool))
  | _, [], requiredComponentNameMap, output => some (output, .ok requiredComponentNameMap)
  | i, initialComponentName :: rest, requiredComponentNameMap, output =>
    match getRequiredComponentNamesInternal templateJSON initialComponentName depth
        initialComponentName { visited := [], output := output } with
    | none => none
    | some (st, some err) => some (st.output, .error err)
    | some (st, none) =>
      getRequiredComponentNamesLoopOrdered order templateJSON depth (i + 1) rest
        (mergeVisited requiredComponentNameMap (order i st.visited.keys)) st.output

/-- The function `getRequiredComponentNames` with the iteration orders of both `range` loops over
maps made explicit; the last loop, over `requiredComponentNameMap`, has the number of initial
names as its number. -/
def getRequiredComponentNamesOrdered (order : Nat → List String → List String) (depth : Nat)
    (templateJSON : TemplateJSON) (initialComponentNames : List String) :
    Option (List String × Except String (List String)) :=
  match getRequiredComponentNamesLoopOrdered order templateJSON depth 0 initialComponentNames
      [] [] with
  | none => none
  | some (output, .error err) => some (output, .error err)
  | some (output, .ok requiredComponentNameMap) =>
    some (output, .ok (order initialComponentNames.length requiredComponentNameMap.keys))

/-- An iteration order: every `range` goes through each key once. -/
def IterationOrder (order : Nat → List String → List String) : Prop :=
  ∀ i keys, (order i keys).Perm keys

/-! ## Cycles and fetches -/

/-- The name lies on a dependency cycle: it reaches itself in one or more edges. -/
def OnCycle (templateJSON : TemplateJSON) (n : String) : Prop :=
  Relation.TransGen (DependsOn templateJSON) n n

/-- The download that `downloadAndAddStencil` asks for. -/
def entryRequest (env : Collaborators) (bundleFolder templateRepository branch context : String)
    (stencil : StencilTemplate) : Download :=
  { Folder := env.filepathJoin bundleFolder "stencils",
    URL := templateRepository ++ "stencils/" ++ stencil.Filename,
    Name := (if context ≠ "" then context ++ "_" else "") ++ stencil.Filename,
    Branch := branch }

/-- A fetch made during a run that started with the downloads `before` and ended with the
downloads `after`: `request` was asked for when the downloads so far were `history`. -/
def FetchedDuring (before after history : List Download) (request : Download) : Prop :=
  ∃ earlier later, history = before ++ earlier ∧ after = history ++ request :: later

/-- The entries of one stencil: one per service for a service stencil, one otherwise. -/
def stencilEntries (services : List Service) (stencil : StencilTemplate) : List BundleStencil :=
  if stencil.ContextType = "service" then
    services.map fun service => instanceEntry service.Name stencil
  else [instanceEntry "" stencil]

/-! ## The bundle writer -/

/-- Modelled from the spec: `common.Database`, declared in the package `common` outside `src/`;
the bundle writer reads its name and its Docker image. -/
structure Database where
  Name : String
  DockerImage : String
deriving DecidableEq, Repr

/-- A call that changes the file system. `writeManifest` is the `ioutil.WriteFile` of
`saveManifest`, with the manifest in place of its JSON text. -/
inductive FileAction where
  | mkdirAll (path : String)
  | writeFile (path : String) (content : String)
  | writeManifest (path : String) (content : ManifestBundle)
  | removeAll (path : String)
  | tar (source target : String)
deriving DecidableEq, Repr

/-- What `CreateSkycapFiles` does to the outside: the downloads, the printed lines and the
file-system calls. -/
structure Host where
  world : World
  files : List FileAction
deriving DecidableEq, Repr

/-- The collaborators of `CreateSkycapFiles`. `getEnvVars` stands for the function of that name
(lines 217 to 255), which reads the ports and environment of the services and draws random
passwords. The answers of the file-system calls may depend on the calls made before; an answer
of type `Option String` is a Go error, `none` being `nil`. -/
structure Platform where
  base : Collaborators
  getEnvVars : List Service → List Database → GoMap String
  WriteFile : List FileAction → String → String → Option String
  saveManifestFile : List FileAction → String → ManifestBundle → Option String
  RemoveAll : List FileAction → String → Option String
  Tar : List FileAction → String → String → Option String
  PrintError : String → List String
  PrintlnWarning : String → String → List String
  now : Nat

/-- The loop of `createBundleFolderStructure`. -/
def createBundleFolderStructureLoop (env : Collaborators) (baseFolder : String) :
    List String → List FileAction → List FileAction × Option String
  | [], files => (files, none)
  | subfolder :: rest, files =>
    let folder := env.filepathJoin baseFolder subfolder
    match env.MkdirAll folder with
    | some err => (files ++ [FileAction.mkdirAll folder], some err)
    | none => createBundleFolderStructureLoop env baseFolder rest
        (files ++ [FileAction.mkdirAll folder])

def createBundleFolderStructure (env : Collaborators) (baseFolder : String)
    (files : List FileAction) : List FileAction × Option String :=
  createBundleFolderStructureLoop env baseFolder
    ["stencils", "policies", "transformations", "stencil_groups", "helm_releases",
     "configurations"] files

def loadManifest : Except String ManifestBundle :=
  .ok { Version := "1", Metadata := none, UID := "", Name := "", StencilGroups := [],
        BaseTemplates := [], Policies := [], Transformations := [], Tags := [],
        HelmReleases := [], Configurations := [] }

/-- The function `saveEnvVars`; `pre` is its parameter `prefix`, and the map is gone through in
the order of its list. -/
def saveEnvVars (env : Platform) (files : List FileAction) (pre : String)
    (envVars : GoMap String) (manifestFile : ManifestBundle) (bundleFolder : String) :
    List FileAction × Except String ManifestBundle :=
  let filename := pre ++ "-config"
  let varsPath := env.base.filepathJoin (env.base.filepathJoin bundleFolder "configurations")
    (pre ++ "-config")
  let fileOut := envVars.foldl (fun acc kv => acc ++ kv.1 ++ "=" ++ kv.2 ++ "\n") ""
  let files1 := files ++ [FileAction.writeFile varsPath fileOut]
  match env.WriteFile files varsPath fileOut with
  | some err => (files1, .error err)
  | none =>
    (files1, .ok { manifestFile with Configurations := manifestFile.Configurations ++ [filename] })

/-- The loop of `addDatabase`. The source declares the one variable `release` before the loop and
appends its address `&release` for every supported database, so the slice holds the same
pointer `count` times; the loop carries the value of `release`, the number of pointers appended
and the lines printed. -/
def addDatabaseLoop (warn : String → String → List String) :
    List Database → BundleHelmRelease → Nat → List String →
      BundleHelmRelease × Nat × List String
  | [], release, count, output => (release, count, output)
  | db :: rest, release, count, output =>
    if db.Name = "mysql" then
      addDatabaseLoop warn rest
        { release with ChartName := db.Name, DisplayName := db.Name, Version := "0.10.2",
                       UID := "",
                       RepositoryURL := "https://kubernetes-charts.storage.googleapis.com/",
                       ValuesFile := "" }
        (count + 1) output
    else if db.Name = "postgresql" then
      addDatabaseLoop warn rest
        { release with ChartName := db.Name, DisplayName := db.Name, Version := "3.1.0",
                       UID := "",
                       RepositoryURL := "https://kubernetes-charts.storage.googleapis.com/",
                       ValuesFile := "" }
        (count + 1) output
    else
      addDatabaseLoop warn rest release count
        (output ++ warn "Database %s not supported\n" db.Name)

/-- The function `addDatabase`: the manifest and the lines printed; its error is always `nil`.
The entries of `helm_releases` are what the `count` equal pointers point to when the manifest is
read, the last value of `release`. -/
def addDatabase (warn : String → String → List String) (manifestFile : ManifestBundle)
    (databases : List Database) : ManifestBundle × List String :=
  match addDatabaseLoop warn databases
      { UID := "", ChartName := "", DisplayName := "", Version := "", RepositoryURL := "",
        ValuesFile := "" } 0 [] with
  | (release, count, output) =>
    ({ manifestFile with HelmReleases := List.replicate count release }, output)

def addPoliciesAndTransformations (manifestFile : ManifestBundle) :
    Except String ManifestBundle :=
  .ok { manifestFile with Policies := [], Transformations := [] }

/-- The function `addMetadata`, with the reading of the clock as a parameter. -/
def addMetadata (now : Nat) (manifestFile : ManifestBundle) : Except String ManifestBundle :=
  .ok { manifestFile with
    Metadata := some { Annotations := ["Generated by Cloud 66 starter"], App := "starter",
                       Timestamp := now },
    Name := "starter-formation", Tags := ["starter"] }

def saveManifest (env : Platform) (files : List FileAction) (bundleFolder : String)
    (content : ManifestBundle) : List FileAction × Option String :=
  let manifestPath := env.base.filepathJoin bundleFolder "manifest.json"
  (files ++ [FileAction.writeManifest manifestPath content],
    env.saveManifestFile files manifestPath content)

/-- The manifest-building stages of `CreateSkycapFiles`, lines 149 to 183: `loadManifest`,
`saveEnvVars`, `addDatabase`, `getRequiredStencils`, `addPoliciesAndTransformations` and
`addMetadata`. The directory that `getRequiredStencils` creates first and removes last is
logged here. -/
def buildManifest (env : Platform) (depth : Nat) (h : Host)
    (templateRepository branch packName githubURL : String) (services : List Service)
    (databases : List Database) (bundleFolder : String) :
    Option (Host × Except String ManifestBundle) :=
  match loadManifest with
  | .error err => some (h, .error err)
  | .ok manifestFile0 =>
    match saveEnvVars env h.files packName (env.getEnvVars services databases) manifestFile0
        bundleFolder with
    | (files1, .error err) => some ({ h with files := files1 }, .error err)
    | (files1, .ok manifestFile1) =>
      match addDatabase env.PrintlnWarning manifestFile1 databases with
      | (manifestFile2, warnings) =>
        let templateFolder := env.base.filepathJoin env.base.TempDir "temp"
        match getRequiredStencils env.base depth
            { h.world with output := h.world.output ++ warnings } templateRepository branch
            services bundleFolder manifestFile2 githubURL with
        | none => none
        | some (w, result) =>
          let h2 : Host :=
            { world := w,
              files := files1 ++
                [FileAction.mkdirAll templateFolder, FileAction.removeAll templateFolder] }
          match result with
          | .error err => some (h2, .error err)
          | .ok manifestFile3 =>
            match addPoliciesAndTransformations manifestFile3 with
            | .error err => some (h2, .error err)
            | .ok manifestFile4 =>
              match addMetadata env.now manifestFile4 with
              | .error err => some (h2, .error err)
              | .ok manifestFile5 => some (h2, .ok manifestFile5)

/-- The function `CreateSkycapFiles`; the first number is the depth budget of the resolver. The
deferred `os.RemoveAll(bundleFolder)` is logged at every return that follows it. -/
def CreateSkycapFiles (env : Platform) (depth : Nat) (h : Host)
    (outputDir templateRepository branch packName githubURL : String)
    (services : List Service) (databases : List Database) : Option (Host × Option String) :=
  if templateRepository = "" then
    some ({ h with world := { h.world with output := h.world.output ++
      ["Sorry but there is no stencil template for this language/framework yet\n"] } }, none)
  else
    let tempFolder := env.base.TempDir
    let bundleFolder := env.base.filepathJoin tempFolder "bundle"
    let leave (h1 : Host) (err : Option String) : Option (Host × Option String) :=
      some ({ h1 with files := h1.files ++ [FileAction.removeAll bundleFolder] }, err)
    match createBundleFolderStructure env.base bundleFolder h.files with
    | (files1, some err) => leave { h with files := files1 } (some err)
    | (files1, none) =>
      match buildManifest env depth { h with files := files1 } templateRepository branch
          packName githubURL services databases bundleFolder with
      | none => none
      | some (h2, .error err) => leave h2 (some err)
      | some (h2, .ok manifestFile) =>
        match saveManifest env h2.files bundleFolder manifestFile with
        | (files3, some err) => leave { h2 with files := files3 } (some err)
        | (files3, none) =>
          let temp := env.base.filepathJoin bundleFolder "temp"
          let files4 := files3 ++ [FileAction.removeAll temp]
          let printed1 :=
            match env.RemoveAll files3 temp with
            | some err => env.PrintError err
            | none => []
          let target := env.base.filepathJoin outputDir "starter.bundle"
          let files5 := files4 ++ [FileAction.tar bundleFolder target]
          let err := env.Tar files4 bundleFolder target
          let printed2 :=
            match err with
            | some e => env.PrintError e
            | none => []
          leave
            { world := { h2.world with output := h2.world.output ++ printed1 ++ printed2 ++
                ["Bundle is saved to starter.bundle\n"] },
              files := files5 }
            err

/-! ## Further example inputs -/

/-- A stencil that depends on itself. -/
def selfCatalog : TemplateJSON :=
  exampleCatalog [exampleStencil "A" ["stencils/A"] 1 ""] [] []

/-- A chain without a cycle: A needs B, B needs nothing. -/
def chainCatalog : TemplateJSON :=
  exampleCatalog [exampleStencil "A" ["stencils/B"] 1 "", exampleStencil "B" [] 0 ""] [] []

/-- A platform whose calls all succeed and that has the given catalog. -/
def examplePlatform (t : TemplateJSON) : Platform :=
  { base := exampleEnv t, getEnvVars := fun _ _ => [("RAILS_ENV", "production")],
    WriteFile := fun _ _ _ => none, saveManifestFile := fun _ _ _ => none,
    RemoveAll := fun _ _ => none, Tar := fun _ _ _ => none,
    PrintError := fun e => [e], PrintlnWarning := fun f a => [f ++ a], now := 0 }

/-- Collaborators whose downloads into the stencil folder all fail. -/
def failingEnv (t : TemplateJSON) : Collaborators :=
  { exampleEnv t with
    DownloadSingleFile := fun _ request =>
      if request.Name = "templates.json" then none else some "download failed" }

/-- A host on which nothing has happened yet. -/
def freshHost : Host :=
  { world := { downloads := [], output := [] }, files := [] }

/-- The iteration order that goes through the keys of the first `range` backwards. -/
def reverseOrder : Nat → List String → List String :=
  fun i keys => if i = 0 then keys.reverse else keys

/-! ## Fetches that fail -/

/-- The error of a result, `none` when there is none. -/
def errorOf {α : Type} : Except String α → Option String
  | .error err => some err
  | .ok _ => none

/-- A run from the downloads `before` to the downloads `after` that ended with `failure` stops
at a failed fetch: it only added downloads, and a fetch made during the run that failed is what
the run ended with. -/
def FailStop (env : Collaborators) (before after : List Download) (failure : Option String) :
    Prop :=
  (∃ added, after = before ++ added) ∧
    ∀ history request err, FetchedDuring before after history request →
      env.DownloadSingleFile history request = some err → failure = some err

/-- A catalog in which the filter keeps a stencil: the mandatory stencil X needs the policy P,
and the bare name of the second stencil is the qualified name of that policy. -/
def oddCatalog : TemplateJSON :=
  exampleCatalog
    [exampleStencil "X" ["policies/P"] 1 "", exampleStencil "policies/P" [] 0 "service"]
    [{ Name := "P", Dependencies := [] }] []

/-! ## Finishing orders -/

/-- A finishing order, latest first: every name of the list resolves, is not in the rest of the
list, and has all its dependencies in the rest of the list. -/
inductive Finished (templateJSON : TemplateJSON) : List String → Prop where
  | nil : Finished templateJSON []
  | cons (x : String) (deps : List String) (l : List String) :
      Finished templateJSON l → x ∉ l → getTemplateDependencies templateJSON x = .ok deps →
      (∀ y ∈ deps, y ∈ l) → Finished templateJSON (x :: l)

/-- The list holds exactly the names marked black. -/
def BlackList (m : GoMap color) (l : List String) : Prop :=
  ∀ x, m.get? x = some color.black ↔ x ∈ l

/-- What holds of the lines printed during the walk from one initial name: there are some
exactly when a name reachable from the initial name lies on a cycle, and every line is the
diagnostic for a reachable name on a cycle, with the initial name as root. -/
def RootDiagnostics (templateJSON : TemplateJSON) (root : String) (lines : List String) : Prop :=
  (lines ≠ [] ↔ ∃ n, Reachable templateJSON root n ∧ OnCycle templateJSON n) ∧
    ∀ line ∈ lines, ∃ y, line = circularMessage y root ∧ Reachable templateJSON root y ∧
      OnCycle templateJSON y

/-! ## Helm releases in the words of the claim -/

/-- The database has one of the two supported names. -/
def isSupported (db : Database) : Bool :=
  decide (db.Name = "mysql" ∨ db.Name = "postgresql")

/-- The Helm release made for one supported database: chart and display name are the name of
the database, the version is 0.10.2 for mysql and 3.1.0 for postgresql. -/
def releaseFor (db : Database) : BundleHelmRelease :=
  { UID := "", ChartName := db.Name, DisplayName := db.Name,
    Version := if db.Name = "mysql" then "0.10.2" else "3.1.0",
    RepositoryURL := "https://kubernetes-charts.storage.googleapis.com/", ValuesFile := "" }

/-- The last supported database of the list, if there is one. -/
def lastSupported : List Database → Option Database
  | [] => none
  | db :: rest =>
    match lastSupported rest with
    | some d => some d
    | none => if isSupported db then some db else none

/-! ## Catalogs as they are decoded: absent objects and null entries

`json.Unmarshal` leaves `Templates` nil when the file has no `templates` object, and puts a nil
pointer into a unit list for every `null` element. The source dereferences these pointers
without a check, so the functions below have a third outcome besides the value and the error:
the run-time panic of a nil dereference. `TemplateJSON` above is the catalog in which the object
and every unit are present. -/

/-- The outcome of code that dereferences pointers unchecked: the run-time panic of a nil
dereference, or the returned values. -/
inductive Run (α : Type) where
  | panic
  | done (result : α)
deriving DecidableEq, Repr

/-- The record `TemplatesStruct` with its slices of pointers: a nil element is `none`. -/
structure Nilable.TemplatesStruct where
  Stencils : List (Option StencilTemplate)
  Policies : List (Option PolicyTemplate)
  Transformations : List (Option TransformationsTemplate)
  HelmReleases : List (Option HelmReleaseTemplate)
deriving DecidableEq, Repr

/-- The record `TemplateJSON` with its pointer field: a nil `Templates` is `none`. -/
structure Nilable.TemplateJSON where
  Version : String
  Public : Bool
  Name : String
  Icon : String
  LongName : String
  Description : String
  Templates : Option Nilable.TemplatesStruct
deriving DecidableEq, Repr

/-- The loop `for _, v := range units { if v.Name == templateName { return v.Dependencies, nil } }`
over a slice of pointers, followed by the final `could not find` error; `v.Name` on a nil `v`
panics. -/
def Nilable.findDependencies :
    List (Option (String × List String)) → String → String → Run (Except String (List String))
  | [], name, _ => .done (.error (notFoundMessage name))
  | none :: _, _, _ => .panic
  | some u :: rest, name, templateName =>
    if u.1 = templateName then .done (.ok u.2)
    else Nilable.findDependencies rest name templateName

/-- The function `getTemplateDependencies` on a decoded catalog: `templateJSON.Templates.Stencils`
panics on a nil `Templates`, which is read only inside the four cases of the switch. -/
def Nilable.getTemplateDependencies (templateJSON : Nilable.TemplateJSON) (name : String) :
    Run (Except String (List String)) :=
  match stringsSplitSlash name with
  | [templateType, templateName] =>
    if templateType = "stencils" then
      match templateJSON.Templates with
      | none => .panic
      | some templates =>
        Nilable.findDependencies
          (templates.Stencils.map (Option.map fun v => (v.Name, v.Dependencies)))
          name templateName
    else if templateType = "policies" then
      match templateJSON.Templates with
      | none => .panic
      | some templates =>
        Nilable.findDependencies
          (templates.Policies.map (Option.map fun v => (v.Name, v.Dependencies)))
          name templateName
    else if templateType = "transformations" then
      match templateJSON.Templates with
      | none => .panic
      | some templates =>
        Nilable.findDependencies
          (templates.Transformations.map (Option.map fun v => (v.Name, v.Dependencies)))
          name templateName
    else if templateType = "helm_charts" then
      match templateJSON.Templates with
      | none => .panic
      | some templates =>
        Nilable.findDependencies
          (templates.HelmReleases.map (Option.map fun v => (v.Name, v.Dependencies)))
          name templateName
    else .done (.error (malformedMessage name))
  | _ => .done (.error (malformedMessage name))

/-- The loop of `getInitialComponentNames` over a slice of pointers; `stencil.MinUsage` on a
nil `stencil` panics. -/
def Nilable.getInitialComponentNamesLoop :
    List (Option StencilTemplate) → List String → Run (Except String (List String))
  | [], result => .done (.ok result)
  | none :: _, _ => .panic
  | some stencil :: rest, result =>
    if stencil.MinUsage > 0 then
      match generateFullyQualifiedName (.stencil stencil) with
      | .error err => .done (.error err)
      | .ok fullyQualifiedStencilName =>
        Nilable.getInitialComponentNamesLoop rest (result ++ [fullyQualifiedStencilName])
    else Nilable.getInitialComponentNamesLoop rest result

/-- The function `getInitialComponentNames` on a decoded catalog. -/
def Nilable.getInitialComponentNames (templateJSON : Nilable.TemplateJSON) :
    Run (Except String (List String)) :=
  match templateJSON.Templates with
  | none => .panic
  | some templates => Nilable.getInitialComponentNamesLoop templates.Stencils []

/-- The loop over the dependencies of the walk; a panic of a recursive call ends the run. -/
def Nilable.forEachDependency
    (call : String → ResolveState → Option (Run (ResolveState × Option String))) :
    List String → ResolveState → Option (Run (ResolveState × Option String))
  | [], st => some (.done (st, none))
  | templateDependency :: rest, st =>
    match call templateDependency st with
    | none => none
    | some .panic => some .panic
    | some (.done (st1, some err)) => some (.done (st1, some err))
    | some (.done (st1, none)) => Nilable.forEachDependency call rest st1

/-- The recursive walk on a decoded catalog. The first number is the depth budget. -/
def Nilable.getRequiredComponentNamesInternal (templateJSON : Nilable.TemplateJSON)
    (rootName : String) : Nat → String → ResolveState → Option (Run (ResolveState × Option String))
  | 0, _, _ => none
  | depth + 1, name, st =>
    let st1 : ResolveState :=
      match st.visited.get? name with
      | some _ => st
      | none => { st with visited := st.visited.set name color.white }
    match (st1.visited.get? name).getD color.white with
    | color.grey =>
      some (.done ({ st1 with output := st1.output ++ [circularMessage name rootName] }, none))
    | color.black => some (.done (st1, none))
    | color.white =>
      let st2 : ResolveState := { st1 with visited := st1.visited.set name color.grey }
      match Nilable.getTemplateDependencies templateJSON name with
      | .panic => some .panic
      | .done (.error err) => some (.done (st2, some err))
      | .done (.ok templateDependencies) =>
        match Nilable.forEachDependency
            (Nilable.getRequiredComponentNamesInternal templateJSON rootName depth)
            templateDependencies st2 with
        | none => none
        | some .panic => some .panic
        | some (.done (st3, some err)) => some (.done (st3, some err))
        | some (.done (st3, none)) =>
          some (.done ({ st3 with visited := st3.visited.set name color.black }, none))

/-- The loop over the initial names of `getRequiredComponentNames` on a decoded catalog. -/
def Nilable.getRequiredComponentNamesLoop (templateJSON : Nilable.TemplateJSON) (depth : Nat) :
    List String → GoMap Bool → List String →
      Option (Run (List String × Except String (GoMap Bool)))
  | [], requiredComponentNameMap, output => some (.done (output, .ok requiredComponentNameMap))
  | initialComponentName :: rest, requiredComponentNameMap, output =>
    match Nilable.getRequiredComponentNamesInternal templateJSON initialComponentName depth
        initialComponentName { visited := [], output := output } with
    | none => none
    | some .panic => some .panic
    | some (.done (st, some err)) => some (.done (st.output, .error err))
    | some (.done (st, none)) =>
      Nilable.getRequiredComponentNamesLoop templateJSON depth rest
        (mergeVisited requiredComponentNameMap st.visited.keys) st.output

/-- The function `getRequiredComponentNames` on a decoded catalog: budget exhausted, or the
panic, or the printed lines with either the error or the required names. -/
def Nilable.getRequiredComponentNames (depth : Nat) (templateJSON : Nilable.TemplateJSON)
    (initialComponentNames : List String) :
    Option (Run (List String × Except String (List String))) :=
  match Nilable.getRequiredComponentNamesLoop templateJSON depth initialComponentNames [] [] with
  | none => none
  | some .panic => some .panic
  | some (.done (output, .error err)) => some (.done (output, .error err))
  | some (.done (output, .ok requiredComponentNameMap)) =>
    some (.done (output, .ok requiredComponentNameMap.keys))

/-- The inner loop of the filter on a pointer; `stencil.Name` is read once per required name,
so a nil `stencil` panics unless there is no required name. -/
def Nilable.stencilRequired (stencil : Option StencilTemplate) : List String → Run Bool
  | [] => .done false
  | requiredComponentName :: rest =>
    match stencil with
    | none => .panic
    | some v =>
      if v.Name = requiredComponentName then .done true
      else Nilable.stencilRequired stencil rest

/-- The outer loop of the filter over a slice of pointers, with `result` as accumulator. -/
def Nilable.filterStencilsLoop (requiredComponentNames : List String) :
    List (Option StencilTemplate) → List (Option StencilTemplate) →
      Run (List (Option StencilTemplate))
  | [], result => .done result
  | stencil :: rest, result =>
    match Nilable.stencilRequired stencil requiredComponentNames with
    | .panic => .panic
    | .done true =>
      Nilable.filterStencilsLoop requiredComponentNames rest (result ++ [stencil])
    | .done false => Nilable.filterStencilsLoop requiredComponentNames rest result

/-- The function `filterStencilsByRequiredComponentNames` on a decoded catalog. -/
def Nilable.filterStencilsByRequiredComponentNames (templateJSON : Nilable.TemplateJSON)
    (requiredComponentNames : List String) : Run (List (Option StencilTemplate)) :=
  match templateJSON.Templates with
  | none => .panic
  | some templates =>
    Nilable.filterStencilsLoop requiredComponentNames templates.Stencils []

/-- Lines 306 to 316 of `getRequiredStencils` on a decoded catalog: initial names, required
names, filter. The first number is the depth budget of the resolver. -/
def Nilable.requiredStencilsOf (depth : Nat) (templJSON : Nilable.TemplateJSON) :
    Option (Run (List String × Except String (List (Option StencilTemplate)))) :=
  match Nilable.getInitialComponentNames templJSON with
  | .panic => some .panic
  | .done (.error err) => some (.done ([], .error err))
  | .done (.ok initialComponentNames) =>
    match Nilable.getRequiredComponentNames depth templJSON initialComponentNames with
    | none => none
    | some .panic => some .panic
    | some (.done (output, .error err)) => some (.done (output, .error err))
    | some (.done (output, .ok requiredComponentNames)) =>
      match Nilable.filterStencilsByRequiredComponentNames templJSON requiredComponentNames with
      | .panic => some .panic
      | .done requiredStencils => some (.done (output, .ok requiredStencils))

/-- The catalog with every unit present, as a decoded catalog. -/
def TemplateJSON.toNilable (t : TemplateJSON) : Nilable.TemplateJSON :=
  { Version := t.Version, Public := t.Public, Name := t.Name, Icon := t.Icon,
    LongName := t.LongName, Description := t.Description,
    Templates := some
      { Stencils := t.Templates.Stencils.map some, Policies := t.Templates.Policies.map some,
        Transformations := t.Templates.Transformations.map some,
        HelmReleases := t.Templates.HelmReleases.map some } }

/-- The units that are present in a decoded catalog: null entries are left out, and an absent
`templates` object counts as four empty lists. -/
def Nilable.TemplateJSON.dropNulls (r : Nilable.TemplateJSON) : Bundle.TemplateJSON :=
  { Version := r.Version, Public := r.Public, Name := r.Name, Icon := r.Icon,
    LongName := r.LongName, Description := r.Description,
    Templates :=
      match r.Templates with
      | none => { Stencils := [], Policies := [], Transformations := [], HelmReleases := [] }
      | some templates =>
        { Stencils := templates.Stencils.reduceOption,
          Policies := templates.Policies.reduceOption,
          Transformations := templates.Transformations.reduceOption,
          HelmReleases := templates.HelmReleases.reduceOption } }

/-- The `templates` object is present and none of its four lists has a null entry. -/
def Nilable.nullFree (r : Nilable.TemplateJSON) : Bool :=
  match r.Templates with
  | none => false
  | some templates =>
    decide (none ∉ templates.Stencils) && decide (none ∉ templates.Policies) &&
      decide (none ∉ templates.Transformations) && decide (none ∉ templates.HelmReleases)

/-- One dependency edge of a decoded catalog: `b` is in the list that the lookup returns
for `a`. -/
def Nilable.DependsOn (r : Nilable.TemplateJSON) (a b : String) : Prop :=
  ∃ deps, Nilable.getTemplateDependencies r a = .done (.ok deps) ∧ b ∈ deps

/-- Reachable in zero or more dependency edges of a decoded catalog. -/
def Nilable.Reachable (r : Nilable.TemplateJSON) (a b : String) : Prop :=
  Relation.ReflTransGen (Nilable.DependsOn r) a b

/-- A depth budget that the walk never exhausts on this decoded catalog: two more than the
number of dependency strings written in the units that are present. -/
def Nilable.recursionBound (r : Nilable.TemplateJSON) : Nat :=
  Bundle.recursionBound r.dropNulls

/-- Modelled from the spec: the entries of one template type as pairs of name and dependency
list, in declaration order, a null entry being `none`; no entries for a string that is not a
template type. -/
def Nilable.unitsOfType (templates : Nilable.TemplatesStruct) (templateType : String) :
    List (Option (String × List String)) :=
  if templateType = "stencils" then
    templates.Stencils.map (Option.map fun v => (v.Name, v.Dependencies))
  else if templateType = "policies" then
    templates.Policies.map (Option.map fun v => (v.Name, v.Dependencies))
  else if templateType = "transformations" then
    templates.Transformations.map (Option.map fun v => (v.Name, v.Dependencies))
  else if templateType = "helm_charts" then
    templates.HelmReleases.map (Option.map fun v => (v.Name, v.Dependencies))
  else []

/-- The file `{"name": "rails"}`: no `templates` object. -/
def absentTemplatesCatalog : Nilable.TemplateJSON :=
  { Version := "", Public := false, Name := "rails", Icon := "", LongName := "",
    Description := "", Templates := none }

/-- A mandatory stencil A that depends on the policy P, in a catalog whose `policies` list is
`[null]`. -/
def nullPolicyCatalog : Nilable.TemplateJSON :=
  { Version := "1", Public := true, Name := "rails", Icon := "", LongName := "",
    Description := "",
    Templates := some
      { Stencils := [some (exampleStencil "A" ["policies/P"] 1 "")], Policies := [none],
        Transformations := [], HelmReleases := [] } }

/-- A catalog whose `stencils` list has a null entry after an optional stencil. -/
def nullStencilCatalog : Nilable.TemplateJSON :=
  { Version := "1", Public := true, Name := "rails", Icon := "", LongName := "",
    Description := "",
    Templates := some
      { Stencils := [some (exampleStencil "A" [] 0 ""), none], Policies := [],
        Transformations := [], HelmReleases := [] } }

/-- Three stencils: A needs B and C, B needs C, C needs B; A is mandatory. -/
def crossCatalog : TemplateJSON :=
  exampleCatalog
    [exampleStencil "A" ["stencils/B", "stencils/C"] 1 "", exampleStencil "B" ["stencils/C"] 0 "",
      exampleStencil "C" ["stencils/B"] 0 ""] [] []

/-! ## The re-entered units in the words of the specification -/

/-- Modelled from the spec: the exploration of the dependencies of one unit, one after the
other; the units re-entered are collected in the order met, the units left are handed on. -/
def exploreAll (explore : String → List String → Option (List String × List String)) :
    List String → List String → Option (List String × List String)
  | [], finished => some ([], finished)
  | dependency :: rest, finished =>
    match explore dependency finished with
    | none => none
    | some (found1, finished1) =>
      match exploreAll explore rest finished1 with
      | none => none
      | some (found2, finished2) => some (found1 ++ found2, finished2)

/-- Modelled from the spec: depth-first exploration of `name` below the units of `path`, the
units entered and not yet left (grey), latest first; `finished` are the units left (black). A
unit on the path is re-entered: it is recorded and not followed. A unit already left is
skipped. Any other unit is entered, its dependencies are explored in declaration order, and it
is left. The result is the list of re-entered units in the order met, and the units left; there
is no result when a lookup fails or the budget, the first number, runs out. -/
def reEnteredUnits (templateJSON : TemplateJSON) :
    Nat → List String → String → List String → Option (List String × List String)
  | 0, _, _, _ => none
  | budget + 1, path, name, finished =>
    if name ∈ path then some ([name], finished)
    else if name ∈ finished then some ([], finished)
    else
      match getTemplateDependencies templateJSON name with
      | .error _ => none
      | .ok dependencies =>
        match exploreAll (reEnteredUnits templateJSON budget (name :: path)) dependencies
            finished with
        | none => none
        | some (found, finished1) => some (found, name :: finished1)

/-- The map of the walk and the lists of the exploration say the same: the names marked grey
are the units of the path, the names marked black are the units left. -/
def Tracks (m : GoMap color) (path finished : List String) : Prop :=
  (∀ n, m.get? n = some color.grey ↔ n ∈ path) ∧
    ∀ n, m.get? n = some color.black ↔ n ∈ finished

/-- What holds of the lines printed during the walk from one initial name: what
`RootDiagnostics` says, and the lines are, in order, the diagnostics of the units re-entered
during the exploration from the initial name, with the initial name as root. -/
def ExactDiagnostics (templateJSON : TemplateJSON) (depth : Nat) (root : String)
    (lines : List String) : Prop :=
  RootDiagnostics templateJSON root lines ∧
    ∃ units finished, reEnteredUnits templateJSON depth [] root [] = some (units, finished) ∧
      lines = units.map fun y => circularMessage y root

/-! ## Lemmas on maps -/

theorem GoMap.get?_set_self {V : Type} (m : GoMap V) (k : String) (v : V) :
    (m.set k v).get? k = some v := by
  induction m with
  | nil => simp [GoMap.set, GoMap.get?]
  | cons p rest ih =>
    obtain ⟨k1, v1⟩ := p
    by_cases h : k1 = k
    · simp [GoMap.set, GoMap.get?, h]
    · simp [GoMap.set, GoMap.get?, h, ih]

theorem GoMap.get?_set_ne {V : Type} (m : GoMap V) (k k2 : String) (v : V) (hne : k2 ≠ k) :
    (m.set k v).get? k2 = m.get? k2 := by
  induction m with
  | nil =>
    have : ¬ k = k2 := fun h => hne h.symm
    simp [GoMap.set, GoMap.get?, this]
  | cons p rest ih =>
    obtain ⟨k1, v1⟩ := p
    by_cases h : k1 = k
    · subst h
      have : ¬ k1 = k2 := fun h => hne h.symm
      simp [GoMap.set, GoMap.get?, this]
    · by_cases h2 : k1 = k2
      · subst h2
        simp [GoMap.set, GoMap.get?, h]
      · simp [GoMap.set, GoMap.get?, h, h2, ih]

theorem GoMap.set_set {V : Type} (m : GoMap V) (k : String) (v w : V) :
    (m.set k v).set k w = m.set k w := by
  induction m with
  | nil => simp [GoMap.set]
  | cons p rest ih =>
    obtain ⟨k1, v1⟩ := p
    by_cases h : k1 = k
    · simp [GoMap.set, h]
    · simp [GoMap.set, h, ih]

theorem GoMap.mem_keys_iff {V : Type} (m : GoMap V) (k : String) :
    k ∈ m.keys ↔ ∃ v, m.get? k = some v := by
  induction m with
  | nil => simp [GoMap.keys, GoMap.get?]
  | cons p rest ih =>
    obtain ⟨k1, v1⟩ := p
    by_cases h : k1 = k
    · subst h
      simp [GoMap.keys, GoMap.get?]
    · have h2 : ¬ k = k1 := fun e => h e.symm
      have ih2 : k ∈ List.map Prod.fst rest ↔ ∃ v, GoMap.get? rest k = some v := ih
      simp only [GoMap.keys, List.map_cons, List.mem_cons, h2, false_or, GoMap.get?, h,
        if_false]
      exact ih2

theorem GoMap.mem_keys_set {V : Type} (m : GoMap V) (k k2 : String) (v : V) :
    k2 ∈ (m.set k v).keys ↔ k2 = k ∨ k2 ∈ m.keys := by
  rw [GoMap.mem_keys_iff, GoMap.mem_keys_iff]
  by_cases h : k2 = k
  · subst h
    simp [GoMap.get?_set_self]
  · simp [GoMap.get?_set_ne m k k2 v h, h]

/-! ## One step of the walk -/

theorem internal_grey (t : TemplateJSON) (rootName : String) (d : Nat) (name : String)
    (st : ResolveState) (h : st.visited.get? name = some color.grey) :
    getRequiredComponentNamesInternal t rootName (d + 1) name st =
      some ({ st with output := st.output ++ [circularMessage name rootName] }, none) := by
  simp [getRequiredComponentNamesInternal, h]

theorem internal_black (t : TemplateJSON) (rootName : String) (d : Nat) (name : String)
    (st : ResolveState) (h : st.visited.get? name = some color.black) :
    getRequiredComponentNamesInternal t rootName (d + 1) name st = some (st, none) := by
  simp [getRequiredComponentNamesInternal, h]

theorem internal_fresh (t : TemplateJSON) (rootName : String) (d : Nat) (name : String)
    (st : ResolveState)
    (h : st.visited.get? name = none ∨ st.visited.get? name = some color.white) :
    getRequiredComponentNamesInternal t rootName (d + 1) name st =
      match getTemplateDependencies t name with
      | .error err => some ({ st with visited := st.visited.set name color.grey }, some err)
      | .ok deps =>
        match forEachDependency (getRequiredComponentNamesInternal t rootName d) deps
            { st with visited := st.visited.set name color.grey } with
        | none => none
        | some (st3, some err) => some (st3, some err)
        | some (st3, none) =>
          some ({ st3 with visited := st3.visited.set name color.black }, none) := by
  rcases h with h | h
  · simp [getRequiredComponentNamesInternal, h, GoMap.get?_set_self, GoMap.set_set]
  · simp [getRequiredComponentNamesInternal, h]

/-- The four cases of a lookup in the map. -/
theorem color_cases (m : GoMap color) (n : String) :
    (m.get? n = none ∨ m.get? n = some color.white) ∨ m.get? n = some color.grey ∨
      m.get? n = some color.black := by
  cases h : m.get? n with
  | none => simp
  | some c => cases c <;> simp

/-! ## The invariant of a successful walk -/

theorem marked_of_extends {t : TemplateJSON} {m m1 : GoMap color} (h : Extends t m m1)
    {n : String} (hn : Marked m n) : Marked m1 n := by
  rcases hn with hn | hn
  · exact Or.inl ((h.grey_iff n).1 hn)
  · exact Or.inr (h.black_mono n hn)

theorem expanded_of_extends {t : TemplateJSON} {m m1 : GoMap color} (h : Extends t m m1)
    {n : String} (hn : Expanded t m n) : Expanded t m1 n := by
  obtain ⟨deps, hd, hall⟩ := hn
  exact ⟨deps, hd, fun d hdm => marked_of_extends h (hall d hdm)⟩

theorem extends_refl (t : TemplateJSON) (m : GoMap color) : Extends t m m :=
  ⟨fun _ => Iff.rfl, fun _ h => h, fun _ h => h, fun _ h => Or.inl h⟩

theorem extends_trans {t : TemplateJSON} {m m1 m2 : GoMap color} (h1 : Extends t m m1)
    (h2 : Extends t m1 m2) : Extends t m m2 := by
  refine ⟨fun n => (h1.grey_iff n).trans (h2.grey_iff n),
    fun n h => h2.black_mono n (h1.black_mono n h),
    fun n h => h1.white_anti n (h2.white_anti n h), fun n h => ?_⟩
  rcases h2.expanded n h with hb | he
  · rcases h1.expanded n hb with hb1 | he1
    · exact Or.inl hb1
    · exact Or.inr (expanded_of_extends h2 he1)
  · exact Or.inr he

/-- Marking a fresh name grey, walking on, and marking it black at the end. -/
theorem extends_close {t : TemplateJSON} {m m3 : GoMap color} {name : String}
    {deps : List String}
    (hfresh : m.get? name = none ∨ m.get? name = some color.white)
    (hdeps : getTemplateDependencies t name = .ok deps)
    (hext : Extends t (m.set name color.grey) m3)
    (hmarked : ∀ d ∈ deps, Marked m3 d) :
    Extends t m (m3.set name color.black) := by
  have hset : ∀ n, Marked m3 n → Marked (m3.set name color.black) n := by
    intro n hn
    by_cases e : n = name
    · subst e
      exact Or.inr (GoMap.get?_set_self _ _ _)
    · unfold Marked
      rw [GoMap.get?_set_ne _ _ _ _ e]
      exact hn
  refine ⟨fun n => ?_, fun n h => ?_, fun n h => ?_, fun n h => ?_⟩
  · by_cases e : n = name
    · subst e
      rw [GoMap.get?_set_self]
      constructor
      · intro h
        rcases hfresh with hf | hf <;> simp [hf] at h
      · intro h
        simp at h
    · rw [GoMap.get?_set_ne _ _ _ _ e, ← hext.grey_iff n, GoMap.get?_set_ne _ _ _ _ e]
  · have e : n ≠ name := by
      rintro rfl
      rcases hfresh with hf | hf <;> simp [hf] at h
    rw [GoMap.get?_set_ne _ _ _ _ e]
    apply hext.black_mono
    rw [GoMap.get?_set_ne _ _ _ _ e]
    exact h
  · have e : n ≠ name := by
      rintro rfl
      rw [GoMap.get?_set_self] at h
      simp at h
    rw [GoMap.get?_set_ne _ _ _ _ e] at h
    have := hext.white_anti n h
    rwa [GoMap.get?_set_ne _ _ _ _ e] at this
  · by_cases e : n = name
    · subst e
      exact Or.inr ⟨deps, hdeps, fun d hd => hset d (hmarked d hd)⟩
    · rw [GoMap.get?_set_ne _ _ _ _ e] at h
      rcases hext.expanded n h with hb | he
      · rw [GoMap.get?_set_ne _ _ _ _ e] at hb
        exact Or.inl hb
      · obtain ⟨ds, hds, hall⟩ := he
        exact Or.inr ⟨ds, hds, fun d hd => hset d (hall d hd)⟩

/-- The loop over a dependency list keeps the invariant when each call does. -/
theorem forEachDependency_extends (t : TemplateJSON)
    (call : String → ResolveState → Option (ResolveState × Option String))
    (hcall : ∀ name st st1, call name st = some (st1, none) →
      Extends t st.visited st1.visited ∧ Marked st1.visited name)
    (deps : List String) (st st1 : ResolveState)
    (h : forEachDependency call deps st = some (st1, none)) :
    Extends t st.visited st1.visited ∧ ∀ d ∈ deps, Marked st1.visited d := by
  induction deps generalizing st with
  | nil =>
    simp only [forEachDependency, Option.some.injEq, Prod.mk.injEq, and_true] at h
    subst h
    exact ⟨extends_refl t _, fun d hd => by simp at hd⟩
  | cons dep rest ih =>
    simp only [forEachDependency] at h
    cases hc : call dep st with
    | none => simp [hc] at h
    | some r =>
      obtain ⟨st2, e⟩ := r
      cases e with
      | some err => simp [hc] at h
      | none =>
        simp only [hc] at h
        obtain ⟨hext, hm⟩ := hcall dep st st2 hc
        obtain ⟨hext2, hall⟩ := ih st2 h
        refine ⟨extends_trans hext hext2, fun d hd => ?_⟩
        rcases List.mem_cons.1 hd with rfl | hd
        · exact marked_of_extends hext2 hm
        · exact hall d hd

/-- A walk that returns without error extends the map and leaves its name marked. -/
theorem internal_extends (t : TemplateJSON) (rootName : String) (d : Nat) :
    ∀ (name : String) (st st1 : ResolveState),
      getRequiredComponentNamesInternal t rootName d name st = some (st1, none) →
      Extends t st.visited st1.visited ∧ Marked st1.visited name := by
  induction d with
  | zero =>
    intro name st st1 h
    simp [getRequiredComponentNamesInternal] at h
  | succ d ih =>
    intro name st st1 h
    rcases color_cases st.visited name with hf | hg | hb
    · rw [internal_fresh t rootName d name st hf] at h
      cases hd : getTemplateDependencies t name with
      | error err => simp [hd] at h
      | ok deps =>
        simp only [hd] at h
        cases hl : forEachDependency (getRequiredComponentNamesInternal t rootName d) deps
            { st with visited := st.visited.set name color.grey } with
        | none => simp [hl] at h
        | some r =>
          obtain ⟨st3, e⟩ := r
          cases e with
          | some err => simp [hl] at h
          | none =>
            simp only [hl, Option.some.injEq, Prod.mk.injEq, and_true] at h
            subst h
            obtain ⟨hext, hall⟩ := forEachDependency_extends t _ ih deps _ st3 hl
            exact ⟨extends_close hf hd hext hall, Or.inr (GoMap.get?_set_self _ _ _)⟩
    · rw [internal_grey t rootName d name st hg] at h
      simp only [Option.some.injEq, Prod.mk.injEq, and_true] at h
      subst h
      exact ⟨extends_refl t _, Or.inl hg⟩
    · rw [internal_black t rootName d name st hb] at h
      simp only [Option.some.injEq, Prod.mk.injEq, and_true] at h
      subst h
      exact ⟨extends_refl t _, Or.inr hb⟩

/-! ## The depth budget -/

/-- A larger budget gives the same answer. -/
theorem forEachDependency_mono
    (call call2 : String → ResolveState → Option (ResolveState × Option String))
    (hcall : ∀ name st r, call name st = some r → call2 name st = some r)
    (deps : List String) (st : ResolveState) (r : ResolveState × Option String)
    (h : forEachDependency call deps st = some r) :
    forEachDependency call2 deps st = some r := by
  induction deps generalizing st with
  | nil => simpa [forEachDependency] using h
  | cons dep rest ih =>
    simp only [forEachDependency] at h ⊢
    cases hc : call dep st with
    | none => simp [hc] at h
    | some x =>
      obtain ⟨st2, e⟩ := x
      rw [hcall dep st _ hc]
      cases e with
      | some err => simpa [hc] using h
      | none =>
        simp only [hc] at h
        exact ih st2 h

theorem internal_mono_succ (t : TemplateJSON) (rootName : String) (d : Nat) :
    ∀ (name : String) (st : ResolveState) (r : ResolveState × Option String),
      getRequiredComponentNamesInternal t rootName d name st = some r →
      getRequiredComponentNamesInternal t rootName (d + 1) name st = some r := by
  induction d with
  | zero =>
    intro name st r h
    simp [getRequiredComponentNamesInternal] at h
  | succ d ih =>
    intro name st r h
    rcases color_cases st.visited name with hf | hg | hb
    · rw [internal_fresh t rootName d name st hf] at h
      rw [internal_fresh t rootName (d + 1) name st hf]
      cases hd : getTemplateDependencies t name with
      | error err => simpa [hd] using h
      | ok deps =>
        simp only [hd] at h ⊢
        cases hl : forEachDependency (getRequiredComponentNamesInternal t rootName d) deps
            { st with visited := st.visited.set name color.grey } with
        | none => simp [hl] at h
        | some x =>
          rw [forEachDependency_mono _ _ ih deps _ x hl]
          simpa [hl] using h
    · rw [internal_grey t rootName d name st hg] at h
      rw [internal_grey t rootName (d + 1) name st hg]
      exact h
    · rw [internal_black t rootName d name st hb] at h
      rw [internal_black t rootName (d + 1) name st hb]
      exact h

theorem internal_mono (t : TemplateJSON) (rootName : String) (d d2 : Nat) (hle : d ≤ d2)
    (name : String) (st : ResolveState) (r : ResolveState × Option String)
    (h : getRequiredComponentNamesInternal t rootName d name st = some r) :
    getRequiredComponentNamesInternal t rootName d2 name st = some r := by
  induction hle with
  | refl => exact h
  | step _ ih => exact internal_mono_succ t rootName _ name st r ih

theorem pending_le_length (names : List String) (m : GoMap color) :
    pending names m ≤ names.length :=
  List.length_filter_le _ _

theorem pending_le (names : List String) (m m1 : GoMap color)
    (h : ∀ n, isFresh m1 n = true → isFresh m n = true) : pending names m1 ≤ pending names m := by
  induction names with
  | nil => simp [pending]
  | cons a rest ih =>
    unfold pending at ih ⊢
    by_cases h1 : isFresh m1 a = true
    · simp only [List.filter_cons, h1, h a h1, if_true, List.length_cons]
      omega
    · rw [Bool.not_eq_true] at h1
      by_cases h2 : isFresh m a = true
      · simp only [List.filter_cons, h1, h2, if_true, if_false, List.length_cons, Bool.false_eq_true]
        omega
      · simp only [List.filter_cons, h1, h2, if_false, Bool.false_eq_true]
        exact ih

theorem pending_lt (names : List String) (m m1 : GoMap color) (a : String) (ha : a ∈ names)
    (hm : isFresh m a = true) (hm1 : ¬ isFresh m1 a = true)
    (h : ∀ n, isFresh m1 n = true → isFresh m n = true) : pending names m1 < pending names m := by
  rw [Bool.not_eq_true] at hm1
  induction names with
  | nil => simp at ha
  | cons b rest ih =>
    have hle := pending_le rest m m1 h
    unfold pending at ih hle ⊢
    by_cases e : a = b
    · subst e
      simp only [List.filter_cons, hm, hm1, if_true, if_false, List.length_cons, Bool.false_eq_true]
      omega
    · have hr : a ∈ rest := by
        rcases List.mem_cons.1 ha with h0 | h0
        · exact absurd h0 e
        · exact h0
      have := ih hr
      by_cases h1 : isFresh m1 b = true
      · simp only [List.filter_cons, h1, h b h1, if_true, List.length_cons]
        omega
      · rw [Bool.not_eq_true] at h1
        by_cases h2 : isFresh m b = true
        · simp only [List.filter_cons, h1, h2, if_true, if_false, List.length_cons, Bool.false_eq_true]
          omega
        · simp only [List.filter_cons, h1, h2, if_false, Bool.false_eq_true]
          exact this

theorem isFresh_of_extends {t : TemplateJSON} {m m1 : GoMap color} (h : Extends t m m1)
    (n : String) (hn : isFresh m1 n = true) : isFresh m n = true := by
  unfold isFresh at hn ⊢
  rw [decide_eq_true_iff] at hn ⊢
  rcases color_cases m n with hf | hg | hb
  · exact hf
  · have := (h.grey_iff n).1 hg
    rcases hn with hn | hn <;> simp [this] at hn
  · have := h.black_mono n hb
    rcases hn with hn | hn <;> simp [this] at hn

theorem isFresh_set_grey (m : GoMap color) (name n : String)
    (hn : isFresh (m.set name color.grey) n = true) : isFresh m n = true := by
  unfold isFresh at hn ⊢
  rw [decide_eq_true_iff] at hn ⊢
  by_cases e : n = name
  · subst e
    rw [GoMap.get?_set_self] at hn
    simp at hn
  · rwa [GoMap.get?_set_ne _ _ _ _ e] at hn

theorem not_isFresh_set_grey (m : GoMap color) (name : String) :
    ¬ isFresh (m.set name color.grey) name = true := by
  unfold isFresh
  rw [decide_eq_true_iff, GoMap.get?_set_self]
  simp

theorem findDependencies_subset (units : List (String × List String)) (name templateName : String)
    (deps : List String) (h : findDependencies units name templateName = .ok deps) :
    deps ∈ units.map Prod.snd := by
  unfold findDependencies at h
  cases hf : units.find? (fun u => decide (u.1 = templateName)) with
  | none => simp [hf] at h
  | some u =>
    simp only [hf, Except.ok.injEq] at h
    subst h
    exact List.mem_map_of_mem _ (List.mem_of_find?_eq_some hf)

/-- Every name in a returned dependency list is written in the catalog. -/
theorem getTemplateDependencies_subset (t : TemplateJSON) (name : String) (deps : List String)
    (h : getTemplateDependencies t name = .ok deps) :
    ∀ d ∈ deps, d ∈ allDependencyNames t := by
  intro d hd
  unfold getTemplateDependencies at h
  unfold allDependencyNames
  split at h
  · split_ifs at h
    all_goals first
      | (have hm := findDependencies_subset _ _ _ _ h
         simp only [List.map_map, List.mem_append, List.mem_flatten]
         first
           | exact Or.inl (Or.inl (Or.inl ⟨deps, by simpa [Function.comp_def] using hm, hd⟩))
           | exact Or.inl (Or.inl (Or.inr ⟨deps, by simpa [Function.comp_def] using hm, hd⟩))
           | exact Or.inl (Or.inr ⟨deps, by simpa [Function.comp_def] using hm, hd⟩)
           | exact Or.inr ⟨deps, by simpa [Function.comp_def] using hm, hd⟩)
  · simp at h

/-- The loop returns when each call on a catalog name does, under a condition on the state that
successful calls keep. -/
theorem forEachDependency_total (names : List String) (P : ResolveState → Prop)
    (call : String → ResolveState → Option (ResolveState × Option String))
    (hcall : ∀ n ∈ names, ∀ st, P st → ∃ r, call n st = some r)
    (hkeep : ∀ n st st1, P st → call n st = some (st1, none) → P st1)
    (deps : List String) (hdeps : ∀ d ∈ deps, d ∈ names) (st : ResolveState) (hst : P st) :
    ∃ r, forEachDependency call deps st = some r := by
  induction deps generalizing st with
  | nil => exact ⟨_, rfl⟩
  | cons dep rest ih =>
    obtain ⟨r, hr⟩ := hcall dep (hdeps dep (List.mem_cons_self _ _)) st hst
    obtain ⟨st2, e⟩ := r
    simp only [forEachDependency, hr]
    cases e with
    | some err => exact ⟨_, rfl⟩
    | none =>
      exact ih (fun d hd => hdeps d (List.mem_cons_of_mem _ hd)) st2 (hkeep dep st st2 hst hr)

/-- On a name written in the catalog the walk returns as soon as the budget exceeds the number of
catalog names that are still fresh. -/
theorem internal_total_aux (t : TemplateJSON) (rootName : String) (d : Nat) :
    ∀ (name : String) (st : ResolveState), name ∈ allDependencyNames t →
      pending (allDependencyNames t) st.visited < d →
      ∃ r, getRequiredComponentNamesInternal t rootName d name st = some r := by
  induction d with
  | zero =>
    intro name st _ h
    omega
  | succ d ih =>
    intro name st hname hlt
    rcases color_cases st.visited name with hf | hg | hb
    · rw [internal_fresh t rootName d name st hf]
      cases hd : getTemplateDependencies t name with
      | error err => exact ⟨_, rfl⟩
      | ok deps =>
        have hfr : isFresh st.visited name = true := by
          unfold isFresh
          rw [decide_eq_true_iff]
          exact hf
        have hlt2 : pending (allDependencyNames t) (st.visited.set name color.grey) < d := by
          have := pending_lt (allDependencyNames t) st.visited (st.visited.set name color.grey)
            name hname hfr (not_isFresh_set_grey _ _) (isFresh_set_grey _ _)
          omega
        obtain ⟨r, hr⟩ := forEachDependency_total (allDependencyNames t)
          (fun s => pending (allDependencyNames t) s.visited < d)
          (getRequiredComponentNamesInternal t rootName d)
          (fun n hn s hs => ih n s hn hs)
          (fun n s s1 hs hc => by
            have hext := (internal_extends t rootName d n s s1 hc).1
            have := pending_le (allDependencyNames t) s.visited s1.visited
              (isFresh_of_extends hext)
            show pending (allDependencyNames t) s1.visited < d
            omega)
          deps (getTemplateDependencies_subset t name deps hd)
          { st with visited := st.visited.set name color.grey } hlt2
        obtain ⟨st3, e⟩ := r
        simp only [hr]
        cases e with
        | some err => exact ⟨_, rfl⟩
        | none => exact ⟨_, rfl⟩
    · exact ⟨_, internal_grey t rootName d name st hg⟩
    · exact ⟨_, internal_black t rootName d name st hb⟩

/-- With the budget `recursionBound` the walk returns from every name and every state. -/
theorem internal_total (t : TemplateJSON) (rootName : String) (d : Nat)
    (hd : recursionBound t ≤ d) (name : String) (st : ResolveState) :
    ∃ r, getRequiredComponentNamesInternal t rootName d name st = some r := by
  suffices h : ∃ r, getRequiredComponentNamesInternal t rootName
      ((allDependencyNames t).length + 1 + 1) name st = some r by
    obtain ⟨r, hr⟩ := h
    exact ⟨r, internal_mono t rootName _ d hd name st r hr⟩
  rcases color_cases st.visited name with hf | hg | hb
  · rw [internal_fresh t rootName _ name st hf]
    cases hdep : getTemplateDependencies t name with
    | error err => exact ⟨_, rfl⟩
    | ok deps =>
      have hbound : ∀ s : ResolveState,
          pending (allDependencyNames t) s.visited < (allDependencyNames t).length + 1 := by
        intro s
        have := pending_le_length (allDependencyNames t) s.visited
        omega
      obtain ⟨r, hr⟩ := forEachDependency_total (allDependencyNames t) (fun _ => True)
        (getRequiredComponentNamesInternal t rootName ((allDependencyNames t).length + 1))
        (fun n hn s _ => internal_total_aux t rootName _ n s hn (hbound s))
        (fun _ _ _ _ _ => trivial)
        deps (getTemplateDependencies_subset t name deps hdep)
        { st with visited := st.visited.set name color.grey } trivial
      obtain ⟨st3, e⟩ := r
      simp only [hr]
      cases e with
      | some err => exact ⟨_, rfl⟩
      | none => exact ⟨_, rfl⟩
  · exact ⟨_, internal_grey t rootName _ name st hg⟩
  · exact ⟨_, internal_black t rootName _ name st hb⟩

/-! ## The loop over the initial names -/

theorem mem_keys_mergeVisited (m : GoMap Bool) (names : List String) (k : String) :
    k ∈ (mergeVisited m names).keys ↔ k ∈ m.keys ∨ k ∈ names := by
  induction names generalizing m with
  | nil => simp [mergeVisited]
  | cons a rest ih =>
    simp only [mergeVisited, ih, GoMap.mem_keys_set, List.mem_cons]
    tauto

/-- When the loop succeeds, the names already merged stay, and every initial name had a walk from
the empty map that returned without error and whose keys were all merged. -/
theorem loop_ok (t : TemplateJSON) (d : Nat) (initial : List String) :
    ∀ (acc : GoMap Bool) (out out1 : List String) (acc1 : GoMap Bool),
      getRequiredComponentNamesLoop t d initial acc out = some (out1, .ok acc1) →
      (∀ k ∈ acc.keys, k ∈ acc1.keys) ∧
      ∀ root ∈ initial, ∃ out0 st,
        getRequiredComponentNamesInternal t root d root { visited := [], output := out0 } =
          some (st, none) ∧ ∀ k ∈ st.visited.keys, k ∈ acc1.keys := by
  induction initial with
  | nil =>
    intro acc out out1 acc1 h
    simp only [getRequiredComponentNamesLoop, Option.some.injEq, Prod.mk.injEq,
      Except.ok.injEq] at h
    obtain ⟨_, rfl⟩ := h
    exact ⟨fun k hk => hk, fun root hr => by simp at hr⟩
  | cons a rest ih =>
    intro acc out out1 acc1 h
    simp only [getRequiredComponentNamesLoop] at h
    cases hc : getRequiredComponentNamesInternal t a d a { visited := [], output := out } with
    | none => simp [hc] at h
    | some r =>
      obtain ⟨st, e⟩ := r
      cases e with
      | some err => simp [hc] at h
      | none =>
        simp only [hc] at h
        obtain ⟨hacc, hroots⟩ := ih _ _ _ _ h
        refine ⟨fun k hk => hacc k ((mem_keys_mergeVisited _ _ _).2 (Or.inl hk)), ?_⟩
        intro root hroot
        rcases List.mem_cons.1 hroot with rfl | hin
        · exact ⟨out, st, hc, fun k hk => hacc k ((mem_keys_mergeVisited _ _ _).2 (Or.inr hk))⟩
        · exact hroots root hin

/-- A walk from the empty map that returns without error leaves every name reachable from its
start black and expanded. -/
theorem walk_complete (t : TemplateJSON) (rootName : String) (d : Nat) (name : String)
    (out0 : List String) (st : ResolveState)
    (h : getRequiredComponentNamesInternal t rootName d name { visited := [], output := out0 } =
      some (st, none))
    (n : String) (hn : Reachable t name n) :
    st.visited.get? n = some color.black ∧ Expanded t st.visited n := by
  obtain ⟨hext, hm⟩ := internal_extends t rootName d name _ st h
  have hnogrey : ∀ k, st.visited.get? k ≠ some color.grey := by
    intro k hk
    have := (hext.grey_iff k).2 hk
    simp [GoMap.get?] at this
  have hblack : ∀ k, Marked st.visited k → st.visited.get? k = some color.black := by
    intro k hk
    rcases hk with hk | hk
    · exact absurd hk (hnogrey k)
    · exact hk
  have hexp : ∀ k, st.visited.get? k = some color.black → Expanded t st.visited k := by
    intro k hk
    rcases hext.expanded k hk with h0 | h0
    · simp [GoMap.get?] at h0
    · exact h0
  have key : st.visited.get? n = some color.black := by
    induction hn with
    | refl => exact hblack _ hm
    | tail _ hstep ih =>
      obtain ⟨deps, hdeps, hmem⟩ := hstep
      obtain ⟨deps2, hdeps2, hall⟩ := hexp _ ih
      rw [hdeps] at hdeps2
      simp only [Except.ok.injEq] at hdeps2
      subst hdeps2
      exact hblack _ (hall _ hmem)
  exact ⟨key, hexp n key⟩

theorem loop_mono (t : TemplateJSON) (d d2 : Nat) (hle : d ≤ d2) (initial : List String) :
    ∀ (acc : GoMap Bool) (out : List String) (r : List String × Except String (GoMap Bool)),
      getRequiredComponentNamesLoop t d initial acc out = some r →
      getRequiredComponentNamesLoop t d2 initial acc out = some r := by
  induction initial with
  | nil =>
    intro acc out r h
    simpa [getRequiredComponentNamesLoop] using h
  | cons a rest ih =>
    intro acc out r h
    simp only [getRequiredComponentNamesLoop] at h ⊢
    cases hc : getRequiredComponentNamesInternal t a d a { visited := [], output := out } with
    | none => simp [hc] at h
    | some x =>
      obtain ⟨st, e⟩ := x
      rw [internal_mono t a d d2 hle a _ _ hc]
      cases e with
      | some err => simpa [hc] using h
      | none =>
        simp only [hc] at h
        exact ih _ _ _ h

/-- A larger budget does not change what the resolver returns. -/
theorem getRequiredComponentNames_mono (t : TemplateJSON) (d d2 : Nat) (hle : d ≤ d2)
    (initial : List String) (r : List String × Except String (List String))
    (h : getRequiredComponentNames d t initial = some r) :
    getRequiredComponentNames d2 t initial = some r := by
  unfold getRequiredComponentNames at h ⊢
  cases hl : getRequiredComponentNamesLoop t d initial [] [] with
  | none => simp [hl] at h
  | some x =>
    rw [loop_mono t d d2 hle initial _ _ _ hl]
    simpa [hl] using h

theorem loop_total (t : TemplateJSON) (d : Nat) (hd : recursionBound t ≤ d)
    (initial : List String) :
    ∀ (acc : GoMap Bool) (out : List String),
      ∃ r, getRequiredComponentNamesLoop t d initial acc out = some r := by
  induction initial with
  | nil =>
    intro acc out
    exact ⟨_, rfl⟩
  | cons a rest ih =>
    intro acc out
    obtain ⟨x, hx⟩ := internal_total t a d hd a { visited := [], output := out }
    obtain ⟨st, e⟩ := x
    simp only [getRequiredComponentNamesLoop, hx]
    cases e with
    | some err => exact ⟨_, rfl⟩
    | none => exact ih _ _

/-- With the budget `recursionBound` the resolver returns: an error or a list of names. -/
theorem getRequiredComponentNames_total (t : TemplateJSON) (d : Nat)
    (hd : recursionBound t ≤ d) (initial : List String) :
    ∃ r, getRequiredComponentNames d t initial = some r := by
  obtain ⟨x, hx⟩ := loop_total t d hd initial [] []
  obtain ⟨out, res⟩ := x
  unfold getRequiredComponentNames
  rw [hx]
  cases res with
  | error err => exact ⟨_, rfl⟩
  | ok m => exact ⟨_, rfl⟩

/-- When the resolver succeeds, every name reachable from an initial name is in the returned list
and resolves in the catalog. -/
theorem resolver_ok (t : TemplateJSON) (d : Nat) (initial : List String) (out : List String)
    (required : List String)
    (h : getRequiredComponentNames d t initial = some (out, .ok required))
    (root : String) (hroot : root ∈ initial) (n : String) (hn : Reachable t root n) :
    n ∈ required ∧ ∃ deps, getTemplateDependencies t n = .ok deps := by
  unfold getRequiredComponentNames at h
  cases hl : getRequiredComponentNamesLoop t d initial [] [] with
  | none => simp [hl] at h
  | some x =>
    obtain ⟨out1, res⟩ := x
    cases res with
    | error err => simp [hl] at h
    | ok m =>
      simp only [hl, Option.some.injEq, Prod.mk.injEq, Except.ok.injEq] at h
      obtain ⟨_, rfl⟩ := h
      obtain ⟨_, hroots⟩ := loop_ok t d initial _ _ _ _ hl
      obtain ⟨out0, st, hwalk, hkeys⟩ := hroots root hroot
      obtain ⟨hb, deps, hdeps, _⟩ := walk_complete t root d root out0 st hwalk n hn
      exact ⟨hkeys n ((GoMap.mem_keys_iff _ _).2 ⟨_, hb⟩), deps, hdeps⟩

/-! ## Catalog lookup -/

theorem getTemplateDependencies_of_type (t : TemplateJSON) (name ty nm : String)
    (hsplit : stringsSplitSlash name = [ty, nm]) (hty : ty ∈ templateTypes) :
    getTemplateDependencies t name = findDependencies (unitsOfType t ty) name nm := by
  unfold getTemplateDependencies unitsOfType
  rw [hsplit]
  simp only [templateTypes, List.mem_cons, List.mem_singleton, List.not_mem_nil, or_false] at hty
  rcases hty with h | h | h | h <;> subst h <;> simp

theorem getTemplateDependencies_bad_type (t : TemplateJSON) (name ty nm : String)
    (hsplit : stringsSplitSlash name = [ty, nm]) (hty : ty ∉ templateTypes) :
    getTemplateDependencies t name = .error (malformedMessage name) := by
  unfold getTemplateDependencies
  rw [hsplit]
  simp only [templateTypes, List.mem_cons, List.mem_singleton, List.not_mem_nil, or_false,
    not_or] at hty
  obtain ⟨h1, h2, h3, h4⟩ := hty
  simp [h1, h2, h3, h4]

theorem getTemplateDependencies_bad_shape (t : TemplateJSON) (name : String)
    (hlen : (stringsSplitSlash name).length ≠ 2) :
    getTemplateDependencies t name = .error (malformedMessage name) := by
  unfold getTemplateDependencies
  split
  · rename_i ty nm heq
    rw [heq] at hlen
    simp at hlen
  · rfl

theorem findDependencies_ok_iff (units : List (String × List String)) (name nm : String)
    (deps : List String) :
    findDependencies units name nm = .ok deps ↔
      ∃ before u after, units = before ++ u :: after ∧ (∀ v ∈ before, v.1 ≠ nm) ∧
        u.1 = nm ∧ u.2 = deps := by
  unfold findDependencies
  cases hf : units.find? (fun u => decide (u.1 = nm)) with
  | none =>
    simp only [reduceCtorEq, false_iff, not_exists, not_and]
    intro before u after hunits _ hu _
    have := List.find?_eq_none.1 hf u (by rw [hunits]; simp)
    simp [hu] at this
  | some u =>
    simp only [Except.ok.injEq]
    rw [List.find?_eq_some] at hf
    obtain ⟨hu, before, after, hunits, hbefore⟩ := hf
    constructor
    · intro h
      exact ⟨before, u, after, hunits, fun v hv => by simpa using hbefore v hv,
        by simpa using hu, h⟩
    · rintro ⟨before2, u2, after2, hunits2, hbefore2, hu2, hdeps⟩
      have hfind : units.find? (fun u => decide (u.1 = nm)) = some u2 := by
        rw [List.find?_eq_some]
        exact ⟨by simpa using hu2, before2, after2, hunits2,
          fun v hv => by simpa using hbefore2 v hv⟩
      have hfind1 : units.find? (fun u => decide (u.1 = nm)) = some u := by
        rw [List.find?_eq_some]
        exact ⟨hu, before, after, hunits, hbefore⟩
      rw [hfind1] at hfind
      simp only [Option.some.injEq] at hfind
      rw [hfind]
      exact hdeps

theorem findDependencies_error_iff (units : List (String × List String)) (name nm : String) :
    (∃ err, findDependencies units name nm = .error err) ↔ ∀ u ∈ units, u.1 ≠ nm := by
  unfold findDependencies
  cases hf : units.find? (fun u => decide (u.1 = nm)) with
  | none =>
    simp only [Except.error.injEq, exists_eq', true_iff]
    intro u hu
    simpa using List.find?_eq_none.1 hf u hu
  | some u =>
    simp only [reduceCtorEq, exists_false, false_iff, not_forall]
    have h1 := List.mem_of_find?_eq_some hf
    have h2 := List.find?_some hf
    exact ⟨u, h1, by simpa using h2⟩

/-! ## Root selection and the filter -/

theorem stencils_slash (n : String) : "stencils" ++ "/" ++ n = "stencils/" ++ n := by
  rw [String.append_assoc]
  rfl

theorem getInitialComponentNamesLoop_eq (stencils : List StencilTemplate) (result : List String) :
    getInitialComponentNamesLoop stencils result =
      .ok (result ++ (stencils.filter fun s => decide (s.MinUsage > 0)).map
        fun s => "stencils/" ++ s.Name) := by
  induction stencils generalizing result with
  | nil => simp [getInitialComponentNamesLoop]
  | cons s rest ih =>
    by_cases h : s.MinUsage > 0
    · simp [getInitialComponentNamesLoop, h, generateFullyQualifiedName,
        DependencyInterface.getName, ih, stencils_slash]
    · simp [getInitialComponentNamesLoop, h, ih]

theorem stencilRequired_iff (stencil : StencilTemplate) (required : List String) :
    stencilRequired stencil required = true ↔ stencil.Name ∈ required := by
  induction required with
  | nil => simp [stencilRequired]
  | cons a rest ih =>
    by_cases h : stencil.Name = a
    · simp [stencilRequired, h]
    · simp [stencilRequired, h, ih]

theorem filterStencilsLoop_eq (required : List String) (stencils result : List StencilTemplate) :
    filterStencilsLoop required stencils result =
      result ++ stencils.filter fun s => decide (s.Name ∈ required) := by
  induction stencils generalizing result with
  | nil => simp [filterStencilsLoop]
  | cons s rest ih =>
    by_cases h : s.Name ∈ required
    · simp [filterStencilsLoop, (stencilRequired_iff s required).2 h, h, ih]
    · have h2 : ¬ stencilRequired s required = true := fun e => h ((stencilRequired_iff _ _).1 e)
      simp [filterStencilsLoop, h2, h, ih]

/-- What the filter computes: the stencils whose bare name is one of the given names, in
declaration order. -/
theorem filterStencils_eq (t : TemplateJSON) (required : List String) :
    filterStencilsByRequiredComponentNames t required =
      t.Templates.Stencils.filter fun s => decide (s.Name ∈ required) := by
  simp [filterStencilsByRequiredComponentNames, filterStencilsLoop_eq]

/-! ## Splitting qualified names -/

theorem splitSlash_ne_nil (l : List Char) : splitSlash l ≠ [] := by
  cases l with
  | nil => simp [splitSlash]
  | cons c cs =>
    unfold splitSlash
    split_ifs
    · simp
    · split <;> simp

theorem splitSlash_of_not_mem (l : List Char) (h : '/' ∉ l) : splitSlash l = [l] := by
  induction l with
  | nil => rfl
  | cons c cs ih =>
    have hc : c ≠ '/' := fun e => h (by simp [e])
    have hcs : '/' ∉ cs := fun e => h (List.mem_cons_of_mem _ e)
    simp [splitSlash, hc, ih hcs]

theorem splitSlash_append (p rest : List Char) (hp : '/' ∉ p) :
    splitSlash (p ++ '/' :: rest) = p :: splitSlash rest := by
  induction p with
  | nil => simp [splitSlash]
  | cons c cs ih =>
    have hc : c ≠ '/' := fun e => hp (by simp [e])
    have hcs : '/' ∉ cs := fun e => hp (List.mem_cons_of_mem _ e)
    simp [splitSlash, hc, ih hcs]

/-- A type without a slash, a slash and a name without a slash split into the two. -/
theorem stringsSplitSlash_qualified (ty nm : String) (hty : '/' ∉ ty.data)
    (hnm : '/' ∉ nm.data) : stringsSplitSlash (ty ++ "/" ++ nm) = [ty, nm] := by
  have hdata : (ty ++ "/" ++ nm).data = ty.data ++ '/' :: nm.data := by
    simp [String.data_append]
  unfold stringsSplitSlash
  rw [hdata, splitSlash_append _ _ hty, splitSlash_of_not_mem _ hnm]
  rfl

/-- The first piece of a string that starts with a slash-free type and a slash is that type. -/
theorem stringsSplitSlash_head (ty nm : String) (hty : '/' ∉ ty.data) :
    ∃ rest, rest ≠ [] ∧ stringsSplitSlash (ty ++ "/" ++ nm) = ty :: rest := by
  have hdata : (ty ++ "/" ++ nm).data = ty.data ++ '/' :: nm.data := by
    simp [String.data_append]
  unfold stringsSplitSlash
  rw [hdata, splitSlash_append _ _ hty]
  exact ⟨(splitSlash nm.data).map String.mk, by simp [splitSlash_ne_nil], rfl⟩

/-- For every catalog and every Helm release, the name that `generateFullyQualifiedName` builds
is refused by `getTemplateDependencies`. -/
theorem helm_release_name_refused (t : TemplateJSON) (v : HelmReleaseTemplate) :
    generateFullyQualifiedName (.helmRelease v) = .ok ("helm_releases" ++ "/" ++ v.Name) ∧
      getTemplateDependencies t ("helm_releases" ++ "/" ++ v.Name) =
        .error (malformedMessage ("helm_releases" ++ "/" ++ v.Name)) := by
  refine ⟨rfl, ?_⟩
  obtain ⟨rest, hrest, hsplit⟩ := stringsSplitSlash_head "helm_releases" v.Name (by decide)
  by_cases hlen : (stringsSplitSlash ("helm_releases" ++ "/" ++ v.Name)).length = 2
  · obtain ⟨ty, nm, h2⟩ := List.length_eq_two.1 hlen
    have hty : ty = "helm_releases" := by
      rw [hsplit] at h2
      simp only [List.cons.injEq] at h2
      exact h2.1.symm
    exact getTemplateDependencies_bad_type t _ ty nm h2 (by rw [hty]; decide)
  · exact getTemplateDependencies_bad_shape t _ hlen

/-- For a stencil, policy or transformation of the catalog whose name has no slash, the name
that `generateFullyQualifiedName` builds resolves to the dependencies of a unit of the same
kind and name. -/
theorem qualified_name_resolves (t : TemplateJSON) :
    (∀ v ∈ t.Templates.Stencils, '/' ∉ v.Name.data →
      ∃ q deps, generateFullyQualifiedName (.stencil v) = .ok q ∧ q = "stencils/" ++ v.Name ∧
        getTemplateDependencies t q = .ok deps ∧
        ∃ u ∈ t.Templates.Stencils, u.Name = v.Name ∧ u.Dependencies = deps) ∧
    (∀ v ∈ t.Templates.Policies, '/' ∉ v.Name.data →
      ∃ q deps, generateFullyQualifiedName (.policy v) = .ok q ∧ q = "policies/" ++ v.Name ∧
        getTemplateDependencies t q = .ok deps ∧
        ∃ u ∈ t.Templates.Policies, u.Name = v.Name ∧ u.Dependencies = deps) ∧
    (∀ v ∈ t.Templates.Transformations, '/' ∉ v.Name.data →
      ∃ q deps, generateFullyQualifiedName (.transformation v) = .ok q ∧
        q = "transformations/" ++ v.Name ∧ getTemplateDependencies t q = .ok deps ∧
        ∃ u ∈ t.Templates.Transformations, u.Name = v.Name ∧ u.Dependencies = deps) := by
  have key : ∀ (ty : String) (units : List (String × List String)) (nm : String),
      '/' ∉ ty.data → ty ∈ templateTypes → unitsOfType t ty = units → '/' ∉ nm.data →
      (∃ u ∈ units, u.1 = nm) →
      ∃ deps, getTemplateDependencies t (ty ++ "/" ++ nm) = .ok deps ∧
        ∃ u ∈ units, u.1 = nm ∧ u.2 = deps := by
    intro ty units nm hty hmem hunits hnm hex
    rw [getTemplateDependencies_of_type t _ ty nm (stringsSplitSlash_qualified ty nm hty hnm)
      hmem, hunits]
    cases hf : findDependencies units (ty ++ "/" ++ nm) nm with
    | error err =>
      obtain ⟨u, hu, hname⟩ := hex
      exact absurd hname ((findDependencies_error_iff units _ nm).1 ⟨err, hf⟩ u hu)
    | ok deps =>
      obtain ⟨before, u, after, hunits2, _, hname, hdeps⟩ :=
        (findDependencies_ok_iff units _ nm deps).1 hf
      exact ⟨deps, rfl, u, by rw [hunits2]; simp, hname, hdeps⟩
  refine ⟨fun v hv hslash => ?_, fun v hv hslash => ?_, fun v hv hslash => ?_⟩
  · obtain ⟨deps, hdeps, u, hu, hname, hud⟩ := key "stencils"
      (t.Templates.Stencils.map fun v => (v.Name, v.Dependencies)) v.Name (by decide)
      (by decide) (by simp [unitsOfType]) hslash
      ⟨(v.Name, v.Dependencies), List.mem_map.2 ⟨v, hv, rfl⟩, rfl⟩
    obtain ⟨u2, hu2, rfl⟩ := List.mem_map.1 hu
    exact ⟨"stencils" ++ "/" ++ v.Name, deps, rfl, stencils_slash _, hdeps, u2, hu2, hname, hud⟩
  · obtain ⟨deps, hdeps, u, hu, hname, hud⟩ := key "policies"
      (t.Templates.Policies.map fun v => (v.Name, v.Dependencies)) v.Name (by decide)
      (by decide) (by simp [unitsOfType]) hslash
      ⟨(v.Name, v.Dependencies), List.mem_map.2 ⟨v, hv, rfl⟩, rfl⟩
    obtain ⟨u2, hu2, rfl⟩ := List.mem_map.1 hu
    exact ⟨"policies" ++ "/" ++ v.Name, deps, rfl, by rw [String.append_assoc]; rfl, hdeps,
      u2, hu2, hname, hud⟩
  · obtain ⟨deps, hdeps, u, hu, hname, hud⟩ := key "transformations"
      (t.Templates.Transformations.map fun v => (v.Name, v.Dependencies)) v.Name (by decide)
      (by decide) (by simp [unitsOfType]) hslash
      ⟨(v.Name, v.Dependencies), List.mem_map.2 ⟨v, hv, rfl⟩, rfl⟩
    obtain ⟨u2, hu2, rfl⟩ := List.mem_map.1 hu
    exact ⟨"transformations" ++ "/" ++ v.Name, deps, rfl, by rw [String.append_assoc]; rfl,
      hdeps, u2, hu2, hname, hud⟩

/-! ## What the returned names look like -/

/-- After a walk from the empty map that returns without error, every key of the map is black
and expanded. -/
theorem walk_keys_black (t : TemplateJSON) (rootName : String) (d : Nat) (name : String)
    (out0 : List String) (st : ResolveState)
    (h : getRequiredComponentNamesInternal t rootName d name { visited := [], output := out0 } =
      some (st, none))
    (k : String) (hk : k ∈ st.visited.keys) :
    st.visited.get? k = some color.black ∧ Expanded t st.visited k := by
  obtain ⟨hext, _⟩ := internal_extends t rootName d name _ st h
  obtain ⟨c, hc⟩ := (GoMap.mem_keys_iff _ _).1 hk
  have hblack : st.visited.get? k = some color.black := by
    cases c with
    | white =>
      have := hext.white_anti k hc
      simp [GoMap.get?] at this
    | grey =>
      have := (hext.grey_iff k).2 hc
      simp [GoMap.get?] at this
    | black => exact hc
  refine ⟨hblack, ?_⟩
  rcases hext.expanded k hblack with h0 | h0
  · simp [GoMap.get?] at h0
  · exact h0

/-- When the loop succeeds, every merged name was merged before or is a key of the map that the
walk from one of the initial names left. -/
theorem loop_keys (t : TemplateJSON) (d : Nat) (initial : List String) :
    ∀ (acc : GoMap Bool) (out out1 : List String) (acc1 : GoMap Bool),
      getRequiredComponentNamesLoop t d initial acc out = some (out1, .ok acc1) →
      ∀ k ∈ acc1.keys, k ∈ acc.keys ∨ ∃ root ∈ initial, ∃ out0 st,
        getRequiredComponentNamesInternal t root d root { visited := [], output := out0 } =
          some (st, none) ∧ k ∈ st.visited.keys := by
  induction initial with
  | nil =>
    intro acc out out1 acc1 h k hk
    simp only [getRequiredComponentNamesLoop, Option.some.injEq, Prod.mk.injEq,
      Except.ok.injEq] at h
    obtain ⟨_, rfl⟩ := h
    exact Or.inl hk
  | cons a rest ih =>
    intro acc out out1 acc1 h k hk
    simp only [getRequiredComponentNamesLoop] at h
    cases hc : getRequiredComponentNamesInternal t a d a { visited := [], output := out } with
    | none => simp [hc] at h
    | some r =>
      obtain ⟨st, e⟩ := r
      cases e with
      | some err => simp [hc] at h
      | none =>
        simp only [hc] at h
        rcases ih _ _ _ _ h k hk with hin | ⟨root, hroot, out0, st2, hwalk, hmem⟩
        · rcases (mem_keys_mergeVisited _ _ _).1 hin with h1 | h1
          · exact Or.inl h1
          · exact Or.inr ⟨a, List.mem_cons_self _ _, out, st, hc, h1⟩
        · exact Or.inr ⟨root, List.mem_cons_of_mem _ hroot, out0, st2, hwalk, hmem⟩

/-- Every name the resolver returns resolves in the catalog, so it splits into two pieces. -/
theorem required_names_resolve (t : TemplateJSON) (d : Nat) (initial output required : List String)
    (h : getRequiredComponentNames d t initial = some (output, .ok required))
    (n : String) (hn : n ∈ required) :
    (∃ deps, getTemplateDependencies t n = .ok deps) ∧ (stringsSplitSlash n).length = 2 := by
  unfold getRequiredComponentNames at h
  cases hl : getRequiredComponentNamesLoop t d initial [] [] with
  | none => simp [hl] at h
  | some x =>
    obtain ⟨out1, res⟩ := x
    cases res with
    | error err => simp [hl] at h
    | ok m =>
      simp only [hl, Option.some.injEq, Prod.mk.injEq, Except.ok.injEq] at h
      obtain ⟨_, rfl⟩ := h
      rcases loop_keys t d initial _ _ _ _ hl n hn with h0 | ⟨root, _, out0, st, hwalk, hmem⟩
      · simp [GoMap.keys] at h0
      · obtain ⟨_, deps, hdeps, _⟩ := walk_keys_black t root d root out0 st hwalk n hmem
        refine ⟨⟨deps, hdeps⟩, ?_⟩
        by_contra hlen
        rw [getTemplateDependencies_bad_shape t n hlen] at hdeps
        simp at hdeps

/-- In the pipeline of `getRequiredStencils` a stencil is kept only if its bare name itself
splits into a type and a name; a stencil whose name has no slash is never kept. -/
theorem kept_stencils_have_slash (depth : Nat) (t : TemplateJSON) (output : List String)
    (stencils : List StencilTemplate)
    (h : requiredStencilsOf depth t = some (output, .ok stencils))
    (s : StencilTemplate) (hs : s ∈ stencils) : (stringsSplitSlash s.Name).length = 2 := by
  unfold requiredStencilsOf at h
  cases hi : getInitialComponentNames t with
  | error err => simp [hi] at h
  | ok initial =>
    simp only [hi] at h
    cases hr : getRequiredComponentNames depth t initial with
    | none => simp [hr] at h
    | some x =>
      obtain ⟨out1, res⟩ := x
      cases res with
      | error err => simp [hr] at h
      | ok required =>
        simp only [hr, Option.some.injEq, Prod.mk.injEq, Except.ok.injEq] at h
        obtain ⟨_, rfl⟩ := h
        rw [filterStencils_eq] at hs
        have hmem : s.Name ∈ required := by simpa using (List.mem_filter.1 hs).2
        exact (required_names_resolve t depth initial out1 required hr s.Name hmem).2

/-! ## Assembly of the entries -/

theorem downloadAndAddStencil_ok (env : Collaborators) (w : World) (context : String)
    (stencil : StencilTemplate) (manifestFile : ManifestBundle)
    (bundleFolder templateRepository branch : String) (manifestStencils : List BundleStencil)
    (hfetch : ∀ history request, env.DownloadSingleFile history request = none) :
    (downloadAndAddStencil env w context stencil manifestFile bundleFolder templateRepository
      branch manifestStencils).2 =
      .ok (manifestFile, manifestStencils ++ [instanceEntry context stencil]) := by
  by_cases h : context = ""
  · subst h
    simp [downloadAndAddStencil, hfetch, instanceEntry]
  · simp [downloadAndAddStencil, hfetch, instanceEntry, h]

theorem forEachService_ok (env : Collaborators) (stencil : StencilTemplate)
    (bundleFolder templateRepository branch : String)
    (hfetch : ∀ history request, env.DownloadSingleFile history request = none)
    (services : List Service) :
    ∀ (w : World) (manifestFile : ManifestBundle) (manifestStencils : List BundleStencil),
      (forEachService env stencil bundleFolder templateRepository branch services w manifestFile
        manifestStencils).2 =
        .ok (manifestFile,
          manifestStencils ++ services.map fun service => instanceEntry service.Name stencil) := by
  induction services with
  | nil =>
    intro w manifestFile manifestStencils
    simp [forEachService]
  | cons service rest ih =>
    intro w manifestFile manifestStencils
    have h := downloadAndAddStencil_ok env w service.Name stencil manifestFile bundleFolder
      templateRepository branch manifestStencils hfetch
    unfold forEachService
    cases hd : downloadAndAddStencil env w service.Name stencil manifestFile bundleFolder
      templateRepository branch manifestStencils with
    | mk w1 res =>
      rw [hd] at h
      simp only at h
      subst h
      simp only
      rw [ih]
      simp

/-! ## The claims -/

set_option maxRecDepth 20000

/-- C1, closure completeness: whenever `getRequiredComponentNames` returns a list without error,
every qualified name reachable in zero or more dependency edges from one of the initial names is
a member of that list; this covers the names on a dependency cycle. -/
theorem closure_completeness (t : TemplateJSON) (depth : Nat)
    (initial output required : List String)
    (h : getRequiredComponentNames depth t initial = some (output, .ok required))
    (root : String) (hroot : root ∈ initial) (n : String) (hreach : Reachable t root n) :
    n ∈ required :=
  (resolver_ok t depth initial output required h root hroot n hreach).1

/-- Witness of C1 on the two-stencil cycle: B is reachable from A and is in the result. -/
theorem closure_completeness_witness :
    getRequiredComponentNames 4 cycleCatalog ["stencils/A"] =
        some ([circularMessage "stencils/A" "stencils/A"], .ok ["stencils/A", "stencils/B"]) ∧
      Reachable cycleCatalog "stencils/A" "stencils/B" ∧
      "stencils/B" ∈ ["stencils/A", "stencils/B"] :=
  have hreach : Reachable cycleCatalog "stencils/A" "stencils/B" :=
    Relation.ReflTransGen.single ⟨["stencils/B"], by decide, by simp⟩
  ⟨by decide, hreach,
    closure_completeness cycleCatalog 4 ["stencils/A"]
      [circularMessage "stencils/A" "stencils/A"] ["stencils/A", "stencils/B"] (by decide)
      "stencils/A" (by simp) "stencils/B" hreach⟩

/-- On a catalog with every unit present: if a name reachable from an initial name (that name
itself included) does not resolve in the catalog, be it because it names a unit the catalog does
not have, then `getRequiredComponentNames` never returns a list, and with a sufficient depth
budget it returns an error, whatever the other initial names are. -/
theorem unknown_reference_present (t : TemplateJSON) (initial : List String) (root : String)
    (hroot : root ∈ initial) (n : String) (hreach : Reachable t root n)
    (hbad : ∃ err, getTemplateDependencies t n = .error err) :
    (∀ depth output required,
      getRequiredComponentNames depth t initial ≠ some (output, .ok required)) ∧
    ∀ depth, recursionBound t ≤ depth →
      ∃ output err, getRequiredComponentNames depth t initial = some (output, .error err) := by
  have hnever : ∀ depth output required,
      getRequiredComponentNames depth t initial ≠ some (output, .ok required) := by
    intro depth output required h
    obtain ⟨_, deps, hdeps⟩ := resolver_ok t depth initial output required h root hroot n hreach
    obtain ⟨err, herr⟩ := hbad
    rw [hdeps] at herr
    simp at herr
  refine ⟨hnever, fun depth hdepth => ?_⟩
  obtain ⟨r, hr⟩ := getRequiredComponentNames_total t depth hdepth initial
  obtain ⟨output, res⟩ := r
  cases res with
  | error err => exact ⟨output, err, hr⟩
  | ok required => exact absurd hr (hnever depth output required)

/-- Example: stencil A needs a policy P that the catalog does not have, while the other
initial name, stencil B, resolves cleanly. -/
theorem unknown_reference_present_example :
    "stencils/A" ∈ ["stencils/B", "stencils/A"] ∧
      Reachable danglingCatalog "stencils/A" "policies/P" ∧
      getTemplateDependencies danglingCatalog "policies/P" =
        .error (notFoundMessage "policies/P") ∧
      ∃ output err, getRequiredComponentNames (recursionBound danglingCatalog) danglingCatalog
        ["stencils/B", "stencils/A"] = some (output, .error err) :=
  have hreach : Reachable danglingCatalog "stencils/A" "policies/P" :=
    Relation.ReflTransGen.single ⟨["policies/P"], by decide, by simp⟩
  ⟨by simp, hreach, by decide,
    (unknown_reference_present danglingCatalog ["stencils/B", "stencils/A"] "stencils/A"
      (by simp) "policies/P" hreach ⟨notFoundMessage "policies/P", by decide⟩).2 _
      (Nat.le_refl _)⟩

theorem split_stencils_A : stringsSplitSlash "stencils/A" = ["stencils", "A"] := by decide

theorem split_stencils_B : stringsSplitSlash "stencils/B" = ["stencils", "B"] := by decide

/-- C3, cycle safety: in a catalog whose stencils are A, depending on `stencils/B`, and B,
depending on `stencils/A`, resolution from `stencils/A` returns for every depth budget of at
least three, returns no error, and the returned list has both `stencils/A` and `stencils/B`. -/
theorem cycle_safety (t : TemplateJSON) (a b : StencilTemplate)
    (ht : t.Templates.Stencils = [a, b])
    (ha : a.Name = "A") (had : a.Dependencies = ["stencils/B"])
    (hb : b.Name = "B") (hbd : b.Dependencies = ["stencils/A"])
    (depth : Nat) (hdepth : 3 ≤ depth) :
    ∃ output required,
      getRequiredComponentNames depth t ["stencils/A"] = some (output, .ok required) ∧
      "stencils/A" ∈ required ∧ "stencils/B" ∈ required := by
  have hA : getTemplateDependencies t "stencils/A" = .ok ["stencils/B"] := by
    simp [getTemplateDependencies, split_stencils_A, findDependencies, ht, ha, had]
  have hB : getTemplateDependencies t "stencils/B" = .ok ["stencils/A"] := by
    simp [getTemplateDependencies, split_stencils_B, findDependencies, ht, ha, hb, hbd]
  have h3 : getRequiredComponentNames 3 t ["stencils/A"] =
      some ([circularMessage "stencils/A" "stencils/A"], .ok ["stencils/A", "stencils/B"]) := by
    simp [getRequiredComponentNames, getRequiredComponentNamesLoop,
      getRequiredComponentNamesInternal, forEachDependency, GoMap.get?, GoMap.set, hA, hB,
      mergeVisited, GoMap.keys]
  exact ⟨_, _, getRequiredComponentNames_mono t 3 depth hdepth _ _ h3, by simp, by simp⟩

/-- Witness of C3 on the example cycle, with the budget `recursionBound`. -/
theorem cycle_safety_witness :
    3 ≤ recursionBound cycleCatalog ∧
      ∃ output required,
        getRequiredComponentNames (recursionBound cycleCatalog) cycleCatalog ["stencils/A"] =
          some (output, .ok required) ∧
        "stencils/A" ∈ required ∧ "stencils/B" ∈ required :=
  ⟨by decide,
    cycle_safety cycleCatalog (exampleStencil "A" ["stencils/B"] 1 "")
      (exampleStencil "B" ["stencils/A"] 0 "") rfl rfl rfl rfl rfl _ (by decide)⟩

/-- C4, mandatory stencils reach the working set: evaluation at the failing input. Stencil A of
`plainCatalog` has `min_usage` 1, resolution succeeds with the one name `stencils/A`, and the
filter, which compares the bare name `A` with that name, keeps nothing, so that
`getRequiredStencils` appends a base template without any stencil entry. -/
theorem mandatory_stencil_not_kept :
    exampleStencil "A" [] 1 "service" ∈ plainCatalog.Templates.Stencils ∧
      (exampleStencil "A" [] 1 "service").MinUsage > 0 ∧
      getInitialComponentNames plainCatalog = .ok ["stencils/A"] ∧
      getRequiredComponentNames (recursionBound plainCatalog) plainCatalog ["stencils/A"] =
        some ([], .ok ["stencils/A"]) ∧
      requiredStencilsOf (recursionBound plainCatalog) plainCatalog = some ([], .ok []) ∧
      (getRequiredStencils (exampleEnv plainCatalog) (recursionBound plainCatalog)
          { downloads := [], output := [] } "repo/" "master" [{ Name := "web" }] "/bundle"
          emptyManifest "https://example.org/app").map (fun r => r.2) =
        some (.ok { emptyManifest with
          BaseTemplates := [{ Name := "rails", Repo := "https://example.org/app",
                              Branch := "master", Stencils := [] }] }) := by
  decide

/-- C5, catalog filter: evaluation at the failing input. The qualified name `stencils/A` of
stencil A is in the given list and the filter returns no stencil; a stencil whose bare name is
`stencils/A` would be returned instead. -/
theorem filter_compares_bare_names :
    filterStencilsByRequiredComponentNames plainCatalog ["stencils/A"] = [] ∧
      filterStencilsByRequiredComponentNames
        (exampleCatalog [exampleStencil "stencils/A" [] 0 ""] [] []) ["stencils/A"] =
        [exampleStencil "stencils/A" [] 0 ""] := by
  decide

/-- C6 as stated fails for a service whose name is empty: the entry of that service has the
bare template file name, not the name with the prefix `_`. -/
theorem service_fan_out_counterexample :
    (assembleStencil (exampleEnv plainCatalog) [{ Name := "" }] "/bundle" "repo/" "master"
        (exampleStencil "A" [] 1 "service") { downloads := [], output := [] } emptyManifest
        []).2 =
      .ok (emptyManifest,
        [{ UID := "", Filename := "A.yml", TemplateFilename := "A.yml", ContextID := "",
           Status := 2, Tags := ["starter"], Sequence := 3 }]) ∧
      "A.yml" ≠ "" ++ "_" ++ "A.yml" := by
  decide

/-- C6 amended, service fan-out: for a stencil with context type `service`, when every fetch
succeeds, the assembly step appends exactly one entry per service, in service order; the entry
of a service has the service name as context identifier, the stencil's file name as template
file name, the stencil's preferred sequence, and as file name the service name, `_` and the
template file name when the service name is not empty, the template file name alone when it
is. -/
theorem service_fan_out (env : Collaborators) (services : List Service)
    (bundleFolder templateRepository branch : String) (stencil : StencilTemplate) (w : World)
    (manifestFile : ManifestBundle) (manifestStencils : List BundleStencil)
    (hctx : stencil.ContextType = "service")
    (hfetch : ∀ history request, env.DownloadSingleFile history request = none) :
    (assembleStencil env services bundleFolder templateRepository branch stencil w manifestFile
      manifestStencils).2 =
      .ok (manifestFile, manifestStencils ++ services.map fun service =>
        { UID := "",
          Filename := if service.Name = "" then stencil.Filename
            else service.Name ++ "_" ++ stencil.Filename,
          TemplateFilename := stencil.Filename, ContextID := service.Name, Status := 2,
          Tags := ["starter"], Sequence := stencil.PreferredSequence }) := by
  unfold assembleStencil
  rw [if_pos hctx]
  exact forEachService_ok env stencil bundleFolder templateRepository branch hfetch services w
    manifestFile manifestStencils

/-- Witness of C6: the services web and worker give the two entries `web_A.yml` and
`worker_A.yml`, with the same template file name and sequence. -/
theorem service_fan_out_witness :
    (assembleStencil (exampleEnv plainCatalog) [{ Name := "web" }, { Name := "worker" }]
        "/bundle" "repo/" "master" (exampleStencil "A" [] 1 "service")
        { downloads := [], output := [] } emptyManifest []).2 =
      .ok (emptyManifest,
        [{ UID := "", Filename := "web_A.yml", TemplateFilename := "A.yml", ContextID := "web",
           Status := 2, Tags := ["starter"], Sequence := 3 },
         { UID := "", Filename := "worker_A.yml", TemplateFilename := "A.yml",
           ContextID := "worker", Status := 2, Tags := ["starter"], Sequence := 3 }]) :=
  (service_fan_out (exampleEnv plainCatalog) [{ Name := "web" }, { Name := "worker" }]
    "/bundle" "repo/" "master" (exampleStencil "A" [] 1 "service")
    { downloads := [], output := [] } emptyManifest [] rfl (fun _ _ => rfl)).trans (by decide)

/-- C7, non-service single instantiation: for a stencil whose context type is not `service` and
any list of services, when the fetch succeeds, the assembly step appends exactly one entry,
with empty context identifier and the stencil's file name, unprefixed, as file name. -/
theorem non_service_single_instantiation (env : Collaborators) (services : List Service)
    (bundleFolder templateRepository branch : String) (stencil : StencilTemplate) (w : World)
    (manifestFile : ManifestBundle) (manifestStencils : List BundleStencil)
    (hctx : stencil.ContextType ≠ "service")
    (hfetch : ∀ history request, env.DownloadSingleFile history request = none) :
    (assembleStencil env services bundleFolder templateRepository branch stencil w manifestFile
      manifestStencils).2 =
      .ok (manifestFile, manifestStencils ++
        [{ UID := "", Filename := stencil.Filename, TemplateFilename := stencil.Filename,
           ContextID := "", Status := 2, Tags := ["starter"],
           Sequence := stencil.PreferredSequence }]) := by
  unfold assembleStencil
  rw [if_neg hctx]
  rw [downloadAndAddStencil_ok env w "" stencil manifestFile bundleFolder templateRepository
    branch manifestStencils hfetch]
  simp [instanceEntry]

/-- Witness of C7: stencil B of `plainCatalog` has no context type; with two services it still
gives the one entry `B.yml`. -/
theorem non_service_single_instantiation_witness :
    (assembleStencil (exampleEnv plainCatalog) [{ Name := "web" }, { Name := "worker" }]
        "/bundle" "repo/" "master" (exampleStencil "B" [] 0 "")
        { downloads := [], output := [] } emptyManifest []).2 =
      .ok (emptyManifest,
        [{ UID := "", Filename := "B.yml", TemplateFilename := "B.yml", ContextID := "",
           Status := 2, Tags := ["starter"], Sequence := 3 }]) :=
  (non_service_single_instantiation (exampleEnv plainCatalog)
    [{ Name := "web" }, { Name := "worker" }] "/bundle" "repo/" "master"
    (exampleStencil "B" [] 0 "") { downloads := [], output := [] } emptyManifest []
    (by decide) (fun _ _ => rfl)).trans (by decide)

/-- On a catalog with every unit present: `getInitialComponentNames` returns the names
`stencils/<name>` of exactly the stencils with `min_usage > 0`, in declaration order; and when
no stencil has `min_usage > 0`, the initial names, the list returned by
`getRequiredComponentNames` on them and the filtered stencil list are all empty. -/
theorem root_selection_present (t : TemplateJSON) :
    getInitialComponentNames t =
        .ok ((t.Templates.Stencils.filter fun s => decide (s.MinUsage > 0)).map
          fun s => "stencils/" ++ s.Name) ∧
      ((∀ s ∈ t.Templates.Stencils, ¬ s.MinUsage > 0) →
        getInitialComponentNames t = .ok [] ∧
        (∀ depth, getRequiredComponentNames depth t [] = some ([], .ok [])) ∧
        filterStencilsByRequiredComponentNames t [] = [] ∧
        ∀ depth, requiredStencilsOf depth t = some ([], .ok [])) := by
  have h1 : getInitialComponentNames t =
      .ok ((t.Templates.Stencils.filter fun s => decide (s.MinUsage > 0)).map
        fun s => "stencils/" ++ s.Name) := by
    simp [getInitialComponentNames, getInitialComponentNamesLoop_eq]
  refine ⟨h1, fun hnone => ?_⟩
  have hfilter : (t.Templates.Stencils.filter fun s => decide (s.MinUsage > 0)) = [] := by
    rw [List.filter_eq_nil_iff]
    intro s hs
    simpa using hnone s hs
  have h2 : getInitialComponentNames t = .ok [] := by
    rw [h1, hfilter]
    rfl
  have h3 : ∀ depth, getRequiredComponentNames depth t [] = some ([], .ok []) := fun _ => rfl
  have h4 : filterStencilsByRequiredComponentNames t [] = [] := by
    simp [filterStencils_eq]
  refine ⟨h2, h3, h4, fun depth => ?_⟩
  simp [requiredStencilsOf, h2, h3 depth, h4]

/-- Example: a catalog without a mandatory stencil. -/
theorem root_selection_present_example :
    (∀ s ∈ optionalCatalog.Templates.Stencils, ¬ s.MinUsage > 0) ∧
      getInitialComponentNames optionalCatalog = .ok [] ∧
      (∀ depth, getRequiredComponentNames depth optionalCatalog [] = some ([], .ok [])) ∧
      filterStencilsByRequiredComponentNames optionalCatalog [] = [] ∧
      ∀ depth, requiredStencilsOf depth optionalCatalog = some ([], .ok []) :=
  ⟨by decide, (root_selection_present optionalCatalog).2 (by decide)⟩

/-- On a catalog with every unit present: `getTemplateDependencies` returns an error exactly
when the name does not split on the slash into two parts, or its type part is none of the four
template types, or no unit of that type has the name part as name; and it returns a list exactly
when the name splits into a template type and a name and the list is the dependency list of the
first unit of that type, in declaration order, with that name. -/
theorem lookup_present (t : TemplateJSON) (name : String) :
    ((∃ err, getTemplateDependencies t name = .error err) ↔
      ((stringsSplitSlash name).length ≠ 2 ∨
        (∃ ty nm, stringsSplitSlash name = [ty, nm] ∧ ty ∉ templateTypes) ∨
        (∃ ty nm, stringsSplitSlash name = [ty, nm] ∧ ∀ u ∈ unitsOfType t ty, u.1 ≠ nm))) ∧
    (∀ deps, getTemplateDependencies t name = .ok deps ↔
      ∃ ty nm before u after, stringsSplitSlash name = [ty, nm] ∧ ty ∈ templateTypes ∧
        unitsOfType t ty = before ++ u :: after ∧ (∀ v ∈ before, v.1 ≠ nm) ∧
        u.1 = nm ∧ u.2 = deps) := by
  by_cases hlen : (stringsSplitSlash name).length = 2
  · obtain ⟨ty, nm, hsplit⟩ := List.length_eq_two.1 hlen
    by_cases hty : ty ∈ templateTypes
    · rw [getTemplateDependencies_of_type t name ty nm hsplit hty]
      constructor
      · rw [findDependencies_error_iff]
        constructor
        · intro h
          exact Or.inr (Or.inr ⟨ty, nm, hsplit, h⟩)
        · rintro (h | ⟨ty2, nm2, h2, hbad⟩ | ⟨ty2, nm2, h2, hall⟩)
          · exact absurd hlen h
          · rw [hsplit] at h2
            simp only [List.cons.injEq, and_true] at h2
            obtain ⟨rfl, rfl⟩ := h2
            exact absurd hty hbad
          · rw [hsplit] at h2
            simp only [List.cons.injEq, and_true] at h2
            obtain ⟨rfl, rfl⟩ := h2
            exact hall
      · intro deps
        rw [findDependencies_ok_iff]
        constructor
        · rintro ⟨before, u, after, h⟩
          exact ⟨ty, nm, before, u, after, hsplit, hty, h⟩
        · rintro ⟨ty2, nm2, before, u, after, h2, _, h⟩
          rw [hsplit] at h2
          simp only [List.cons.injEq, and_true] at h2
          obtain ⟨rfl, rfl⟩ := h2
          exact ⟨before, u, after, h⟩
    · rw [getTemplateDependencies_bad_type t name ty nm hsplit hty]
      constructor
      · exact ⟨fun _ => Or.inr (Or.inl ⟨ty, nm, hsplit, hty⟩), fun _ => ⟨_, rfl⟩⟩
      · intro deps
        simp only [reduceCtorEq, false_iff, not_exists, not_and]
        intro ty2 nm2 before u after h2 hty2
        rw [hsplit] at h2
        simp only [List.cons.injEq, and_true] at h2
        obtain ⟨rfl, rfl⟩ := h2
        exact absurd hty2 hty
  · rw [getTemplateDependencies_bad_shape t name hlen]
    constructor
    · exact ⟨fun _ => Or.inl hlen, fun _ => ⟨_, rfl⟩⟩
    · intro deps
      simp only [reduceCtorEq, false_iff, not_exists, not_and]
      intro ty2 nm2 before u after h2
      rw [h2] at hlen
      simp at hlen

/-- C10, qualified-name helper: evaluation at the failing input. For the Helm release `redis`
of `plainCatalog`, `generateFullyQualifiedName` returns `helm_releases/redis`, which
`getTemplateDependencies` refuses as malformed, while it resolves `helm_charts/redis`. -/
theorem helm_release_qualified_name_refused :
    generateFullyQualifiedName (.helmRelease { Name := "redis", Dependencies := [] }) =
        .ok "helm_releases/redis" ∧
      getTemplateDependencies plainCatalog "helm_releases/redis" =
        .error (malformedMessage "helm_releases/redis") ∧
      getTemplateDependencies plainCatalog "helm_charts/redis" = .ok [] := by
  decide

/-! ## Soundness of the walk and its errors -/

/-- The loop adds only keys that the calls add. -/
theorem forEachDependency_keys (t : TemplateJSON)
    (call : String → ResolveState → Option (ResolveState × Option String))
    (hcall : ∀ name st st1, call name st = some (st1, none) →
      ∀ k ∈ st1.visited.keys, k ∈ st.visited.keys ∨ Reachable t name k)
    (deps : List String) (st st1 : ResolveState)
    (h : forEachDependency call deps st = some (st1, none)) :
    ∀ k ∈ st1.visited.keys, k ∈ st.visited.keys ∨ ∃ dep ∈ deps, Reachable t dep k := by
  induction deps generalizing st with
  | nil =>
    simp only [forEachDependency, Option.some.injEq, Prod.mk.injEq, and_true] at h
    subst h
    exact fun k hk => Or.inl hk
  | cons dep rest ih =>
    simp only [forEachDependency] at h
    cases hc : call dep st with
    | none => simp [hc] at h
    | some r =>
      obtain ⟨st2, e⟩ := r
      cases e with
      | some err => simp [hc] at h
      | none =>
        simp only [hc] at h
        intro k hk
        rcases ih st2 h k hk with h2 | ⟨d, hd, hr⟩
        · rcases hcall dep st st2 hc k h2 with h3 | h3
          · exact Or.inl h3
          · exact Or.inr ⟨dep, List.mem_cons_self _ _, h3⟩
        · exact Or.inr ⟨d, List.mem_cons_of_mem _ hd, hr⟩

/-- A walk that returns without error adds only keys reachable from its name. -/
theorem internal_keys_reachable (t : TemplateJSON) (rootName : String) (d : Nat) :
    ∀ (name : String) (st st1 : ResolveState),
      getRequiredComponentNamesInternal t rootName d name st = some (st1, none) →
      ∀ k ∈ st1.visited.keys, k ∈ st.visited.keys ∨ Reachable t name k := by
  induction d with
  | zero =>
    intro name st st1 h
    simp [getRequiredComponentNamesInternal] at h
  | succ d ih =>
    intro name st st1 h
    rcases color_cases st.visited name with hf | hg | hb
    · rw [internal_fresh t rootName d name st hf] at h
      cases hd : getTemplateDependencies t name with
      | error err => simp [hd] at h
      | ok deps =>
        simp only [hd] at h
        cases hl : forEachDependency (getRequiredComponentNamesInternal t rootName d) deps
            { st with visited := st.visited.set name color.grey } with
        | none => simp [hl] at h
        | some r =>
          obtain ⟨st3, e⟩ := r
          cases e with
          | some err => simp [hl] at h
          | none =>
            simp only [hl, Option.some.injEq, Prod.mk.injEq, and_true] at h
            subst h
            intro k hk
            rcases (GoMap.mem_keys_set _ _ _ _).1 hk with rfl | hk3
            · exact Or.inr Relation.ReflTransGen.refl
            · rcases forEachDependency_keys t _ ih deps _ st3 hl k hk3 with h2 | ⟨dep, hdep, hr⟩
              · rcases (GoMap.mem_keys_set _ _ _ _).1 h2 with rfl | h4
                · exact Or.inr Relation.ReflTransGen.refl
                · exact Or.inl h4
              · exact Or.inr (Relation.ReflTransGen.head ⟨deps, hd, hdep⟩ hr)
    · rw [internal_grey t rootName d name st hg] at h
      simp only [Option.some.injEq, Prod.mk.injEq, and_true] at h
      subst h
      exact fun k hk => Or.inl hk
    · rw [internal_black t rootName d name st hb] at h
      simp only [Option.some.injEq, Prod.mk.injEq, and_true] at h
      subst h
      exact fun k hk => Or.inl hk

/-- An error of the loop is the error of one of its calls. -/
theorem forEachDependency_error
    (call : String → ResolveState → Option (ResolveState × Option String))
    (deps : List String) (st st1 : ResolveState) (err : String)
    (h : forEachDependency call deps st = some (st1, some err)) :
    ∃ dep ∈ deps, ∃ s s1, call dep s = some (s1, some err) := by
  induction deps generalizing st with
  | nil => simp [forEachDependency] at h
  | cons dep rest ih =>
    simp only [forEachDependency] at h
    cases hc : call dep st with
    | none => simp [hc] at h
    | some r =>
      obtain ⟨st2, e⟩ := r
      cases e with
      | some err2 =>
        simp only [hc, Option.some.injEq, Prod.mk.injEq] at h
        obtain ⟨_, h2⟩ := h
        subst h2
        exact ⟨dep, List.mem_cons_self _ _, st, st2, hc⟩
      | none =>
        simp only [hc] at h
        obtain ⟨d, hd, hx⟩ := ih st2 h
        exact ⟨d, List.mem_cons_of_mem _ hd, hx⟩

/-- An error of the walk is the lookup error of a name reachable from where it started. -/
theorem internal_error (t : TemplateJSON) (rootName : String) (d : Nat) :
    ∀ (name : String) (st st1 : ResolveState) (err : String),
      getRequiredComponentNamesInternal t rootName d name st = some (st1, some err) →
      ∃ n, Reachable t name n ∧ getTemplateDependencies t n = .error err := by
  induction d with
  | zero =>
    intro name st st1 err h
    simp [getRequiredComponentNamesInternal] at h
  | succ d ih =>
    intro name st st1 err h
    rcases color_cases st.visited name with hf | hg | hb
    · rw [internal_fresh t rootName d name st hf] at h
      cases hd : getTemplateDependencies t name with
      | error err2 =>
        simp only [hd, Option.some.injEq, Prod.mk.injEq] at h
        obtain ⟨_, h2⟩ := h
        subst h2
        exact ⟨name, Relation.ReflTransGen.refl, hd⟩
      | ok deps =>
        simp only [hd] at h
        cases hl : forEachDependency (getRequiredComponentNamesInternal t rootName d) deps
            { st with visited := st.visited.set name color.grey } with
        | none => simp [hl] at h
        | some r =>
          obtain ⟨st3, e⟩ := r
          cases e with
          | none => simp [hl] at h
          | some err2 =>
            simp only [hl, Option.some.injEq, Prod.mk.injEq] at h
            obtain ⟨_, h2⟩ := h
            subst h2
            obtain ⟨dep, hdep, s, s1, hcall⟩ := forEachDependency_error _ deps _ st3 err2 hl
            obtain ⟨n, hn, hbad⟩ := ih dep s s1 err2 hcall
            exact ⟨n, Relation.ReflTransGen.head ⟨deps, hd, hdep⟩ hn, hbad⟩
    · rw [internal_grey t rootName d name st hg] at h
      simp at h
    · rw [internal_black t rootName d name st hb] at h
      simp at h

/-- An error of the loop over the initial names is the lookup error of a name reachable from
one of them. -/
theorem loop_error (t : TemplateJSON) (d : Nat) (initial : List String) :
    ∀ (acc : GoMap Bool) (out out1 : List String) (err : String),
      getRequiredComponentNamesLoop t d initial acc out = some (out1, .error err) →
      ∃ root ∈ initial, ∃ n, Reachable t root n ∧ getTemplateDependencies t n = .error err := by
  induction initial with
  | nil =>
    intro acc out out1 err h
    simp [getRequiredComponentNamesLoop] at h
  | cons a rest ih =>
    intro acc out out1 err h
    simp only [getRequiredComponentNamesLoop] at h
    cases hc : getRequiredComponentNamesInternal t a d a { visited := [], output := out } with
    | none => simp [hc] at h
    | some r =>
      obtain ⟨st, e⟩ := r
      cases e with
      | some err2 =>
        simp only [hc, Option.some.injEq, Prod.mk.injEq, Except.error.injEq] at h
        obtain ⟨_, rfl⟩ := h
        obtain ⟨n, hn, hbad⟩ := internal_error t a d a _ st err2 hc
        exact ⟨a, List.mem_cons_self _ _, n, hn, hbad⟩
      | none =>
        simp only [hc] at h
        obtain ⟨root, hroot, hx⟩ := ih _ _ _ _ h
        exact ⟨root, List.mem_cons_of_mem _ hroot, hx⟩

/-- C11, closure soundness: whenever `getRequiredComponentNames` returns a list without error,
every name of the list is one of the initial names or is reached from one of them in one or
more dependency edges. -/
theorem closure_soundness (t : TemplateJSON) (depth : Nat) (initial output required : List String)
    (h : getRequiredComponentNames depth t initial = some (output, .ok required))
    (n : String) (hn : n ∈ required) :
    n ∈ initial ∨ ∃ root ∈ initial, Relation.TransGen (DependsOn t) root n := by
  unfold getRequiredComponentNames at h
  cases hl : getRequiredComponentNamesLoop t depth initial [] [] with
  | none => simp [hl] at h
  | some x =>
    obtain ⟨out1, res⟩ := x
    cases res with
    | error err => simp [hl] at h
    | ok m =>
      simp only [hl, Option.some.injEq, Prod.mk.injEq, Except.ok.injEq] at h
      obtain ⟨_, rfl⟩ := h
      rcases loop_keys t depth initial _ _ _ _ hl n hn with h0 | ⟨root, hroot, out0, st, hwalk, hmem⟩
      · simp [GoMap.keys] at h0
      · rcases internal_keys_reachable t root depth root _ st hwalk n hmem with h1 | h1
        · simp [GoMap.keys] at h1
        · rcases Relation.reflTransGen_iff_eq_or_transGen.1 h1 with h2 | h2
          · exact Or.inl (h2 ▸ hroot)
          · exact Or.inr ⟨root, hroot, h2⟩

/-- Witness of C11 on the chain A, B: the name `stencils/B` of the result is reached from the
initial name `stencils/A`. -/
theorem closure_soundness_witness :
    getRequiredComponentNames 3 chainCatalog ["stencils/A"] =
        some ([], .ok ["stencils/A", "stencils/B"]) ∧
      ("stencils/B" ∈ ["stencils/A"] ∨
        ∃ root ∈ ["stencils/A"], Relation.TransGen (DependsOn chainCatalog) root "stencils/B") :=
  ⟨by decide,
    closure_soundness chainCatalog 3 ["stencils/A"] [] ["stencils/A", "stencils/B"] (by decide)
      "stencils/B" (by simp)⟩

/-! ## The resolver under any iteration order -/

theorem GoMap.keys_set {V : Type} (m : GoMap V) (k : String) (v : V) :
    (m.set k v).keys = if k ∈ m.keys then m.keys else m.keys ++ [k] := by
  induction m with
  | nil => simp [GoMap.set, GoMap.keys]
  | cons p rest ih =>
    obtain ⟨k1, v1⟩ := p
    have ih2 : List.map Prod.fst (GoMap.set rest k v) =
        if k ∈ List.map Prod.fst rest then List.map Prod.fst rest
        else List.map Prod.fst rest ++ [k] := ih
    by_cases h : k1 = k
    · subst h
      simp [GoMap.set, GoMap.keys]
    · have h2 : ¬ k = k1 := fun e => h e.symm
      by_cases hm : k ∈ List.map Prod.fst rest
      · simp only [GoMap.set, h, if_false, GoMap.keys, List.map_cons, ih2, hm, if_true,
          List.mem_cons, or_true]
      · simp only [GoMap.set, h, if_false, GoMap.keys, List.map_cons, ih2, hm,
          List.mem_cons, h2, or_self, List.cons_append]

theorem nodup_keys_set {V : Type} (m : GoMap V) (k : String) (v : V) (h : m.keys.Nodup) :
    (m.set k v).keys.Nodup := by
  rw [GoMap.keys_set]
  by_cases hk : k ∈ m.keys
  · rw [if_pos hk]
    exact h
  · rw [if_neg hk]
    exact List.Nodup.append h (List.nodup_singleton k) (by simpa using hk)

theorem nodup_keys_mergeVisited (m : GoMap Bool) (names : List String) (h : m.keys.Nodup) :
    (mergeVisited m names).keys.Nodup := by
  induction names generalizing m with
  | nil => exact h
  | cons a rest ih => exact ih _ (nodup_keys_set m a true h)

theorem loopOrdered_nodup (order : Nat → List String → List String) (t : TemplateJSON)
    (d : Nat) (initial : List String) :
    ∀ (i : Nat) (acc : GoMap Bool) (out out1 : List String) (acc1 : GoMap Bool),
      acc.keys.Nodup →
      getRequiredComponentNamesLoopOrdered order t d i initial acc out = some (out1, .ok acc1) →
      acc1.keys.Nodup := by
  induction initial with
  | nil =>
    intro i acc out out1 acc1 hacc h
    simp only [getRequiredComponentNamesLoopOrdered, Option.some.injEq, Prod.mk.injEq,
      Except.ok.injEq] at h
    obtain ⟨_, rfl⟩ := h
    exact hacc
  | cons a rest ih =>
    intro i acc out out1 acc1 hacc h
    simp only [getRequiredComponentNamesLoopOrdered] at h
    cases hc : getRequiredComponentNamesInternal t a d a { visited := [], output := out } with
    | none => simp [hc] at h
    | some r =>
      obtain ⟨st, e⟩ := r
      cases e with
      | some err => simp [hc] at h
      | none =>
        simp only [hc] at h
        exact ih _ _ _ _ _ (nodup_keys_mergeVisited _ _ hacc) h

/-- With every `range` going through the keys in list order, the explicit-order loop is the
loop. -/
theorem loopOrdered_id (t : TemplateJSON) (d : Nat) (initial : List String) :
    ∀ (i : Nat) (acc : GoMap Bool) (out : List String),
      getRequiredComponentNamesLoopOrdered (fun _ keys => keys) t d i initial acc out =
        getRequiredComponentNamesLoop t d initial acc out := by
  induction initial with
  | nil =>
    intro i acc out
    rfl
  | cons a rest ih =>
    intro i acc out
    simp only [getRequiredComponentNamesLoopOrdered, getRequiredComponentNamesLoop]
    cases hc : getRequiredComponentNamesInternal t a d a { visited := [], output := out } with
    | none => rfl
    | some r =>
      obtain ⟨st, e⟩ := r
      cases e with
      | some err => rfl
      | none => exact ih _ _ _

theorem ordered_id (t : TemplateJSON) (d : Nat) (initial : List String) :
    getRequiredComponentNamesOrdered (fun _ keys => keys) d t initial =
      getRequiredComponentNames d t initial := by
  unfold getRequiredComponentNamesOrdered getRequiredComponentNames
  rw [loopOrdered_id]

/-- Under any iteration order the loop ends as the loop in list order does, with the same lines
printed, the same error, or a map with the same keys. -/
theorem loopOrdered_same (order : Nat → List String → List String)
    (horder : IterationOrder order) (t : TemplateJSON) (d : Nat) (initial : List String) :
    ∀ (i : Nat) (acc acc2 : GoMap Bool) (out : List String),
      (∀ k, k ∈ acc.keys ↔ k ∈ acc2.keys) →
      (getRequiredComponentNamesLoop t d initial acc2 out = none →
        getRequiredComponentNamesLoopOrdered order t d i initial acc out = none) ∧
      (∀ out1 err, getRequiredComponentNamesLoop t d initial acc2 out = some (out1, .error err) →
        getRequiredComponentNamesLoopOrdered order t d i initial acc out =
          some (out1, .error err)) ∧
      (∀ out1 m2, getRequiredComponentNamesLoop t d initial acc2 out = some (out1, .ok m2) →
        ∃ m, getRequiredComponentNamesLoopOrdered order t d i initial acc out =
          some (out1, .ok m) ∧ ∀ k, k ∈ m.keys ↔ k ∈ m2.keys) := by
  induction initial with
  | nil =>
    intro i acc acc2 out hacc
    refine ⟨fun h => ?_, fun out1 err h => ?_, fun out1 m2 h => ?_⟩
    · simp [getRequiredComponentNamesLoop] at h
    · simp [getRequiredComponentNamesLoop] at h
    · simp only [getRequiredComponentNamesLoop, Option.some.injEq, Prod.mk.injEq,
        Except.ok.injEq] at h
      obtain ⟨rfl, rfl⟩ := h
      exact ⟨acc, rfl, hacc⟩
  | cons a rest ih =>
    intro i acc acc2 out hacc
    simp only [getRequiredComponentNamesLoopOrdered, getRequiredComponentNamesLoop]
    cases hc : getRequiredComponentNamesInternal t a d a { visited := [], output := out } with
    | none => simp
    | some r =>
      obtain ⟨st, e⟩ := r
      cases e with
      | some err => simp
      | none =>
        simp only
        apply ih
        intro k
        rw [mem_keys_mergeVisited, mem_keys_mergeVisited, hacc k,
          (horder i st.visited.keys).mem_iff]

/-- Under any iteration order the resolver ends as `getRequiredComponentNames` does, with the
same lines printed, the same error, or a list with the same members. -/
theorem ordered_same (order : Nat → List String → List String) (horder : IterationOrder order)
    (t : TemplateJSON) (d : Nat) (initial : List String)
    (r : List String × Except String (List String))
    (h : getRequiredComponentNames d t initial = some r) :
    (∀ err, r.2 = .error err →
      getRequiredComponentNamesOrdered order d t initial = some (r.1, .error err)) ∧
    (∀ required, r.2 = .ok required →
      ∃ required1, getRequiredComponentNamesOrdered order d t initial =
        some (r.1, .ok required1) ∧ ∀ k, k ∈ required1 ↔ k ∈ required) := by
  obtain ⟨hnone, herr, hok⟩ := loopOrdered_same order horder t d initial 0 [] [] []
    (fun _ => Iff.rfl)
  unfold getRequiredComponentNames at h
  unfold getRequiredComponentNamesOrdered
  cases hl : getRequiredComponentNamesLoop t d initial [] [] with
  | none => simp [hl] at h
  | some x =>
    obtain ⟨out1, res⟩ := x
    cases res with
    | error err =>
      simp only [hl, Option.some.injEq] at h
      subst h
      refine ⟨fun e he => ?_, fun required he => ?_⟩
      · simp only [Except.error.injEq] at he
        subst he
        rw [herr out1 err hl]
      · simp at he
    | ok m2 =>
      simp only [hl, Option.some.injEq] at h
      subst h
      refine ⟨fun e he => ?_, fun required he => ?_⟩
      · simp at he
      · simp only [Except.ok.injEq] at he
        subst he
        obtain ⟨m, hm, hkeys⟩ := hok out1 m2 hl
        rw [hm]
        exact ⟨_, rfl, fun k => ((horder initial.length m.keys).mem_iff).trans (hkeys k)⟩

/-- An error of the resolver is the lookup error of a name reachable from an initial name. -/
theorem resolver_error (t : TemplateJSON) (d : Nat) (initial output : List String)
    (err : String) (h : getRequiredComponentNames d t initial = some (output, .error err)) :
    ∃ root ∈ initial, ∃ n, Reachable t root n ∧ getTemplateDependencies t n = .error err := by
  unfold getRequiredComponentNames at h
  cases hl : getRequiredComponentNamesLoop t d initial [] [] with
  | none => simp [hl] at h
  | some x =>
    obtain ⟨out1, res⟩ := x
    cases res with
    | ok m => simp [hl] at h
    | error err2 =>
      simp only [hl, Option.some.injEq, Prod.mk.injEq, Except.error.injEq] at h
      obtain ⟨_, rfl⟩ := h
      exact loop_error t d initial _ _ _ _ hl

/-- From `stencils/A` in the catalog of the self-dependent stencil only `stencils/A` is
reached. -/
theorem selfCatalog_reachable (n : String) (h : Reachable selfCatalog "stencils/A" n) :
    n = "stencils/A" := by
  induction h with
  | refl => rfl
  | tail _ hstep ih =>
    subst ih
    obtain ⟨deps, hdeps, hmem⟩ := hstep
    have hA : getTemplateDependencies selfCatalog "stencils/A" = .ok ["stencils/A"] := by decide
    rw [hA] at hdeps
    simp only [Except.ok.injEq] at hdeps
    subst hdeps
    simpa using hmem

/-- C12, idempotence: two runs of the resolver on the same catalog and initial names, each with
its own iteration order of the maps and a sufficient depth budget, either both fail, with the
same error, or both succeed with lists that have the same members. -/
theorem idempotence (t : TemplateJSON) (initial : List String)
    (order1 order2 : Nat → List String → List String)
    (horder1 : IterationOrder order1) (horder2 : IterationOrder order2)
    (depth1 depth2 : Nat) (hdepth1 : recursionBound t ≤ depth1)
    (hdepth2 : recursionBound t ≤ depth2) :
    (∃ output err,
      getRequiredComponentNamesOrdered order1 depth1 t initial = some (output, .error err) ∧
      getRequiredComponentNamesOrdered order2 depth2 t initial = some (output, .error err)) ∨
    (∃ output required1 required2,
      getRequiredComponentNamesOrdered order1 depth1 t initial = some (output, .ok required1) ∧
      getRequiredComponentNamesOrdered order2 depth2 t initial = some (output, .ok required2) ∧
      ∀ n, n ∈ required1 ↔ n ∈ required2) := by
  obtain ⟨r, hr⟩ := getRequiredComponentNames_total t (recursionBound t) (Nat.le_refl _) initial
  have hr1 := getRequiredComponentNames_mono t _ depth1 hdepth1 initial r hr
  have hr2 := getRequiredComponentNames_mono t _ depth2 hdepth2 initial r hr
  obtain ⟨herr1, hok1⟩ := ordered_same order1 horder1 t depth1 initial r hr1
  obtain ⟨herr2, hok2⟩ := ordered_same order2 horder2 t depth2 initial r hr2
  obtain ⟨output, res⟩ := r
  cases res with
  | error err => exact Or.inl ⟨output, err, herr1 err rfl, herr2 err rfl⟩
  | ok required =>
    obtain ⟨required1, hrun1, hmem1⟩ := hok1 required rfl
    obtain ⟨required2, hrun2, hmem2⟩ := hok2 required rfl
    exact Or.inr ⟨output, required1, required2, hrun1, hrun2,
      fun n => (hmem1 n).trans (hmem2 n).symm⟩

/-- Witness of C12 on the two-stencil cycle: the run in list order returns A, B and the run in
order that reverses the first `range` returns B, A. -/
theorem idempotence_witness :
    getRequiredComponentNamesOrdered (fun _ keys => keys) 4 cycleCatalog ["stencils/A"] =
        some ([circularMessage "stencils/A" "stencils/A"],
          .ok ["stencils/A", "stencils/B"]) ∧
      getRequiredComponentNamesOrdered reverseOrder 4 cycleCatalog ["stencils/A"] =
        some ([circularMessage "stencils/A" "stencils/A"],
          .ok ["stencils/B", "stencils/A"]) ∧
      ((∃ output err,
        getRequiredComponentNamesOrdered (fun _ keys => keys) 4 cycleCatalog ["stencils/A"] =
          some (output, .error err) ∧
        getRequiredComponentNamesOrdered reverseOrder 4 cycleCatalog ["stencils/A"] =
          some (output, .error err)) ∨
      (∃ output required1 required2,
        getRequiredComponentNamesOrdered (fun _ keys => keys) 4 cycleCatalog ["stencils/A"] =
          some (output, .ok required1) ∧
        getRequiredComponentNamesOrdered reverseOrder 4 cycleCatalog ["stencils/A"] =
          some (output, .ok required2) ∧
        ∀ n, n ∈ required1 ↔ n ∈ required2)) :=
  ⟨by decide, by decide,
    idempotence cycleCatalog ["stencils/A"] (fun _ keys => keys) reverseOrder
      (fun _ _ => List.Perm.refl _)
      (fun i keys => by
        unfold reverseOrder
        split_ifs
        · exact List.reverse_perm keys
        · exact List.Perm.refl _)
      4 4 (by decide)
      (by decide)⟩

/-- C17, deduplication: whenever the resolver returns a list without error, under any iteration
order of its maps and in particular as `getRequiredComponentNames`, no name is in the list more
than once, also when initial names repeat or share dependencies. -/
theorem deduplication (t : TemplateJSON) (depth : Nat) (initial : List String) :
    (∀ order, IterationOrder order → ∀ output required,
      getRequiredComponentNamesOrdered order depth t initial = some (output, .ok required) →
      required.Nodup) ∧
    (∀ output required,
      getRequiredComponentNames depth t initial = some (output, .ok required) →
      required.Nodup) := by
  have key : ∀ order, IterationOrder order → ∀ output required,
      getRequiredComponentNamesOrdered order depth t initial = some (output, .ok required) →
      required.Nodup := by
    intro order horder output required h
    unfold getRequiredComponentNamesOrdered at h
    cases hl : getRequiredComponentNamesLoopOrdered order t depth 0 initial [] [] with
    | none => simp [hl] at h
    | some x =>
      obtain ⟨out1, res⟩ := x
      cases res with
      | error err => simp [hl] at h
      | ok m =>
        simp only [hl, Option.some.injEq, Prod.mk.injEq, Except.ok.injEq] at h
        obtain ⟨_, rfl⟩ := h
        have hm := loopOrdered_nodup order t depth initial 0 [] [] out1 m
          (by simp [GoMap.keys]) hl
        exact (horder initial.length m.keys).nodup_iff.2 hm
  refine ⟨key, fun output required h => ?_⟩
  rw [← ordered_id] at h
  exact key (fun _ keys => keys) (fun _ _ => List.Perm.refl _) output required h

/-- Witness of C17: the initial name A is given twice and B is both an initial name and a
dependency of A; the list has each of them once. -/
theorem deduplication_witness :
    getRequiredComponentNames 4 cycleCatalog ["stencils/A", "stencils/B", "stencils/A"] =
        some ([circularMessage "stencils/A" "stencils/A",
               circularMessage "stencils/B" "stencils/B",
               circularMessage "stencils/A" "stencils/A"],
          .ok ["stencils/A", "stencils/B"]) ∧
      ["stencils/A", "stencils/B"].Nodup :=
  ⟨by decide,
    (deduplication cycleCatalog 4 ["stencils/A", "stencils/B", "stencils/A"]).2
      [circularMessage "stencils/A" "stencils/A", circularMessage "stencils/B" "stencils/B",
       circularMessage "stencils/A" "stencils/A"]
      ["stencils/A", "stencils/B"] (by decide)⟩

/-- C19, cycles are never fatal: when every name reachable from an initial name resolves in the
catalog, the resolver returns, for every sufficient depth budget, a list and no error, whatever
cycles the dependency graph has. -/
theorem cycles_never_fatal (t : TemplateJSON) (initial : List String)
    (hresolve : ∀ root ∈ initial, ∀ n, Reachable t root n →
      ∃ deps, getTemplateDependencies t n = .ok deps)
    (depth : Nat) (hdepth : recursionBound t ≤ depth) :
    ∃ output required, getRequiredComponentNames depth t initial = some (output, .ok required) := by
  obtain ⟨r, hr⟩ := getRequiredComponentNames_total t depth hdepth initial
  obtain ⟨output, res⟩ := r
  cases res with
  | ok required => exact ⟨output, required, hr⟩
  | error err =>
    obtain ⟨root, hroot, n, hn, hbad⟩ := resolver_error t depth initial output err hr
    obtain ⟨deps, hdeps⟩ := hresolve root hroot n hn
    rw [hdeps] at hbad
    simp at hbad

/-- Witness of C19: a stencil that depends on itself. -/
theorem cycles_never_fatal_witness :
    ∃ output required,
      getRequiredComponentNames (recursionBound selfCatalog) selfCatalog ["stencils/A"] =
        some (output, .ok required) :=
  cycles_never_fatal selfCatalog ["stencils/A"]
    (fun root hroot n hn => by
      have hr : root = "stencils/A" := by simpa using hroot
      subst hr
      rw [selfCatalog_reachable n hn]
      exact ⟨["stencils/A"], by decide⟩)
    _ (Nat.le_refl _)

/-! ## The assembly loops -/

theorem downloadAndAddStencil_eq (env : Collaborators) (w : World) (context : String)
    (stencil : StencilTemplate) (manifestFile : ManifestBundle)
    (bundleFolder templateRepository branch : String) (manifestStencils : List BundleStencil) :
    downloadAndAddStencil env w context stencil manifestFile bundleFolder templateRepository
        branch manifestStencils =
      ({ w with downloads := w.downloads ++
          [entryRequest env bundleFolder templateRepository branch context stencil] },
        match env.DownloadSingleFile w.downloads
            (entryRequest env bundleFolder templateRepository branch context stencil) with
        | some err => .error err
        | none => .ok (manifestFile, manifestStencils ++ [instanceEntry context stencil])) := by
  unfold downloadAndAddStencil entryRequest instanceEntry
  by_cases h : context = ""
  · subst h
    simp only [ne_eq, not_true_eq_false, if_false, if_true, String.empty_append]
    split <;> rfl
  · simp only [ne_eq, h, not_false_eq_true, if_true, if_false]
    split <;> rfl

theorem forEachService_result (env : Collaborators) (stencil : StencilTemplate)
    (bundleFolder templateRepository branch : String) (services : List Service) :
    ∀ (w w1 : World) (mf mf1 : ManifestBundle) (ms ms1 : List BundleStencil),
      forEachService env stencil bundleFolder templateRepository branch services w mf ms =
        (w1, .ok (mf1, ms1)) →
      mf1 = mf ∧ ms1 = ms ++ services.map fun service => instanceEntry service.Name stencil := by
  induction services with
  | nil =>
    intro w w1 mf mf1 ms ms1 h
    simp only [forEachService, Prod.mk.injEq, Except.ok.injEq] at h
    obtain ⟨_, rfl, rfl⟩ := h
    simp
  | cons service rest ih =>
    intro w w1 mf mf1 ms ms1 h
    unfold forEachService at h
    rw [downloadAndAddStencil_eq] at h
    cases hf : env.DownloadSingleFile w.downloads
        (entryRequest env bundleFolder templateRepository branch service.Name stencil) with
    | some err => simp [hf] at h
    | none =>
      simp only [hf] at h
      obtain ⟨h1, h2⟩ := ih _ _ _ _ _ _ h
      exact ⟨h1, by rw [h2]; simp⟩

theorem assembleStencil_result (env : Collaborators) (services : List Service)
    (bundleFolder templateRepository branch : String) (stencil : StencilTemplate)
    (w w1 : World) (mf mf1 : ManifestBundle) (ms ms1 : List BundleStencil)
    (h : assembleStencil env services bundleFolder templateRepository branch stencil w mf ms =
      (w1, .ok (mf1, ms1))) :
    mf1 = mf ∧ ms1 = ms ++ stencilEntries services stencil := by
  unfold assembleStencil at h
  unfold stencilEntries
  by_cases hctx : stencil.ContextType = "service"
  · rw [if_pos hctx] at h
    rw [if_pos hctx]
    exact forEachService_result env stencil bundleFolder templateRepository branch services
      w w1 mf mf1 ms ms1 h
  · rw [if_neg hctx] at h
    rw [if_neg hctx]
    rw [downloadAndAddStencil_eq] at h
    cases hf : env.DownloadSingleFile w.downloads
        (entryRequest env bundleFolder templateRepository branch "" stencil) with
    | some err => simp [hf] at h
    | none =>
      simp only [hf, Prod.mk.injEq, Except.ok.injEq] at h
      obtain ⟨_, rfl, rfl⟩ := h
      exact ⟨rfl, rfl⟩

theorem forEachStencil_result (env : Collaborators) (services : List Service)
    (bundleFolder templateRepository branch : String) (stencils : List StencilTemplate) :
    ∀ (w w1 : World) (mf mf1 : ManifestBundle) (ms ms1 : List BundleStencil),
      forEachStencil env services bundleFolder templateRepository branch stencils w mf ms =
        (w1, .ok (mf1, ms1)) →
      mf1 = mf ∧ ms1 = ms ++ stencils.flatMap (stencilEntries services) := by
  induction stencils with
  | nil =>
    intro w w1 mf mf1 ms ms1 h
    simp only [forEachStencil, Prod.mk.injEq, Except.ok.injEq] at h
    obtain ⟨_, rfl, rfl⟩ := h
    simp
  | cons stencil rest ih =>
    intro w w1 mf mf1 ms ms1 h
    unfold forEachStencil at h
    cases ha : assembleStencil env services bundleFolder templateRepository branch stencil w
        mf ms with
    | mk w2 res =>
      cases res with
      | error err => simp [ha] at h
      | ok p =>
        obtain ⟨mf2, ms2⟩ := p
        simp only [ha] at h
        obtain ⟨h1, h2⟩ := assembleStencil_result env services bundleFolder templateRepository
          branch stencil w w2 mf mf2 ms ms2 ha
        obtain ⟨h3, h4⟩ := ih _ _ _ _ _ _ h
        subst h1 h2
        exact ⟨h3, by rw [h4]; simp⟩

/-! ## Runs that stop at a failed fetch -/

theorem failStop_refl (env : Collaborators) (before : List Download) (failure : Option String) :
    FailStop env before before failure := by
  refine ⟨⟨[], by simp⟩, ?_⟩
  rintro history request err ⟨earlier, later, h1, h2⟩ _
  subst h1
  have := congrArg List.length h2
  simp at this

theorem failStop_step (env : Collaborators) (before : List Download) (request : Download) :
    FailStop env before (before ++ [request]) (env.DownloadSingleFile before request) := by
  refine ⟨⟨[request], rfl⟩, ?_⟩
  rintro history request2 err ⟨earlier, later, h1, h2⟩ hfail
  subst h1
  rw [List.append_assoc] at h2
  have h3 := List.append_cancel_left h2
  cases earlier with
  | nil =>
    simp only [List.nil_append, List.cons.injEq] at h3
    obtain ⟨rfl, _⟩ := h3
    simpa using hfail
  | cons a rest =>
    simp only [List.cons_append, List.cons.injEq] at h3
    have := congrArg List.length h3.2
    simp at this
    omega

theorem failStop_trans (env : Collaborators) (a b c : List Download) (failure : Option String)
    (h1 : FailStop env a b none) (h2 : FailStop env b c failure) : FailStop env a c failure := by
  obtain ⟨⟨add1, hb⟩, hfail1⟩ := h1
  obtain ⟨⟨add2, hc⟩, hfail2⟩ := h2
  refine ⟨⟨add1 ++ add2, by rw [hc, hb, List.append_assoc]⟩, ?_⟩
  rintro history request err ⟨earlier, later, hh, hafter⟩ hfail
  have hboth : a ++ (add1 ++ add2) = a ++ (earlier ++ request :: later) := by
    rw [← List.append_assoc, ← hb, ← hc, hafter, hh, List.append_assoc]
  have hsplit : add1 ++ add2 = earlier ++ request :: later := List.append_cancel_left hboth
  rcases List.append_eq_append_iff.1 hsplit with ⟨x, hx1, hx2⟩ | ⟨y, hy1, hy2⟩
  · -- the request lies in the second run
    apply hfail2 history request err _ hfail
    refine ⟨x, later, ?_, ?_⟩
    · rw [hh, hb, hx1, List.append_assoc]
    · rw [hc, hx2, hh, hb, hx1]
      simp
  · cases y with
    | nil =>
      apply hfail2 history request err _ hfail
      refine ⟨[], later, ?_, ?_⟩
      · rw [hh, hb, hy1]
        simp
      · simp only [List.nil_append] at hy2
        rw [hc, hy2, hh, hb, hy1]
        simp
    | cons r rest =>
      simp only [List.cons_append, List.cons.injEq] at hy2
      obtain ⟨rfl, hlater⟩ := hy2
      have : (none : Option String) = some err := by
        apply hfail1 history request err _ hfail
        exact ⟨earlier, rest, hh, by rw [hb, hy1, hh]; simp⟩
      simp at this

/-- A run in which no fetch failed stops at a failed fetch, whatever it ended with. -/
theorem failStop_of_none (env : Collaborators) (a b : List Download) (failure : Option String)
    (h : FailStop env a b none) : FailStop env a b failure := by
  refine ⟨h.1, fun history request err hf hfail => ?_⟩
  have := h.2 history request err hf hfail
  simp at this

theorem downloadAndAddStencil_failStop (env : Collaborators) (w : World) (context : String)
    (stencil : StencilTemplate) (mf : ManifestBundle)
    (bundleFolder templateRepository branch : String) (ms : List BundleStencil) :
    FailStop env w.downloads
      (downloadAndAddStencil env w context stencil mf bundleFolder templateRepository branch
        ms).1.downloads
      (errorOf (downloadAndAddStencil env w context stencil mf bundleFolder templateRepository
        branch ms).2) := by
  rw [downloadAndAddStencil_eq]
  have h := failStop_step env w.downloads
    (entryRequest env bundleFolder templateRepository branch context stencil)
  cases hf : env.DownloadSingleFile w.downloads
      (entryRequest env bundleFolder templateRepository branch context stencil) with
  | some err =>
    rw [hf] at h
    exact h
  | none =>
    rw [hf] at h
    exact h

theorem forEachService_failStop (env : Collaborators) (stencil : StencilTemplate)
    (bundleFolder templateRepository branch : String) (services : List Service) :
    ∀ (w : World) (mf : ManifestBundle) (ms : List BundleStencil),
      FailStop env w.downloads
        (forEachService env stencil bundleFolder templateRepository branch services w mf
          ms).1.downloads
        (errorOf (forEachService env stencil bundleFolder templateRepository branch services w
          mf ms).2) := by
  induction services with
  | nil =>
    intro w mf ms
    exact failStop_refl env _ _
  | cons service rest ih =>
    intro w mf ms
    have hstep := downloadAndAddStencil_failStop env w service.Name stencil mf bundleFolder
      templateRepository branch ms
    unfold forEachService
    cases hd : downloadAndAddStencil env w service.Name stencil mf bundleFolder
        templateRepository branch ms with
    | mk w2 res =>
      rw [hd] at hstep
      cases res with
      | error err => exact hstep
      | ok p =>
        obtain ⟨mf2, ms2⟩ := p
        exact failStop_trans env _ _ _ _ hstep (ih w2 mf2 ms2)

theorem assembleStencil_failStop (env : Collaborators) (services : List Service)
    (bundleFolder templateRepository branch : String) (stencil : StencilTemplate) (w : World)
    (mf : ManifestBundle) (ms : List BundleStencil) :
    FailStop env w.downloads
      (assembleStencil env services bundleFolder templateRepository branch stencil w mf
        ms).1.downloads
      (errorOf (assembleStencil env services bundleFolder templateRepository branch stencil w
        mf ms).2) := by
  unfold assembleStencil
  split_ifs
  · exact forEachService_failStop env stencil bundleFolder templateRepository branch services
      w mf ms
  · exact downloadAndAddStencil_failStop env w "" stencil mf bundleFolder templateRepository
      branch ms

theorem forEachStencil_failStop (env : Collaborators) (services : List Service)
    (bundleFolder templateRepository branch : String) (stencils : List StencilTemplate) :
    ∀ (w : World) (mf : ManifestBundle) (ms : List BundleStencil),
      FailStop env w.downloads
        (forEachStencil env services bundleFolder templateRepository branch stencils w mf
          ms).1.downloads
        (errorOf (forEachStencil env services bundleFolder templateRepository branch stencils w
          mf ms).2) := by
  induction stencils with
  | nil =>
    intro w mf ms
    exact failStop_refl env _ _
  | cons stencil rest ih =>
    intro w mf ms
    have hstep := assembleStencil_failStop env services bundleFolder templateRepository branch
      stencil w mf ms
    unfold forEachStencil
    cases hd : assembleStencil env services bundleFolder templateRepository branch stencil w
        mf ms with
    | mk w2 res =>
      rw [hd] at hstep
      cases res with
      | error err => exact hstep
      | ok p =>
        obtain ⟨mf2, ms2⟩ := p
        exact failStop_trans env _ _ _ _ hstep (ih w2 mf2 ms2)

theorem getRequiredStencils_failStop (env : Collaborators) (depth : Nat) (w : World)
    (templateRepository branch : String) (services : List Service) (bundleFolder : String)
    (manifestFile : ManifestBundle) (githubURL : String) (w1 : World)
    (r : Except String ManifestBundle)
    (h : getRequiredStencils env depth w templateRepository branch services bundleFolder
      manifestFile githubURL = some (w1, r)) :
    FailStop env w.downloads w1.downloads (errorOf r) := by
  unfold getRequiredStencils at h
  simp only at h
  cases hm : env.MkdirAll (env.filepathJoin env.TempDir "temp") with
  | some err =>
    simp only [hm, Option.some.injEq, Prod.mk.injEq] at h
    obtain ⟨rfl, rfl⟩ := h
    exact failStop_refl env _ _
  | none =>
    simp only [hm, getStencilTemplateFile] at h
    have hstep := failStop_step env w.downloads
      { Folder := env.filepathJoin env.TempDir "temp",
        URL := templateRepository ++ "templates.json", Name := "templates.json",
        Branch := branch }
    cases hf : env.DownloadSingleFile w.downloads
        { Folder := env.filepathJoin env.TempDir "temp",
          URL := templateRepository ++ "templates.json", Name := "templates.json",
          Branch := branch } with
    | some err =>
      rw [hf] at hstep
      simp only [hf, Option.some.injEq, Prod.mk.injEq] at h
      obtain ⟨rfl, rfl⟩ := h
      exact hstep
    | none =>
      rw [hf] at hstep
      simp only [hf] at h
      cases hr : env.readTemplateJSON
          (env.filepathJoin (env.filepathJoin env.TempDir "temp") "templates.json") with
      | error err =>
        simp only [hr, Option.some.injEq, Prod.mk.injEq] at h
        obtain ⟨rfl, rfl⟩ := h
        exact failStop_of_none env _ _ _ hstep
      | ok templJSON =>
        simp only [hr] at h
        cases hq : requiredStencilsOf depth templJSON with
        | none => simp [hq] at h
        | some x =>
          obtain ⟨output, res⟩ := x
          cases res with
          | error err =>
            simp only [hq, Option.some.injEq, Prod.mk.injEq] at h
            obtain ⟨rfl, rfl⟩ := h
            exact failStop_of_none env _ _ _ hstep
          | ok requiredStencils =>
            simp only [hq] at h
            have hloop := forEachStencil_failStop env services bundleFolder templateRepository
              branch requiredStencils
              { downloads := w.downloads ++
                  [{ Folder := env.filepathJoin env.TempDir "temp",
                     URL := templateRepository ++ "templates.json", Name := "templates.json",
                     Branch := branch }],
                output := w.output ++ output } manifestFile []
            cases hl : forEachStencil env services bundleFolder templateRepository branch
                requiredStencils
                { downloads := w.downloads ++
                    [{ Folder := env.filepathJoin env.TempDir "temp",
                       URL := templateRepository ++ "templates.json", Name := "templates.json",
                       Branch := branch }],
                  output := w.output ++ output } manifestFile [] with
            | mk w2 res2 =>
              rw [hl] at hloop
              cases res2 with
              | error err =>
                simp only [hl, Option.some.injEq, Prod.mk.injEq] at h
                obtain ⟨rfl, rfl⟩ := h
                exact failStop_trans env _ _ _ _ hstep hloop
              | ok p =>
                obtain ⟨mf2, ms2⟩ := p
                simp only [hl, Option.some.injEq, Prod.mk.injEq] at h
                obtain ⟨rfl, rfl⟩ := h
                exact failStop_trans env _ _ _ _ hstep hloop

/-! ## The stages of the bundle writer -/

theorem getRequiredStencils_ok (env : Collaborators) (depth : Nat) (w : World)
    (templateRepository branch : String) (services : List Service) (bundleFolder : String)
    (manifestFile : ManifestBundle) (githubURL : String) (w1 : World)
    (manifestFile1 : ManifestBundle)
    (h : getRequiredStencils env depth w templateRepository branch services bundleFolder
      manifestFile githubURL = some (w1, .ok manifestFile1)) :
    ∃ templJSON output requiredStencils,
      env.readTemplateJSON
          (env.filepathJoin (env.filepathJoin env.TempDir "temp") "templates.json") =
        .ok templJSON ∧
      requiredStencilsOf depth templJSON = some (output, .ok requiredStencils) ∧
      manifestFile1 = { manifestFile with
        BaseTemplates := manifestFile.BaseTemplates ++
          [{ Name := templJSON.Name, Repo := githubURL, Branch := branch,
             Stencils := requiredStencils.flatMap (stencilEntries services) }] } := by
  unfold getRequiredStencils at h
  simp only at h
  cases hm : env.MkdirAll (env.filepathJoin env.TempDir "temp") with
  | some err => simp [hm] at h
  | none =>
    simp only [hm, getStencilTemplateFile] at h
    cases hf : env.DownloadSingleFile w.downloads
        { Folder := env.filepathJoin env.TempDir "temp",
          URL := templateRepository ++ "templates.json", Name := "templates.json",
          Branch := branch } with
    | some err => simp [hf] at h
    | none =>
      simp only [hf] at h
      cases hr : env.readTemplateJSON
          (env.filepathJoin (env.filepathJoin env.TempDir "temp") "templates.json") with
      | error err => simp [hr] at h
      | ok templJSON =>
        simp only [hr] at h
        cases hq : requiredStencilsOf depth templJSON with
        | none => simp [hq] at h
        | some x =>
          obtain ⟨output, res⟩ := x
          cases res with
          | error err => simp [hq] at h
          | ok requiredStencils =>
            simp only [hq] at h
            cases hl : forEachStencil env services bundleFolder templateRepository branch
                requiredStencils
                { downloads := w.downloads ++
                    [{ Folder := env.filepathJoin env.TempDir "temp",
                       URL := templateRepository ++ "templates.json", Name := "templates.json",
                       Branch := branch }],
                  output := w.output ++ output } manifestFile [] with
            | mk w2 res2 =>
              cases res2 with
              | error err => simp [hl] at h
              | ok p =>
                obtain ⟨mf2, ms2⟩ := p
                simp only [hl, Option.some.injEq, Prod.mk.injEq, Except.ok.injEq] at h
                obtain ⟨_, rfl⟩ := h
                obtain ⟨h1, h2⟩ := forEachStencil_result env services bundleFolder
                  templateRepository branch requiredStencils _ w2 manifestFile mf2 [] ms2 hl
                subst h1 h2
                exact ⟨templJSON, output, requiredStencils, rfl, hq, by simp⟩

/-- The number of pointers the loop of `addDatabase` appends: one per supported database. -/
theorem addDatabaseLoop_count (warn : String → String → List String)
    (databases : List Database) :
    ∀ (release : BundleHelmRelease) (count : Nat) (output : List String),
      (addDatabaseLoop warn databases release count output).2.1 =
        count + (databases.filter fun db =>
          decide (db.Name = "mysql" ∨ db.Name = "postgresql")).length := by
  induction databases with
  | nil =>
    intro release count output
    simp [addDatabaseLoop]
  | cons db rest ih =>
    intro release count output
    by_cases h1 : db.Name = "mysql"
    · rw [addDatabaseLoop, if_pos h1, ih]
      simp only [List.filter_cons, h1, true_or, decide_True, if_true, List.length_cons]
      omega
    · by_cases h2 : db.Name = "postgresql"
      · rw [addDatabaseLoop, if_neg h1, if_pos h2, ih]
        simp only [List.filter_cons, h2, or_true, decide_True, if_true, List.length_cons]
        omega
      · rw [addDatabaseLoop, if_neg h1, if_neg h2, ih]
        simp only [List.filter_cons, h1, h2, or_self, decide_False, Bool.false_eq_true,
          if_false]

theorem addDatabase_helmReleases_nil (warn : String → String → List String)
    (manifestFile : ManifestBundle) (databases : List Database) :
    (addDatabase warn manifestFile databases).1.HelmReleases = [] ↔
      ∀ db ∈ databases, db.Name ≠ "mysql" ∧ db.Name ≠ "postgresql" := by
  have hcount := addDatabaseLoop_count warn databases
    { UID := "", ChartName := "", DisplayName := "", Version := "", RepositoryURL := "",
      ValuesFile := "" } 0 []
  unfold addDatabase
  cases hl : addDatabaseLoop warn databases
      { UID := "", ChartName := "", DisplayName := "", Version := "", RepositoryURL := "",
        ValuesFile := "" } 0 [] with
  | mk release rest =>
    obtain ⟨count, output⟩ := rest
    rw [hl] at hcount
    simp only [Nat.zero_add] at hcount
    simp only [List.replicate_eq_nil_iff]
    rw [hcount, List.length_eq_zero, List.filter_eq_nil_iff]
    constructor
    · intro h db hdb
      have := h db hdb
      simpa [not_or] using this
    · intro h db hdb
      have := h db hdb
      simpa [not_or] using this

theorem addDatabase_helmReleases_eq (warn : String → String → List String)
    (m1 m2 : ManifestBundle) (databases : List Database) :
    (addDatabase warn m1 databases).1.HelmReleases =
      (addDatabase warn m2 databases).1.HelmReleases := by
  unfold addDatabase
  rfl

/-- C13, entry attributes: when its fetch succeeds, `downloadAndAddStencil` returns the given
entry list with exactly one entry appended, whose status is 2, whose sequence is the stencil's
preferred sequence, whose tags are the one tag `starter`, whose template file name is the
stencil's file name and whose uid is empty. -/
theorem entry_attributes (env : Collaborators) (w : World) (context : String)
    (stencil : StencilTemplate) (manifestFile : ManifestBundle)
    (bundleFolder templateRepository branch : String) (manifestStencils : List BundleStencil)
    (hfetch : env.DownloadSingleFile w.downloads
      (entryRequest env bundleFolder templateRepository branch context stencil) = none) :
    ∃ entry,
      (downloadAndAddStencil env w context stencil manifestFile bundleFolder templateRepository
        branch manifestStencils).2 = .ok (manifestFile, manifestStencils ++ [entry]) ∧
      entry.Status = 2 ∧ entry.Sequence = stencil.PreferredSequence ∧
      entry.Tags = ["starter"] ∧ entry.TemplateFilename = stencil.Filename ∧ entry.UID = "" := by
  rw [downloadAndAddStencil_eq, hfetch]
  exact ⟨instanceEntry context stencil, rfl, rfl, rfl, rfl, rfl, rfl⟩

/-- Witness of C13: the entry of stencil A for the service web, appended to a list that already
has an entry. -/
theorem entry_attributes_witness :
    ∃ entry,
      (downloadAndAddStencil (exampleEnv plainCatalog) { downloads := [], output := [] } "web"
        (exampleStencil "A" [] 1 "service") emptyManifest "/bundle" "repo/" "master"
        [instanceEntry "" (exampleStencil "B" [] 0 "")]).2 =
        .ok (emptyManifest, [instanceEntry "" (exampleStencil "B" [] 0 "")] ++ [entry]) ∧
      entry.Status = 2 ∧ entry.Sequence = (exampleStencil "A" [] 1 "service").PreferredSequence ∧
      entry.Tags = ["starter"] ∧
      entry.TemplateFilename = (exampleStencil "A" [] 1 "service").Filename ∧ entry.UID = "" :=
  entry_attributes (exampleEnv plainCatalog) { downloads := [], output := [] } "web"
    (exampleStencil "A" [] 1 "service") emptyManifest "/bundle" "repo/" "master"
    [instanceEntry "" (exampleStencil "B" [] 0 "")] rfl

/-- C14, base-template grouping: when `getRequiredStencils` returns a manifest, that manifest is
the given one with exactly one base-template record appended at the end of its list; the record
has the catalog's name, the given repository URL and branch, and as stencils the entries of the
filtered stencils in declaration order, those of a service stencil in service order. -/
theorem base_template_grouping (env : Collaborators) (depth : Nat) (w : World)
    (templateRepository branch : String) (services : List Service) (bundleFolder : String)
    (manifestFile : ManifestBundle) (githubURL : String) (w1 : World)
    (manifestFile1 : ManifestBundle)
    (h : getRequiredStencils env depth w templateRepository branch services bundleFolder
      manifestFile githubURL = some (w1, .ok manifestFile1)) :
    ∃ templJSON output requiredStencils,
      env.readTemplateJSON
          (env.filepathJoin (env.filepathJoin env.TempDir "temp") "templates.json") =
        .ok templJSON ∧
      requiredStencilsOf depth templJSON = some (output, .ok requiredStencils) ∧
      manifestFile1 = { manifestFile with
        BaseTemplates := manifestFile.BaseTemplates ++
          [{ Name := templJSON.Name, Repo := githubURL, Branch := branch,
             Stencils := requiredStencils.flatMap fun stencil =>
               if stencil.ContextType = "service" then
                 services.map fun service => instanceEntry service.Name stencil
               else [instanceEntry "" stencil] }] } := by
  obtain ⟨templJSON, output, requiredStencils, h1, h2, h3⟩ :=
    getRequiredStencils_ok env depth w templateRepository branch services bundleFolder
      manifestFile githubURL w1 manifestFile1 h
  exact ⟨templJSON, output, requiredStencils, h1, h2, h3⟩

/-- Witness of C14: a run on `oddCatalog` with the services web and worker and a manifest that
already has a base-template record. -/
theorem base_template_grouping_witness :
    ∃ templJSON output requiredStencils,
      (exampleEnv oddCatalog).readTemplateJSON
          ((exampleEnv oddCatalog).filepathJoin
            ((exampleEnv oddCatalog).filepathJoin (exampleEnv oddCatalog).TempDir "temp")
            "templates.json") = .ok templJSON ∧
      requiredStencilsOf (recursionBound oddCatalog) templJSON =
        some (output, .ok requiredStencils) ∧
      ({ emptyManifest with
          BaseTemplates :=
            [{ Name := "old", Repo := "r", Branch := "b", Stencils := [] },
             { Name := "rails", Repo := "https://example.org/app", Branch := "master",
               Stencils := [instanceEntry "web" (exampleStencil "policies/P" [] 0 "service"),
                            instanceEntry "worker"
                              (exampleStencil "policies/P" [] 0 "service")] }] } :
          ManifestBundle) =
        { ({ emptyManifest with
              BaseTemplates := [{ Name := "old", Repo := "r", Branch := "b", Stencils := [] }] } :
            ManifestBundle) with
          BaseTemplates :=
            [{ Name := "old", Repo := "r", Branch := "b", Stencils := [] }] ++
            [{ Name := templJSON.Name, Repo := "https://example.org/app", Branch := "master",
               Stencils := requiredStencils.flatMap fun stencil =>
                 if stencil.ContextType = "service" then
                   ([{ Name := "web" }, { Name := "worker" }] : List Service).map
                     fun service => instanceEntry service.Name stencil
                 else [instanceEntry "" stencil] }] } :=
  base_template_grouping (exampleEnv oddCatalog) (recursionBound oddCatalog)
    { downloads := [], output := [] } "repo/" "master" [{ Name := "web" }, { Name := "worker" }]
    "/bundle"
    { emptyManifest with
      BaseTemplates := [{ Name := "old", Repo := "r", Branch := "b", Stencils := [] }] }
    "https://example.org/app"
    { downloads :=
        [{ Folder := "/tmp/temp", URL := "repo/templates.json", Name := "templates.json",
           Branch := "master" },
         { Folder := "/bundle/stencils", URL := "repo/stencils/policies/P.yml",
           Name := "web_policies/P.yml", Branch := "master" },
         { Folder := "/bundle/stencils", URL := "repo/stencils/policies/P.yml",
           Name := "worker_policies/P.yml", Branch := "master" }],
      output := [] }
    { emptyManifest with
      BaseTemplates :=
        [{ Name := "old", Repo := "r", Branch := "b", Stencils := [] },
         { Name := "rails", Repo := "https://example.org/app", Branch := "master",
           Stencils := [instanceEntry "web" (exampleStencil "policies/P" [] 0 "service"),
                        instanceEntry "worker" (exampleStencil "policies/P" [] 0 "service")] }] }
    (by decide)

/-- C15 as stated fails when a database is named mysql: the stages succeed and the manifest has
a Helm release. -/
theorem empty_placeholders_counterexample :
    (buildManifest (examplePlatform plainCatalog) (recursionBound plainCatalog) freshHost
        "repo/" "master" "rails" "https://example.org/app" [{ Name := "web" }]
        [{ Name := "mysql", DockerImage := "mysql" }] "/tmp/bundle").map
      (fun r => r.2.map fun m => (m.Policies, m.Transformations, m.HelmReleases)) =
      some (.ok ([], [],
        [{ UID := "", ChartName := "mysql", DisplayName := "mysql", Version := "0.10.2",
           RepositoryURL := "https://kubernetes-charts.storage.googleapis.com/",
           ValuesFile := "" }])) := by
  decide

/-- C15 amended, placeholders: when the manifest-building stages of `CreateSkycapFiles` succeed,
the manifest they build has no policy and no transformation, and its Helm releases are those
that `addDatabase` made of the databases, none exactly when no database is named mysql or
postgresql. -/
theorem empty_placeholders (env : Platform) (depth : Nat) (h : Host)
    (templateRepository branch packName githubURL : String) (services : List Service)
    (databases : List Database) (bundleFolder : String) (h1 : Host) (manifest : ManifestBundle)
    (hrun : buildManifest env depth h templateRepository branch packName githubURL services
      databases bundleFolder = some (h1, .ok manifest)) :
    manifest.Policies = [] ∧ manifest.Transformations = [] ∧
      manifest.HelmReleases =
        (addDatabase env.PrintlnWarning emptyManifest databases).1.HelmReleases ∧
      (manifest.HelmReleases = [] ↔
        ∀ db ∈ databases, db.Name ≠ "mysql" ∧ db.Name ≠ "postgresql") := by
  unfold buildManifest at hrun
  simp only [loadManifest] at hrun
  cases hs : saveEnvVars env h.files packName (env.getEnvVars services databases)
      { Version := "1", Metadata := none, UID := "", Name := "", StencilGroups := [],
        BaseTemplates := [], Policies := [], Transformations := [], Tags := [],
        HelmReleases := [], Configurations := [] } bundleFolder with
  | mk files1 res =>
    cases res with
    | error err => simp [hs] at hrun
    | ok mf1 =>
      simp only [hs] at hrun
      cases hg : getRequiredStencils env.base depth
          { h.world with output := h.world.output ++
              (addDatabase env.PrintlnWarning mf1 databases).2 }
          templateRepository branch services bundleFolder
          (addDatabase env.PrintlnWarning mf1 databases).1 githubURL with
      | none => simp [hg] at hrun
      | some x =>
        obtain ⟨w, res2⟩ := x
        cases res2 with
        | error err => simp [hg] at hrun
        | ok mf3 =>
          simp only [hg, addPoliciesAndTransformations, addMetadata, Option.some.injEq,
            Prod.mk.injEq, Except.ok.injEq] at hrun
          obtain ⟨_, rfl⟩ := hrun
          obtain ⟨_, _, _, _, _, h3⟩ := getRequiredStencils_ok env.base depth _
            templateRepository branch services bundleFolder _ githubURL w mf3 hg
          have hhelm : mf3.HelmReleases =
              (addDatabase env.PrintlnWarning emptyManifest databases).1.HelmReleases := by
            rw [h3]
            exact addDatabase_helmReleases_eq env.PrintlnWarning mf1 emptyManifest databases
          refine ⟨rfl, rfl, hhelm, ?_⟩
          show mf3.HelmReleases = [] ↔ _
          rw [hhelm]
          exact addDatabase_helmReleases_nil env.PrintlnWarning emptyManifest databases

/-- Witness of C15: a run with a database that is not supported; all three lists are empty. -/
theorem empty_placeholders_witness :
    ({ emptyManifest with
        Metadata := some { App := "starter", Timestamp := 0,
                           Annotations := ["Generated by Cloud 66 starter"] },
        Name := "starter-formation", Tags := ["starter"],
        BaseTemplates := [{ Name := "rails", Repo := "https://example.org/app",
                            Branch := "master", Stencils := [] }],
        Configurations := ["rails-config"] } : ManifestBundle).HelmReleases = [] ∧
      ∀ db ∈ [({ Name := "redis", DockerImage := "redis" } : Database)],
        db.Name ≠ "mysql" ∧ db.Name ≠ "postgresql" :=
  have key := empty_placeholders (examplePlatform plainCatalog) (recursionBound plainCatalog)
    freshHost "repo/" "master" "rails" "https://example.org/app" [{ Name := "web" }]
    [{ Name := "redis", DockerImage := "redis" }] "/tmp/bundle"
    { world :=
        { downloads := [{ Folder := "/tmp/temp", URL := "repo/templates.json",
                          Name := "templates.json", Branch := "master" }],
          output := ["Database %s not supported\nredis"] },
      files := [FileAction.writeFile "/tmp/bundle/configurations/rails-config"
                  "RAILS_ENV=production\n",
                FileAction.mkdirAll "/tmp/temp", FileAction.removeAll "/tmp/temp"] }
    { emptyManifest with
      Metadata := some { App := "starter", Timestamp := 0,
                         Annotations := ["Generated by Cloud 66 starter"] },
      Name := "starter-formation", Tags := ["starter"],
      BaseTemplates := [{ Name := "rails", Repo := "https://example.org/app",
                          Branch := "master", Stencils := [] }],
      Configurations := ["rails-config"] }
    (by decide)
  ⟨rfl, key.2.2.2.1 rfl⟩

/-- C16, fetch failure is fatal: `downloadAndAddStencil` returns the error of its fetch and no
entry list when the fetch fails; and when a fetch made during the loop over the filtered
stencils, or during `getRequiredStencils`, fails, the loop and `getRequiredStencils` return the
error of that fetch, so no manifest and no entry fetched so far. -/
theorem fetch_failure_is_fatal (env : Collaborators) (services : List Service)
    (bundleFolder templateRepository branch : String) :
    (∀ w context stencil manifestFile manifestStencils err,
      env.DownloadSingleFile w.downloads
        (entryRequest env bundleFolder templateRepository branch context stencil) = some err →
      (downloadAndAddStencil env w context stencil manifestFile bundleFolder templateRepository
        branch manifestStencils).2 = .error err) ∧
    (∀ stencils w manifestFile manifestStencils w1 r,
      forEachStencil env services bundleFolder templateRepository branch stencils w manifestFile
        manifestStencils = (w1, r) →
      ∀ history request err, FetchedDuring w.downloads w1.downloads history request →
        env.DownloadSingleFile history request = some err → r = .error err) ∧
    (∀ depth w manifestFile githubURL w1 r,
      getRequiredStencils env depth w templateRepository branch services bundleFolder
        manifestFile githubURL = some (w1, r) →
      ∀ history request err, FetchedDuring w.downloads w1.downloads history request →
        env.DownloadSingleFile history request = some err → r = .error err) := by
  have herr : ∀ {α : Type} (r : Except String α) (err : String),
      errorOf r = some err → r = .error err := by
    intro α r err h
    cases r with
    | error e =>
      simp only [errorOf, Option.some.injEq] at h
      rw [h]
    | ok v => simp [errorOf] at h
  refine ⟨?_, ?_, ?_⟩
  · intro w context stencil manifestFile manifestStencils err hfail
    rw [downloadAndAddStencil_eq, hfail]
  · intro stencils w manifestFile manifestStencils w1 r hrun history request err hfetched hfail
    have hstop := forEachStencil_failStop env services bundleFolder templateRepository branch
      stencils w manifestFile manifestStencils
    rw [hrun] at hstop
    exact herr r err (hstop.2 history request err hfetched hfail)
  · intro depth w manifestFile githubURL w1 r hrun history request err hfetched hfail
    have hstop := getRequiredStencils_failStop env depth w templateRepository branch services
      bundleFolder manifestFile githubURL w1 r hrun
    exact herr r err (hstop.2 history request err hfetched hfail)

/-- Witness of C16: the fetch of the second entry fails; the loop returns that error and not the
entry of the first. -/
theorem fetch_failure_is_fatal_witness :
    forEachStencil
        { exampleEnv plainCatalog with
          DownloadSingleFile := fun history _ =>
            if history = [] then none else some "download failed" }
        [{ Name := "web" }, { Name := "worker" }] "/bundle" "repo/" "master"
        [exampleStencil "A" [] 1 "service"] { downloads := [], output := [] } emptyManifest
        [] =
      ({ downloads :=
          [{ Folder := "/bundle/stencils", URL := "repo/stencils/A.yml", Name := "web_A.yml",
             Branch := "master" },
           { Folder := "/bundle/stencils", URL := "repo/stencils/A.yml",
             Name := "worker_A.yml", Branch := "master" }],
         output := [] },
        .error "download failed") :=
  have hrun : forEachStencil
      { exampleEnv plainCatalog with
        DownloadSingleFile := fun history _ =>
          if history = [] then none else some "download failed" }
      [{ Name := "web" }, { Name := "worker" }] "/bundle" "repo/" "master"
      [exampleStencil "A" [] 1 "service"] { downloads := [], output := [] } emptyManifest [] =
      ({ downloads :=
          [{ Folder := "/bundle/stencils", URL := "repo/stencils/A.yml", Name := "web_A.yml",
             Branch := "master" },
           { Folder := "/bundle/stencils", URL := "repo/stencils/A.yml",
             Name := "worker_A.yml", Branch := "master" }],
         output := [] },
        forEachStencil
          { exampleEnv plainCatalog with
            DownloadSingleFile := fun history _ =>
              if history = [] then none else some "download failed" }
          [{ Name := "web" }, { Name := "worker" }] "/bundle" "repo/" "master"
          [exampleStencil "A" [] 1 "service"] { downloads := [], output := [] } emptyManifest
          [] |>.2) := by decide
  hrun.trans (congrArg (Prod.mk _)
    ((fetch_failure_is_fatal _ [{ Name := "web" }, { Name := "worker" }] "/bundle" "repo/"
      "master").2.1 _ _ _ _ _ _ hrun
      [{ Folder := "/bundle/stencils", URL := "repo/stencils/A.yml", Name := "web_A.yml",
         Branch := "master" }]
      { Folder := "/bundle/stencils", URL := "repo/stencils/A.yml", Name := "worker_A.yml",
        Branch := "master" }
      "download failed" ⟨_, [], rfl, rfl⟩ (by decide)))

/-- C18, catalog unavailable is a no-op success: with an empty template repository
`CreateSkycapFiles` returns no error; it prints one line, makes no file-system call and no
download, whatever the other arguments and the collaborators are. -/
theorem catalog_unavailable_is_noop (env : Platform) (depth : Nat) (h : Host)
    (outputDir branch packName githubURL : String) (services : List Service)
    (databases : List Database) :
    ∃ h1, CreateSkycapFiles env depth h outputDir "" branch packName githubURL services
        databases = some (h1, none) ∧
      h1.files = h.files ∧ h1.world.downloads = h.world.downloads ∧
      h1.world.output = h.world.output ++
        ["Sorry but there is no stencil template for this language/framework yet\n"] := by
  unfold CreateSkycapFiles
  rw [if_pos rfl]
  exact ⟨_, rfl, rfl, rfl, rfl⟩

/-- With a template repository the same call goes through the later stages: it creates the
bundle folders, downloads the catalog, writes the manifest and packs the bundle. -/
theorem createSkycapFiles_example :
    (CreateSkycapFiles (examplePlatform plainCatalog) (recursionBound plainCatalog) freshHost
        "/out" "repo/" "master" "rails" "https://example.org/app" [{ Name := "web" }]
        []).map (fun r => (r.1.files.length, r.1.world.downloads.length, r.2)) =
      some (13, 1, none) := by
  decide

/-! ## Diagnostics and cycles -/

/-- The loop only adds lines when each call only adds lines. -/
theorem forEachDependency_output
    (call : String → ResolveState → Option (ResolveState × Option String))
    (hcall : ∀ name st st1 e, call name st = some (st1, e) →
      ∃ extra, st1.output = st.output ++ extra)
    (deps : List String) (st st1 : ResolveState) (e : Option String)
    (h : forEachDependency call deps st = some (st1, e)) :
    ∃ extra, st1.output = st.output ++ extra := by
  induction deps generalizing st with
  | nil =>
    simp only [forEachDependency, Option.some.injEq, Prod.mk.injEq] at h
    obtain ⟨rfl, _⟩ := h
    exact ⟨[], by simp⟩
  | cons dep rest ih =>
    simp only [forEachDependency] at h
    cases hc : call dep st with
    | none => simp [hc] at h
    | some r =>
      obtain ⟨st2, e2⟩ := r
      obtain ⟨x1, hx1⟩ := hcall dep st st2 e2 hc
      cases e2 with
      | some err =>
        simp only [hc, Option.some.injEq, Prod.mk.injEq] at h
        obtain ⟨rfl, _⟩ := h
        exact ⟨x1, hx1⟩
      | none =>
        simp only [hc] at h
        obtain ⟨x2, hx2⟩ := ih st2 h
        exact ⟨x1 ++ x2, by rw [hx2, hx1, List.append_assoc]⟩

/-- The walk only adds lines to the output. -/
theorem internal_output (t : TemplateJSON) (rootName : String) (d : Nat) :
    ∀ (name : String) (st st1 : ResolveState) (e : Option String),
      getRequiredComponentNamesInternal t rootName d name st = some (st1, e) →
      ∃ extra, st1.output = st.output ++ extra := by
  induction d with
  | zero =>
    intro name st st1 e h
    simp [getRequiredComponentNamesInternal] at h
  | succ d ih =>
    intro name st st1 e h
    rcases color_cases st.visited name with hf | hg | hb
    · rw [internal_fresh t rootName d name st hf] at h
      cases hd : getTemplateDependencies t name with
      | error err =>
        simp only [hd, Option.some.injEq, Prod.mk.injEq] at h
        obtain ⟨rfl, _⟩ := h
        exact ⟨[], by simp⟩
      | ok deps =>
        simp only [hd] at h
        cases hl : forEachDependency (getRequiredComponentNamesInternal t rootName d) deps
            { st with visited := st.visited.set name color.grey } with
        | none => simp [hl] at h
        | some r =>
          obtain ⟨st3, e3⟩ := r
          obtain ⟨x, hx⟩ := forEachDependency_output _ ih deps _ st3 e3 hl
          cases e3 with
          | some err =>
            simp only [hl, Option.some.injEq, Prod.mk.injEq] at h
            obtain ⟨rfl, _⟩ := h
            exact ⟨x, hx⟩
          | none =>
            simp only [hl, Option.some.injEq, Prod.mk.injEq] at h
            obtain ⟨rfl, _⟩ := h
            exact ⟨x, hx⟩
    · rw [internal_grey t rootName d name st hg] at h
      simp only [Option.some.injEq, Prod.mk.injEq] at h
      obtain ⟨rfl, _⟩ := h
      exact ⟨_, rfl⟩
    · rw [internal_black t rootName d name st hb] at h
      simp only [Option.some.injEq, Prod.mk.injEq] at h
      obtain ⟨rfl, _⟩ := h
      exact ⟨[], by simp⟩

/-- Every line that the loop prints is the diagnostic of a name on a cycle, reachable from one
of the dependencies, when that holds of each call and every grey name reaches every
dependency. -/
theorem forEachDependency_lines (t : TemplateJSON) (rootName : String)
    (call : String → ResolveState → Option (ResolveState × Option String))
    (hext : ∀ name st st1, call name st = some (st1, none) →
      Extends t st.visited st1.visited)
    (hcall : ∀ name st st1, call name st = some (st1, none) →
      (∀ g, st.visited.get? g = some color.grey → Relation.TransGen (DependsOn t) g name) →
      ∃ extra, st1.output = st.output ++ extra ∧
        ∀ line ∈ extra, ∃ y, line = circularMessage y rootName ∧ Reachable t name y ∧
          OnCycle t y)
    (deps : List String) (st st1 : ResolveState)
    (h : forEachDependency call deps st = some (st1, none))
    (hgrey : ∀ g, st.visited.get? g = some color.grey →
      ∀ dep ∈ deps, Relation.TransGen (DependsOn t) g dep) :
    ∃ extra, st1.output = st.output ++ extra ∧
      ∀ line ∈ extra, ∃ y, line = circularMessage y rootName ∧
        (∃ dep ∈ deps, Reachable t dep y) ∧ OnCycle t y := by
  induction deps generalizing st with
  | nil =>
    simp only [forEachDependency, Option.some.injEq, Prod.mk.injEq, and_true] at h
    subst h
    exact ⟨[], by simp, fun line hl => by simp at hl⟩
  | cons dep rest ih =>
    simp only [forEachDependency] at h
    cases hc : call dep st with
    | none => simp [hc] at h
    | some r =>
      obtain ⟨st2, e⟩ := r
      cases e with
      | some err => simp [hc] at h
      | none =>
        simp only [hc] at h
        obtain ⟨x1, hx1, hl1⟩ := hcall dep st st2 hc
          (fun g hg => hgrey g hg dep (List.mem_cons_self _ _))
        have hext1 := hext dep st st2 hc
        obtain ⟨x2, hx2, hl2⟩ := ih st2 h
          (fun g hg d hd => hgrey g ((hext1.grey_iff g).2 hg) d (List.mem_cons_of_mem _ hd))
        refine ⟨x1 ++ x2, by rw [hx2, hx1, List.append_assoc], fun line hl => ?_⟩
        rcases List.mem_append.1 hl with hl | hl
        · obtain ⟨y, hy1, hy2, hy3⟩ := hl1 line hl
          exact ⟨y, hy1, ⟨dep, List.mem_cons_self _ _, hy2⟩, hy3⟩
        · obtain ⟨y, hy1, ⟨d, hd, hy2⟩, hy3⟩ := hl2 line hl
          exact ⟨y, hy1, ⟨d, List.mem_cons_of_mem _ hd, hy2⟩, hy3⟩

/-- When every grey name reaches the name of the call, every line that a successful walk prints
is the diagnostic of a name on a cycle that the name of the call reaches. -/
theorem internal_lines (t : TemplateJSON) (rootName : String) (d : Nat) :
    ∀ (name : String) (st st1 : ResolveState),
      getRequiredComponentNamesInternal t rootName d name st = some (st1, none) →
      (∀ g, st.visited.get? g = some color.grey → Relation.TransGen (DependsOn t) g name) →
      ∃ extra, st1.output = st.output ++ extra ∧
        ∀ line ∈ extra, ∃ y, line = circularMessage y rootName ∧ Reachable t name y ∧
          OnCycle t y := by
  induction d with
  | zero =>
    intro name st st1 h
    simp [getRequiredComponentNamesInternal] at h
  | succ d ih =>
    intro name st st1 h hgrey
    rcases color_cases st.visited name with hf | hg | hb
    · rw [internal_fresh t rootName d name st hf] at h
      cases hd : getTemplateDependencies t name with
      | error err => simp [hd] at h
      | ok deps =>
        simp only [hd] at h
        cases hl : forEachDependency (getRequiredComponentNamesInternal t rootName d) deps
            { st with visited := st.visited.set name color.grey } with
        | none => simp [hl] at h
        | some r =>
          obtain ⟨st3, e⟩ := r
          cases e with
          | some err => simp [hl] at h
          | none =>
            simp only [hl, Option.some.injEq, Prod.mk.injEq, and_true] at h
            subst h
            obtain ⟨extra, hx, hlines⟩ := forEachDependency_lines t rootName _
              (fun n s s1 hc => (internal_extends t rootName d n s s1 hc).1) ih deps _ st3 hl
              (by
                intro g hg dep hdep
                have hstep : DependsOn t name dep := ⟨deps, hd, hdep⟩
                by_cases e : g = name
                · subst e
                  exact Relation.TransGen.single hstep
                · have hg2 : st.visited.get? g = some color.grey := by
                    have hg3 : (st.visited.set name color.grey).get? g = some color.grey := hg
                    rwa [GoMap.get?_set_ne _ _ _ _ e] at hg3
                  exact Relation.TransGen.tail (hgrey g hg2) hstep)
            refine ⟨extra, hx, fun line hline => ?_⟩
            obtain ⟨y, hy1, ⟨dep, hdep, hy2⟩, hy3⟩ := hlines line hline
            exact ⟨y, hy1, Relation.ReflTransGen.head ⟨deps, hd, hdep⟩ hy2, hy3⟩
    · rw [internal_grey t rootName d name st hg] at h
      simp only [Option.some.injEq, Prod.mk.injEq, and_true] at h
      subst h
      refine ⟨[circularMessage name rootName], rfl, fun line hline => ?_⟩
      simp only [List.mem_singleton] at hline
      exact ⟨name, hline, Relation.ReflTransGen.refl, hgrey name hg⟩
    · rw [internal_black t rootName d name st hb] at h
      simp only [Option.some.injEq, Prod.mk.injEq, and_true] at h
      subst h
      exact ⟨[], by simp, fun line hl => by simp at hl⟩

/-- A finishing order is closed under dependency edges. -/
theorem finished_closed (t : TemplateJSON) (l : List String) (h : Finished t l) :
    ∀ x ∈ l, ∀ y, DependsOn t x y → y ∈ l := by
  induction h with
  | nil =>
    intro x hx
    simp at hx
  | cons x deps l _ _ hdeps hall ih =>
    intro x2 hx2 y hy
    rcases List.mem_cons.1 hx2 with rfl | hin
    · obtain ⟨deps2, hd2, hmem⟩ := hy
      rw [hdeps] at hd2
      simp only [Except.ok.injEq] at hd2
      subst hd2
      exact List.mem_cons_of_mem _ (hall y hmem)
    · exact List.mem_cons_of_mem _ (ih x2 hin y hy)

theorem finished_closed_reachable (t : TemplateJSON) (l : List String) (h : Finished t l)
    (x : String) (hx : x ∈ l) (y : String) (hy : Reachable t x y) : y ∈ l := by
  induction hy with
  | refl => exact hx
  | tail _ hstep ih => exact finished_closed t l h _ ih _ hstep

/-- No name of a finishing order lies on a cycle. -/
theorem finished_acyclic (t : TemplateJSON) (l : List String) (h : Finished t l) :
    ∀ x ∈ l, ¬ OnCycle t x := by
  induction h with
  | nil =>
    intro x hx
    simp at hx
  | cons x deps l hfin hnot hdeps hall ih =>
    intro x2 hx2 hcycle
    rcases List.mem_cons.1 hx2 with rfl | hin
    · obtain ⟨y, hstep, hback⟩ := Relation.TransGen.head'_iff.1 hcycle
      obtain ⟨deps2, hd2, hmem⟩ := hstep
      rw [hdeps] at hd2
      simp only [Except.ok.injEq] at hd2
      subst hd2
      exact hnot (finished_closed_reachable t l hfin y (hall y hmem) _ hback)
    · exact ih x2 hin hcycle

/-- The loop that prints nothing extends a finishing order of the black names to one that has
every dependency, when each call that prints nothing does. -/
theorem forEachDependency_finished (t : TemplateJSON)
    (call : String → ResolveState → Option (ResolveState × Option String))
    (hout : ∀ name st st1 e, call name st = some (st1, e) →
      ∃ extra, st1.output = st.output ++ extra)
    (hcall : ∀ name st st1, call name st = some (st1, none) → st1.output = st.output →
      ∀ l, BlackList st.visited l → Finished t l →
      ∃ l1, BlackList st1.visited l1 ∧ Finished t l1 ∧ name ∈ l1 ∧ ∀ x ∈ l, x ∈ l1)
    (deps : List String) (st st1 : ResolveState)
    (h : forEachDependency call deps st = some (st1, none)) (hsame : st1.output = st.output)
    (l : List String) (hl : BlackList st.visited l) (hfin : Finished t l) :
    ∃ l1, BlackList st1.visited l1 ∧ Finished t l1 ∧ (∀ dep ∈ deps, dep ∈ l1) ∧
      ∀ x ∈ l, x ∈ l1 := by
  induction deps generalizing st l with
  | nil =>
    simp only [forEachDependency, Option.some.injEq, Prod.mk.injEq, and_true] at h
    subst h
    exact ⟨l, hl, hfin, fun dep hd => by simp at hd, fun x hx => hx⟩
  | cons dep rest ih =>
    simp only [forEachDependency] at h
    cases hc : call dep st with
    | none => simp [hc] at h
    | some r =>
      obtain ⟨st2, e⟩ := r
      cases e with
      | some err => simp [hc] at h
      | none =>
        simp only [hc] at h
        obtain ⟨x1, hx1⟩ := hout dep st st2 none hc
        obtain ⟨x2, hx2⟩ := forEachDependency_output call hout rest st2 st1 none h
        have hempty : x1 = [] ∧ x2 = [] := by
          rw [hx2, hx1, List.append_assoc] at hsame
          have := congrArg List.length hsame
          simp only [List.length_append] at this
          constructor
          · apply List.eq_nil_of_length_eq_zero
            omega
          · apply List.eq_nil_of_length_eq_zero
            omega
        obtain ⟨rfl, rfl⟩ := hempty
        simp only [List.append_nil] at hx1 hx2
        obtain ⟨l2, hl2, hfin2, hdep2, hsub2⟩ := hcall dep st st2 hc hx1 l hl hfin
        obtain ⟨l3, hl3, hfin3, hall3, hsub3⟩ := ih st2 h hx2 l2 hl2 hfin2
        refine ⟨l3, hl3, hfin3, fun d hd => ?_, fun x hx => hsub3 x (hsub2 x hx)⟩
        rcases List.mem_cons.1 hd with rfl | hd
        · exact hsub3 _ hdep2
        · exact hall3 d hd

/-- A successful walk that prints nothing extends a finishing order of the black names to one
that has its name. -/
theorem internal_finished (t : TemplateJSON) (rootName : String) (d : Nat) :
    ∀ (name : String) (st st1 : ResolveState),
      getRequiredComponentNamesInternal t rootName d name st = some (st1, none) →
      st1.output = st.output →
      ∀ l, BlackList st.visited l → Finished t l →
      ∃ l1, BlackList st1.visited l1 ∧ Finished t l1 ∧ name ∈ l1 ∧ ∀ x ∈ l, x ∈ l1 := by
  induction d with
  | zero =>
    intro name st st1 h
    simp [getRequiredComponentNamesInternal] at h
  | succ d ih =>
    intro name st st1 h hsame l hl hfin
    rcases color_cases st.visited name with hf | hg | hb
    · rw [internal_fresh t rootName d name st hf] at h
      cases hd : getTemplateDependencies t name with
      | error err => simp [hd] at h
      | ok deps =>
        simp only [hd] at h
        cases hloop : forEachDependency (getRequiredComponentNamesInternal t rootName d) deps
            { st with visited := st.visited.set name color.grey } with
        | none => simp [hloop] at h
        | some r =>
          obtain ⟨st3, e⟩ := r
          cases e with
          | some err => simp [hloop] at h
          | none =>
            simp only [hloop, Option.some.injEq, Prod.mk.injEq, and_true] at h
            subst h
            have hnotblack : st.visited.get? name ≠ some color.black := by
              rcases hf with hf | hf <;> simp [hf]
            have hl2 : BlackList (st.visited.set name color.grey) l := by
              intro x
              by_cases e : x = name
              · subst e
                rw [GoMap.get?_set_self]
                constructor
                · intro h0
                  simp at h0
                · intro h0
                  exact absurd ((hl x).2 h0) hnotblack
              · rw [GoMap.get?_set_ne _ _ _ _ e]
                exact hl x
            obtain ⟨l3, hl3, hfin3, hall3, hsub3⟩ := forEachDependency_finished t _
              (internal_output t rootName d) ih deps
              { st with visited := st.visited.set name color.grey } st3 hloop hsame l hl2 hfin
            have hext := (forEachDependency_extends t _ (internal_extends t rootName d) deps
              { st with visited := st.visited.set name color.grey } st3 hloop).1
            have hgrey3 : st3.visited.get? name = some color.grey :=
              (hext.grey_iff name).1 (GoMap.get?_set_self _ _ _)
            have hnot3 : name ∉ l3 := by
              intro hin
              have := (hl3 name).2 hin
              rw [hgrey3] at this
              simp at this
            refine ⟨name :: l3, ?_, Finished.cons name deps l3 hfin3 hnot3 hd hall3,
              List.mem_cons_self _ _, fun x hx => List.mem_cons_of_mem _ (hsub3 x hx)⟩
            intro x
            by_cases e : x = name
            · subst e
              simp [GoMap.get?_set_self]
            · have hx : (st3.visited.set name color.black).get? x = st3.visited.get? x :=
                GoMap.get?_set_ne _ _ _ _ e
              show (st3.visited.set name color.black).get? x = some color.black ↔ _
              rw [hx, hl3 x]
              simp [e]
    · rw [internal_grey t rootName d name st hg] at h
      simp only [Option.some.injEq, Prod.mk.injEq, and_true] at h
      subst h
      have := congrArg List.length hsame
      simp at this
    · rw [internal_black t rootName d name st hb] at h
      simp only [Option.some.injEq, Prod.mk.injEq, and_true] at h
      subst h
      exact ⟨l, hl, hfin, (hl name).1 hb, fun x hx => hx⟩

/-- The lines printed during the walk from one initial name, started with the empty map. -/
theorem walk_diagnostics (t : TemplateJSON) (root : String) (d : Nat) (out0 : List String)
    (st : ResolveState)
    (h : getRequiredComponentNamesInternal t root d root { visited := [], output := out0 } =
      some (st, none)) :
    ∃ lines, st.output = out0 ++ lines ∧ RootDiagnostics t root lines := by
  obtain ⟨lines, hout, hlines⟩ := internal_lines t root d root _ st h
    (fun g hg => by simp [GoMap.get?] at hg)
  refine ⟨lines, hout, ⟨?_, ?_⟩, hlines⟩
  · intro hne
    cases lines with
    | nil => exact absurd rfl hne
    | cons line rest =>
      obtain ⟨y, _, hy2, hy3⟩ := hlines line (List.mem_cons_self _ _)
      exact ⟨y, hy2, hy3⟩
  · rintro ⟨n, hn, hcycle⟩ hnil
    subst hnil
    simp only [List.append_nil] at hout
    obtain ⟨l1, hl1, hfin1, _, _⟩ := internal_finished t root d root _ st h hout []
      (fun x => by simp [GoMap.get?]) Finished.nil
    have hblack := (walk_complete t root d root out0 st h n hn).1
    exact finished_acyclic t l1 hfin1 n ((hl1 n).1 hblack) hcycle

/-- The lines printed by the loop over the initial names, one group per initial name. -/
theorem loop_diagnostics (t : TemplateJSON) (d : Nat) (initial : List String) :
    ∀ (acc : GoMap Bool) (out out1 : List String) (acc1 : GoMap Bool),
      getRequiredComponentNamesLoop t d initial acc out = some (out1, .ok acc1) →
      ∃ perRoot : List (List String), out1 = out ++ perRoot.flatten ∧
        List.Forall₂ (RootDiagnostics t) initial perRoot := by
  induction initial with
  | nil =>
    intro acc out out1 acc1 h
    simp only [getRequiredComponentNamesLoop, Option.some.injEq, Prod.mk.injEq,
      Except.ok.injEq] at h
    obtain ⟨rfl, _⟩ := h
    exact ⟨[], by simp, List.Forall₂.nil⟩
  | cons a rest ih =>
    intro acc out out1 acc1 h
    simp only [getRequiredComponentNamesLoop] at h
    cases hc : getRequiredComponentNamesInternal t a d a { visited := [], output := out } with
    | none => simp [hc] at h
    | some r =>
      obtain ⟨st, e⟩ := r
      cases e with
      | some err => simp [hc] at h
      | none =>
        simp only [hc] at h
        obtain ⟨lines, hlines, hdiag⟩ := walk_diagnostics t a d out st hc
        obtain ⟨perRoot, hout, hall⟩ := ih _ _ _ _ h
        refine ⟨lines :: perRoot, ?_, List.Forall₂.cons hdiag hall⟩
        rw [hout, hlines]
        simp

/-- On the chain A, B, which has no cycle, the resolver prints nothing. -/
theorem chain_prints_nothing :
    getRequiredComponentNames 3 chainCatalog ["stencils/A"] =
      some ([], .ok ["stencils/A", "stencils/B"]) := by
  decide

/-! ## The marks after a walk -/

/-- C21, only black marks survive a traversal: when the walk started with the empty map returns
without error, every key of the map is marked black, no name is marked white or grey, and
merging all keys of the map, as `getRequiredComponentNames` does, adds exactly the names marked
black. -/
theorem only_black_marks_survive (t : TemplateJSON) (rootName : String) (d : Nat) (name : String)
    (out0 : List String) (st : ResolveState)
    (h : getRequiredComponentNamesInternal t rootName d name { visited := [], output := out0 } =
      some (st, none)) :
    (∀ k ∈ st.visited.keys, st.visited.get? k = some color.black) ∧
    (∀ k, st.visited.get? k ≠ some color.white ∧ st.visited.get? k ≠ some color.grey) ∧
    (∀ (acc : GoMap Bool) (n : String),
      n ∈ (mergeVisited acc st.visited.keys).keys ↔
        n ∈ acc.keys ∨ st.visited.get? n = some color.black) := by
  have hblack : ∀ k ∈ st.visited.keys, st.visited.get? k = some color.black :=
    fun k hk => (walk_keys_black t rootName d name out0 st h k hk).1
  have hmarks : ∀ k c, st.visited.get? k = some c → c = color.black := by
    intro k c hc
    have := hblack k ((GoMap.mem_keys_iff _ _).2 ⟨c, hc⟩)
    rw [hc] at this
    simpa using this
  refine ⟨hblack, fun k => ⟨fun hw => ?_, fun hg => ?_⟩, fun acc n => ?_⟩
  · have := hmarks k _ hw
    simp at this
  · have := hmarks k _ hg
    simp at this
  · rw [mem_keys_mergeVisited]
    constructor
    · rintro (h1 | h1)
      · exact Or.inl h1
      · exact Or.inr (hblack n h1)
    · rintro (h1 | h1)
      · exact Or.inl h1
      · exact Or.inr ((GoMap.mem_keys_iff _ _).2 ⟨_, h1⟩)

/-- Witness of C21 on the two-stencil cycle: after the walk from A both keys are black. -/
theorem only_black_marks_survive_witness :
    getRequiredComponentNamesInternal cycleCatalog "stencils/A" 3 "stencils/A"
        { visited := [], output := [] } =
      some ({ visited := [("stencils/A", color.black), ("stencils/B", color.black)],
              output := [circularMessage "stencils/A" "stencils/A"] }, none) ∧
      ∀ k ∈ GoMap.keys [("stencils/A", color.black), ("stencils/B", color.black)],
        GoMap.get? [("stencils/A", color.black), ("stencils/B", color.black)] k =
          some color.black :=
  ⟨by decide,
    (only_black_marks_survive cycleCatalog "stencils/A" 3 "stencils/A" []
      { visited := [("stencils/A", color.black), ("stencils/B", color.black)],
        output := [circularMessage "stencils/A" "stencils/A"] } (by decide)).1⟩

/-! ## The Helm releases of the databases -/

theorem lastSupported_cons (db : Database) (rest : List Database) :
    lastSupported (db :: rest) =
      match lastSupported rest with
      | some d => some d
      | none => if isSupported db then some db else none :=
  rfl

theorem lastSupported_filter_nil (databases : List Database) :
    lastSupported databases = none ↔ databases.filter isSupported = [] := by
  induction databases with
  | nil => simp [lastSupported]
  | cons db rest ih =>
    rw [lastSupported_cons]
    cases hl : lastSupported rest with
    | some d =>
      have hne : rest.filter isSupported ≠ [] := fun e => by
        have := ih.2 e
        rw [hl] at this
        simp at this
      by_cases hs : isSupported db = true
      · simp [List.filter_cons, hs]
      · simp [List.filter_cons, hs, hne]
    | none =>
      have hnil := ih.1 hl
      by_cases hs : isSupported db = true
      · simp [List.filter_cons, hs]
      · simp [List.filter_cons, hs, hnil]

/-- The last supported database is a supported database of the list. -/
theorem lastSupported_mem (databases : List Database) (d : Database)
    (hs : lastSupported databases = some d) : d ∈ databases ∧ isSupported d = true := by
  induction databases with
  | nil => simp [lastSupported] at hs
  | cons a rest ih =>
    rw [lastSupported_cons] at hs
    cases hl : lastSupported rest with
    | some d2 =>
      simp only [hl, Option.some.injEq] at hs
      subst hs
      exact ⟨List.mem_cons_of_mem _ (ih hl).1, (ih hl).2⟩
    | none =>
      simp only [hl] at hs
      by_cases ha : isSupported a = true
      · simp only [ha, if_true, Option.some.injEq] at hs
        subst hs
        exact ⟨List.mem_cons_self _ _, ha⟩
      · simp [ha] at hs

/-- What the loop of `addDatabase` leaves: the release made for the last supported database,
or the given one when there is none. -/
theorem addDatabaseLoop_release (warn : String → String → List String)
    (databases : List Database) :
    ∀ (release : BundleHelmRelease) (count : Nat) (output : List String),
      (addDatabaseLoop warn databases release count output).1 =
        match lastSupported databases with
        | some db => releaseFor db
        | none => release := by
  induction databases with
  | nil =>
    intro release count output
    simp [addDatabaseLoop, lastSupported]
  | cons db rest ih =>
    intro release count output
    rw [lastSupported_cons]
    by_cases h1 : db.Name = "mysql"
    · rw [addDatabaseLoop, if_pos h1, ih]
      cases hl : lastSupported rest with
      | some d => rfl
      | none => simp [isSupported, h1, releaseFor]
    · by_cases h2 : db.Name = "postgresql"
      · rw [addDatabaseLoop, if_neg h1, if_pos h2, ih]
        cases hl : lastSupported rest with
        | some d => rfl
        | none => simp [isSupported, h2, releaseFor]
      · rw [addDatabaseLoop, if_neg h1, if_neg h2, ih]
        cases hl : lastSupported rest with
        | some d => rfl
        | none => simp [isSupported, h1, h2]

/-- What `addDatabase` does: only `helm_releases` changes, and it becomes as many copies of the
release of the last supported database as there are supported databases. -/
theorem addDatabase_eq (warn : String → String → List String) (manifestFile : ManifestBundle)
    (databases : List Database) :
    (addDatabase warn manifestFile databases).1 =
      { manifestFile with
        HelmReleases := (databases.filter isSupported).map fun _ =>
          match lastSupported databases with
          | some db => releaseFor db
          | none => releaseFor { Name := "", DockerImage := "" } } := by
  have hrel := addDatabaseLoop_release warn databases
    { UID := "", ChartName := "", DisplayName := "", Version := "", RepositoryURL := "",
      ValuesFile := "" } 0 []
  have hcount := addDatabaseLoop_count warn databases
    { UID := "", ChartName := "", DisplayName := "", Version := "", RepositoryURL := "",
      ValuesFile := "" } 0 []
  unfold addDatabase
  cases hl : addDatabaseLoop warn databases
      { UID := "", ChartName := "", DisplayName := "", Version := "", RepositoryURL := "",
        ValuesFile := "" } 0 [] with
  | mk release rest =>
    obtain ⟨count, output⟩ := rest
    rw [hl] at hrel hcount
    simp only [Nat.zero_add] at hrel hcount
    have hfilter : (databases.filter fun db =>
        decide (db.Name = "mysql" ∨ db.Name = "postgresql")) = databases.filter isSupported :=
      rfl
    rw [hfilter] at hcount
    have hlist : List.replicate count release =
        (databases.filter isSupported).map fun _ =>
          match lastSupported databases with
          | some db => releaseFor db
          | none => releaseFor { Name := "", DockerImage := "" } := by
      rw [hcount, hrel]
      cases hs : lastSupported databases with
      | some db => simp [List.map_const']
      | none =>
        have := (lastSupported_filter_nil databases).1 hs
        simp [this]
    simp only [hlist]

/-- When all supported databases of the list have the same name, every entry is the release of
the database it was made for. -/
theorem addDatabase_same_name (warn : String → String → List String)
    (manifestFile : ManifestBundle) (databases : List Database) (name : String)
    (hsame : ∀ db ∈ databases, isSupported db = true → db.Name = name) :
    (addDatabase warn manifestFile databases).1.HelmReleases =
      (databases.filter isSupported).map releaseFor := by
  rw [addDatabase_eq]
  simp only
  apply List.map_congr_left
  intro db hdb
  have hmem := List.mem_filter.1 hdb
  have hname := hsame db hmem.1 hmem.2
  cases hs : lastSupported databases with
  | none =>
    have := (lastSupported_filter_nil databases).1 hs
    rw [this] at hdb
    simp at hdb
  | some d =>
    have hd := lastSupported_mem databases d hs
    have hdname := hsame d hd.1 hd.2
    simp [releaseFor, hname, hdname]

/-- C22, database Helm releases: evaluation at the failing input. For the databases mysql and
postgresql, in that order, `addDatabase` leaves two entries that are both the release of
postgresql, because both are the address of the one variable `release`; the claim expects the
release of mysql followed by the release of postgresql. -/
theorem helm_releases_share_one_record :
    (addDatabase (fun f a => [f ++ a]) emptyManifest
        [{ Name := "mysql", DockerImage := "mysql" },
         { Name := "postgresql", DockerImage := "postgres" }]).1.HelmReleases =
      [{ UID := "", ChartName := "postgresql", DisplayName := "postgresql", Version := "3.1.0",
         RepositoryURL := "https://kubernetes-charts.storage.googleapis.com/",
         ValuesFile := "" },
       { UID := "", ChartName := "postgresql", DisplayName := "postgresql", Version := "3.1.0",
         RepositoryURL := "https://kubernetes-charts.storage.googleapis.com/",
         ValuesFile := "" }] ∧
      (addDatabase (fun f a => [f ++ a]) emptyManifest
        [{ Name := "mysql", DockerImage := "mysql" },
         { Name := "postgresql", DockerImage := "postgres" }]).1.HelmReleases ≠
        [releaseFor { Name := "mysql", DockerImage := "mysql" },
         releaseFor { Name := "postgresql", DockerImage := "postgres" }] := by
  decide

/-! ## Decoded catalogs and the catalogs with every unit present -/

theorem nilable_findDependencies (l : List (Option (String × List String)))
    (name nm : String) :
    (Nilable.findDependencies l name nm = .panic ∧ none ∈ l) ∨
      Nilable.findDependencies l name nm = .done (findDependencies l.reduceOption name nm) := by
  induction l with
  | nil => exact Or.inr (by simp [Nilable.findDependencies, findDependencies])
  | cons e rest ih =>
    cases e with
    | none => exact Or.inl ⟨by simp [Nilable.findDependencies], by simp⟩
    | some u =>
      by_cases hu : u.1 = nm
      · exact Or.inr (by
          simp [Nilable.findDependencies, findDependencies, List.reduceOption_cons_of_some, hu])
      · rcases ih with ⟨h1, h2⟩ | h
        · exact Or.inl ⟨by simp [Nilable.findDependencies, hu, h1], by simp [h2]⟩
        · refine Or.inr ?_
          simp only [Nilable.findDependencies, hu, if_false, h]
          simp [findDependencies, List.reduceOption_cons_of_some, hu]

theorem nilable_findDependencies_map {α : Type} (f : α → String × List String)
    (l : List (Option α)) (name nm : String) :
    (Nilable.findDependencies (l.map (Option.map f)) name nm = .panic ∧ none ∈ l) ∨
      Nilable.findDependencies (l.map (Option.map f)) name nm =
        .done (findDependencies (l.reduceOption.map f) name nm) := by
  rcases nilable_findDependencies (l.map (Option.map f)) name nm with ⟨h1, h2⟩ | h
  · refine Or.inl ⟨h1, ?_⟩
    obtain ⟨e, he, hnone⟩ := List.mem_map.1 h2
    cases e with
    | none => exact he
    | some v => simp at hnone
  · exact Or.inr (by rw [h, List.reduceOption_map])

/-- The lookup on a decoded catalog panics, the catalog having an absent object or a null
entry, or it returns what the lookup returns on the units that are present. -/
theorem nilable_lookup (r : Nilable.TemplateJSON) (name : String) :
    (Nilable.getTemplateDependencies r name = .panic ∧ Nilable.nullFree r = false) ∨
      Nilable.getTemplateDependencies r name =
        .done (getTemplateDependencies r.dropNulls name) := by
  unfold Nilable.getTemplateDependencies getTemplateDependencies
  split
  · rename_i ty nm hsplit
    cases hT : r.Templates with
    | none =>
      by_cases h1 : ty = "stencils"
      · exact Or.inl ⟨by simp [h1], by simp [Nilable.nullFree, hT]⟩
      by_cases h2 : ty = "policies"
      · exact Or.inl ⟨by simp [h1, h2], by simp [Nilable.nullFree, hT]⟩
      by_cases h3 : ty = "transformations"
      · exact Or.inl ⟨by simp [h1, h2, h3], by simp [Nilable.nullFree, hT]⟩
      by_cases h4 : ty = "helm_charts"
      · exact Or.inl ⟨by simp [h1, h2, h3, h4], by simp [Nilable.nullFree, hT]⟩
      exact Or.inr (by simp [h1, h2, h3, h4])
    | some ts =>
      have hdrop : r.dropNulls.Templates =
          { Stencils := ts.Stencils.reduceOption, Policies := ts.Policies.reduceOption,
            Transformations := ts.Transformations.reduceOption,
            HelmReleases := ts.HelmReleases.reduceOption } := by
        simp [Nilable.TemplateJSON.dropNulls, hT]
      rw [hdrop]
      by_cases h1 : ty = "stencils"
      · simp only [h1, if_true]
        rcases nilable_findDependencies_map (fun v : StencilTemplate => (v.Name, v.Dependencies))
          ts.Stencils name nm with ⟨h, hn⟩ | h
        · exact Or.inl ⟨h, by simp [Nilable.nullFree, hT, hn]⟩
        · exact Or.inr h
      by_cases h2 : ty = "policies"
      · simp only [h1, h2, if_true, if_false]
        rcases nilable_findDependencies_map (fun v : PolicyTemplate => (v.Name, v.Dependencies))
          ts.Policies name nm with ⟨h, hn⟩ | h
        · exact Or.inl ⟨h, by simp [Nilable.nullFree, hT, hn]⟩
        · exact Or.inr h
      by_cases h3 : ty = "transformations"
      · simp only [h1, h2, h3, if_true, if_false]
        rcases nilable_findDependencies_map
          (fun v : TransformationsTemplate => (v.Name, v.Dependencies))
          ts.Transformations name nm with ⟨h, hn⟩ | h
        · exact Or.inl ⟨h, by simp [Nilable.nullFree, hT, hn]⟩
        · exact Or.inr h
      by_cases h4 : ty = "helm_charts"
      · simp only [h1, h2, h3, h4, if_true, if_false]
        rcases nilable_findDependencies_map
          (fun v : HelmReleaseTemplate => (v.Name, v.Dependencies))
          ts.HelmReleases name nm with ⟨h, hn⟩ | h
        · exact Or.inl ⟨h, by simp [Nilable.nullFree, hT, hn]⟩
        · exact Or.inr h
      exact Or.inr (by simp [h1, h2, h3, h4])
  · exact Or.inr rfl

theorem nilable_forEachDependency (Q : Prop)
    (rawCall : String → ResolveState → Option (Run (ResolveState × Option String)))
    (call : String → ResolveState → Option (ResolveState × Option String))
    (hcall : ∀ name st, (rawCall name st = some .panic ∧ Q) ∨
      rawCall name st = (call name st).map .done)
    (deps : List String) (st : ResolveState) :
    (Nilable.forEachDependency rawCall deps st = some .panic ∧ Q) ∨
      Nilable.forEachDependency rawCall deps st =
        (forEachDependency call deps st).map .done := by
  induction deps generalizing st with
  | nil => exact Or.inr (by simp [Nilable.forEachDependency, forEachDependency])
  | cons dep rest ih =>
    rcases hcall dep st with ⟨h, q⟩ | h
    · exact Or.inl ⟨by simp [Nilable.forEachDependency, h], q⟩
    · cases hc : call dep st with
      | none => exact Or.inr (by simp [Nilable.forEachDependency, forEachDependency, h, hc])
      | some x =>
        obtain ⟨st1, e⟩ := x
        cases e with
        | some err =>
          exact Or.inr (by simp [Nilable.forEachDependency, forEachDependency, h, hc])
        | none =>
          rcases ih st1 with ⟨h1, q⟩ | h1
          · exact Or.inl ⟨by simp [Nilable.forEachDependency, h, hc, h1], q⟩
          · exact Or.inr (by simp [Nilable.forEachDependency, forEachDependency, h, hc, h1])

theorem nilable_internal_fresh (r : Nilable.TemplateJSON) (rootName : String) (d : Nat)
    (name : String) (st : ResolveState)
    (h : st.visited.get? name = none ∨ st.visited.get? name = some color.white) :
    Nilable.getRequiredComponentNamesInternal r rootName (d + 1) name st =
      match Nilable.getTemplateDependencies r name with
      | .panic => some .panic
      | .done (.error err) =>
        some (.done ({ st with visited := st.visited.set name color.grey }, some err))
      | .done (.ok deps) =>
        match Nilable.forEachDependency (Nilable.getRequiredComponentNamesInternal r rootName d)
            deps { st with visited := st.visited.set name color.grey } with
        | none => none
        | some .panic => some .panic
        | some (.done (st3, some err)) => some (.done (st3, some err))
        | some (.done (st3, none)) =>
          some (.done ({ st3 with visited := st3.visited.set name color.black }, none)) := by
  rcases h with h | h
  · simp [Nilable.getRequiredComponentNamesInternal, h, GoMap.get?_set_self, GoMap.set_set]
  · simp [Nilable.getRequiredComponentNamesInternal, h]

/-- The walk on a decoded catalog panics, the catalog having an absent object or a null entry,
or it does what the walk does on the units that are present. -/
theorem nilable_internal (r : Nilable.TemplateJSON) (rootName : String) (d : Nat) :
    ∀ (name : String) (st : ResolveState),
      (Nilable.getRequiredComponentNamesInternal r rootName d name st = some .panic ∧
          Nilable.nullFree r = false) ∨
        Nilable.getRequiredComponentNamesInternal r rootName d name st =
          (getRequiredComponentNamesInternal r.dropNulls rootName d name st).map .done := by
  induction d with
  | zero =>
    intro name st
    exact Or.inr (by simp [Nilable.getRequiredComponentNamesInternal,
      getRequiredComponentNamesInternal])
  | succ d ih =>
    intro name st
    rcases color_cases st.visited name with hf | hg | hb
    · rw [nilable_internal_fresh r rootName d name st hf,
        internal_fresh r.dropNulls rootName d name st hf]
      rcases nilable_lookup r name with ⟨h, q⟩ | h
      · exact Or.inl ⟨by simp [h], q⟩
      · rw [h]
        cases hd : getTemplateDependencies r.dropNulls name with
        | error err => exact Or.inr (by simp)
        | ok deps =>
          simp only []
          rcases nilable_forEachDependency (Nilable.nullFree r = false) _ _ ih deps
            { st with visited := st.visited.set name color.grey } with ⟨h1, q⟩ | h1
          · exact Or.inl ⟨by simp [h1], q⟩
          · rw [h1]
            cases hl : forEachDependency
                (getRequiredComponentNamesInternal r.dropNulls rootName d) deps
                { st with visited := st.visited.set name color.grey } with
            | none => exact Or.inr (by simp)
            | some x =>
              obtain ⟨st3, e⟩ := x
              cases e <;> exact Or.inr (by simp)
    · exact Or.inr (by
        rw [internal_grey r.dropNulls rootName d name st hg]
        simp [Nilable.getRequiredComponentNamesInternal, hg])
    · exact Or.inr (by
        rw [internal_black r.dropNulls rootName d name st hb]
        simp [Nilable.getRequiredComponentNamesInternal, hb])

theorem nilable_loop (r : Nilable.TemplateJSON) (d : Nat) (initial : List String) :
    ∀ (acc : GoMap Bool) (out : List String),
      (Nilable.getRequiredComponentNamesLoop r d initial acc out = some .panic ∧
          Nilable.nullFree r = false) ∨
        Nilable.getRequiredComponentNamesLoop r d initial acc out =
          (getRequiredComponentNamesLoop r.dropNulls d initial acc out).map .done := by
  induction initial with
  | nil =>
    intro acc out
    exact Or.inr (by simp [Nilable.getRequiredComponentNamesLoop, getRequiredComponentNamesLoop])
  | cons a rest ih =>
    intro acc out
    rcases nilable_internal r a d a { visited := [], output := out } with ⟨h, q⟩ | h
    · exact Or.inl ⟨by simp [Nilable.getRequiredComponentNamesLoop, h], q⟩
    · cases hc : getRequiredComponentNamesInternal r.dropNulls a d a
          { visited := [], output := out } with
      | none =>
        exact Or.inr (by
          simp [Nilable.getRequiredComponentNamesLoop, getRequiredComponentNamesLoop, h, hc])
      | some x =>
        obtain ⟨st1, e⟩ := x
        cases e with
        | some err =>
          exact Or.inr (by
            simp [Nilable.getRequiredComponentNamesLoop, getRequiredComponentNamesLoop, h, hc])
        | none =>
          rcases ih (mergeVisited acc st1.visited.keys) st1.output with ⟨h1, q⟩ | h1
          · exact Or.inl ⟨by simp [Nilable.getRequiredComponentNamesLoop, h, hc, h1], q⟩
          · exact Or.inr (by
              simp [Nilable.getRequiredComponentNamesLoop, getRequiredComponentNamesLoop, h, hc,
                h1])

/-- The resolver on a decoded catalog panics, the catalog having an absent object or a null
entry, or it returns what the resolver returns on the units that are present. -/
theorem nilable_resolver (r : Nilable.TemplateJSON) (d : Nat) (initial : List String) :
    (Nilable.getRequiredComponentNames d r initial = some .panic ∧
        Nilable.nullFree r = false) ∨
      Nilable.getRequiredComponentNames d r initial =
        (getRequiredComponentNames d r.dropNulls initial).map .done := by
  unfold Nilable.getRequiredComponentNames getRequiredComponentNames
  rcases nilable_loop r d initial [] [] with ⟨h, q⟩ | h
  · exact Or.inl ⟨by simp [h], q⟩
  · rw [h]
    cases hl : getRequiredComponentNamesLoop r.dropNulls d initial [] [] with
    | none => exact Or.inr (by simp)
    | some x =>
      obtain ⟨out, res⟩ := x
      cases res <;> exact Or.inr (by simp)

/-! ## The lookup on a decoded catalog -/

theorem nilable_findDependencies_error_iff (l : List (Option (String × List String)))
    (name nm : String) :
    (∃ err, Nilable.findDependencies l name nm = .done (.error err)) ↔
      ∀ e ∈ l, ∃ u, e = some u ∧ u.1 ≠ nm := by
  induction l with
  | nil => simp [Nilable.findDependencies]
  | cons e rest ih =>
    cases e with
    | none => simp [Nilable.findDependencies]
    | some u =>
      by_cases hu : u.1 = nm
      · simp only [Nilable.findDependencies, hu, if_true, Run.done.injEq, reduceCtorEq,
          exists_false, false_iff]
        intro h
        obtain ⟨v, hv, hne⟩ := h (some u) (List.mem_cons_self _ _)
        simp only [Option.some.injEq] at hv
        exact hne (hv ▸ hu)
      · simp only [Nilable.findDependencies, hu, if_false, ih]
        constructor
        · intro h e he
          rcases List.mem_cons.1 he with rfl | he
          · exact ⟨u, rfl, hu⟩
          · exact h e he
        · intro h e he
          exact h e (List.mem_cons_of_mem _ he)

theorem nilable_findDependencies_ok_iff (l : List (Option (String × List String)))
    (name nm : String) (deps : List String) :
    Nilable.findDependencies l name nm = .done (.ok deps) ↔
      ∃ (before : List (String × List String)) (u : String × List String)
        (after : List (Option (String × List String))),
        l = before.map some ++ some u :: after ∧ (∀ v ∈ before, v.1 ≠ nm) ∧
        u.1 = nm ∧ u.2 = deps := by
  induction l with
  | nil => simp [Nilable.findDependencies]
  | cons e rest ih =>
    cases e with
    | none =>
      simp only [Nilable.findDependencies, reduceCtorEq, false_iff, not_exists, not_and]
      intro before u after h
      cases before with
      | nil => simp at h
      | cons b bs => simp at h
    | some w =>
      by_cases hw : w.1 = nm
      · simp only [Nilable.findDependencies, hw, if_true, Run.done.injEq, Except.ok.injEq]
        constructor
        · intro h
          exact ⟨[], w, rest, by simp, by simp, hw, h⟩
        · rintro ⟨before, u, after, h, hb, hu, hd⟩
          cases before with
          | nil =>
            simp only [List.map_nil, List.nil_append, List.cons.injEq, Option.some.injEq] at h
            rw [h.1]
            exact hd
          | cons b bs =>
            simp only [List.map_cons, List.cons_append, List.cons.injEq,
              Option.some.injEq] at h
            exact absurd (h.1 ▸ hw) (hb b (List.mem_cons_self _ _))
      · simp only [Nilable.findDependencies, hw, if_false, ih]
        constructor
        · rintro ⟨before, u, after, h, hb, hu, hd⟩
          refine ⟨w :: before, u, after, by simp [h], ?_, hu, hd⟩
          intro v hv
          rcases List.mem_cons.1 hv with rfl | hv
          · exact hw
          · exact hb v hv
        · rintro ⟨before, u, after, h, hb, hu, hd⟩
          cases before with
          | nil =>
            simp only [List.map_nil, List.nil_append, List.cons.injEq, Option.some.injEq] at h
            exact absurd (h.1 ▸ hu) hw
          | cons b bs =>
            simp only [List.map_cons, List.cons_append, List.cons.injEq,
              Option.some.injEq] at h
            exact ⟨bs, u, after, h.2, fun v hv => hb v (List.mem_cons_of_mem _ hv), hu, hd⟩

theorem nilable_findDependencies_panic_iff (l : List (Option (String × List String)))
    (name nm : String) :
    Nilable.findDependencies l name nm = .panic ↔
      ∃ (before : List (String × List String)) (after : List (Option (String × List String))),
        l = before.map some ++ none :: after ∧ ∀ v ∈ before, v.1 ≠ nm := by
  induction l with
  | nil => simp [Nilable.findDependencies]
  | cons e rest ih =>
    cases e with
    | none =>
      simp only [Nilable.findDependencies, true_iff]
      exact ⟨[], rest, by simp, by simp⟩
    | some w =>
      by_cases hw : w.1 = nm
      · simp only [Nilable.findDependencies, hw, if_true, reduceCtorEq, false_iff, not_exists,
          not_and, not_forall]
        intro before after h
        cases before with
        | nil => simp at h
        | cons b bs =>
          simp only [List.map_cons, List.cons_append, List.cons.injEq, Option.some.injEq] at h
          exact ⟨b, List.mem_cons_self _ _, by simp [← h.1, hw]⟩
      · simp only [Nilable.findDependencies, hw, if_false, ih]
        constructor
        · rintro ⟨before, after, h, hb⟩
          refine ⟨w :: before, after, by simp [h], ?_⟩
          intro v hv
          rcases List.mem_cons.1 hv with rfl | hv
          · exact hw
          · exact hb v hv
        · rintro ⟨before, after, h, hb⟩
          cases before with
          | nil => simp at h
          | cons b bs =>
            simp only [List.map_cons, List.cons_append, List.cons.injEq,
              Option.some.injEq] at h
            exact ⟨bs, after, h.2, fun v hv => hb v (List.mem_cons_of_mem _ hv)⟩

theorem nilable_lookup_of_type (r : Nilable.TemplateJSON) (name ty nm : String)
    (hsplit : stringsSplitSlash name = [ty, nm]) (hty : ty ∈ templateTypes) :
    Nilable.getTemplateDependencies r name =
      match r.Templates with
      | none => .panic
      | some ts => Nilable.findDependencies (Nilable.unitsOfType ts ty) name nm := by
  unfold Nilable.getTemplateDependencies Nilable.unitsOfType
  rw [hsplit]
  simp only [templateTypes, List.mem_cons, List.mem_singleton, List.not_mem_nil, or_false] at hty
  rcases hty with h | h | h | h <;> subst h <;> cases r.Templates <;> simp

theorem nilable_lookup_bad_type (r : Nilable.TemplateJSON) (name ty nm : String)
    (hsplit : stringsSplitSlash name = [ty, nm]) (hty : ty ∉ templateTypes) :
    Nilable.getTemplateDependencies r name = .done (.error (malformedMessage name)) := by
  unfold Nilable.getTemplateDependencies
  rw [hsplit]
  simp only [templateTypes, List.mem_cons, List.mem_singleton, List.not_mem_nil, or_false,
    not_or] at hty
  obtain ⟨h1, h2, h3, h4⟩ := hty
  simp [h1, h2, h3, h4]

theorem nilable_lookup_bad_shape (r : Nilable.TemplateJSON) (name : String)
    (hlen : (stringsSplitSlash name).length ≠ 2) :
    Nilable.getTemplateDependencies r name = .done (.error (malformedMessage name)) := by
  unfold Nilable.getTemplateDependencies
  split
  · rename_i ty nm heq
    rw [heq] at hlen
    simp at hlen
  · rfl

/-- C9, lookup contract, on a decoded catalog: `getTemplateDependencies` returns an error exactly
when the name does not split on the slash into two parts, or its type part is none of the four
template types, or the `templates` object is present and every entry of that type is a unit,
none of them null, with another name; it returns a list exactly when the name splits into a
template type and a name, the object is present, and the list is the dependency list of the
first unit of that type with that name, all entries before it being units; and it panics exactly
when the name splits into a template type and a name and the object is absent or a null entry
comes before any unit with that name. -/
theorem lookup_contract (r : Nilable.TemplateJSON) (name : String) :
    ((∃ err, Nilable.getTemplateDependencies r name = .done (.error err)) ↔
      ((stringsSplitSlash name).length ≠ 2 ∨
        (∃ ty nm, stringsSplitSlash name = [ty, nm] ∧ ty ∉ templateTypes) ∨
        (∃ ty nm ts, stringsSplitSlash name = [ty, nm] ∧ ty ∈ templateTypes ∧
          r.Templates = some ts ∧
          ∀ e ∈ Nilable.unitsOfType ts ty, ∃ u, e = some u ∧ u.1 ≠ nm))) ∧
    (∀ deps, Nilable.getTemplateDependencies r name = .done (.ok deps) ↔
      ∃ (ty nm : String) (ts : Nilable.TemplatesStruct) (before : List (String × List String))
        (u : String × List String) (after : List (Option (String × List String))),
        stringsSplitSlash name = [ty, nm] ∧ ty ∈ templateTypes ∧ r.Templates = some ts ∧
        Nilable.unitsOfType ts ty = before.map some ++ some u :: after ∧
        (∀ v ∈ before, v.1 ≠ nm) ∧ u.1 = nm ∧ u.2 = deps) ∧
    (Nilable.getTemplateDependencies r name = .panic ↔
      ∃ ty nm, stringsSplitSlash name = [ty, nm] ∧ ty ∈ templateTypes ∧
        (r.Templates = none ∨
          ∃ (ts : Nilable.TemplatesStruct) (before : List (String × List String))
            (after : List (Option (String × List String))),
            r.Templates = some ts ∧
            Nilable.unitsOfType ts ty = before.map some ++ none :: after ∧
            ∀ v ∈ before, v.1 ≠ nm)) := by
  by_cases hlen : (stringsSplitSlash name).length = 2
  · obtain ⟨ty, nm, hsplit⟩ := List.length_eq_two.1 hlen
    have hinj : ∀ ty2 nm2, stringsSplitSlash name = [ty2, nm2] → ty2 = ty ∧ nm2 = nm := by
      intro ty2 nm2 h2
      rw [hsplit] at h2
      simp only [List.cons.injEq, and_true] at h2
      exact ⟨h2.1.symm, h2.2.symm⟩
    by_cases hty : ty ∈ templateTypes
    · rw [nilable_lookup_of_type r name ty nm hsplit hty]
      cases hT : r.Templates with
      | none =>
        refine ⟨?_, ?_, ?_⟩
        · simp only [reduceCtorEq, exists_false, false_iff, not_or, not_exists, not_and]
          refine ⟨fun h => h hlen, ?_, ?_⟩
          · intro ty2 nm2 h2
            obtain ⟨rfl, rfl⟩ := hinj ty2 nm2 h2
            exact fun h => h hty
          · intro ty2 nm2 ts h2 _ h3
            exact absurd h3 (by simp)
        · intro deps
          simp only [reduceCtorEq, false_iff, not_exists, not_and]
          intro ty2 nm2 ts before u after _ _ h3
          exact absurd h3 (by simp)
        · exact ⟨fun _ => ⟨ty, nm, hsplit, hty, Or.inl rfl⟩, fun _ => rfl⟩
      | some ts =>
        refine ⟨?_, ?_, ?_⟩
        · simp only []
          rw [nilable_findDependencies_error_iff]
          constructor
          · intro h
            exact Or.inr (Or.inr ⟨ty, nm, ts, hsplit, hty, rfl, h⟩)
          · rintro (h | ⟨ty2, nm2, h2, hbad⟩ | ⟨ty2, nm2, ts2, h2, _, h3, hall⟩)
            · exact absurd hlen h
            · obtain ⟨rfl, rfl⟩ := hinj ty2 nm2 h2
              exact absurd hty hbad
            · obtain ⟨rfl, rfl⟩ := hinj ty2 nm2 h2
              simp only [Option.some.injEq] at h3
              subst h3
              exact hall
        · intro deps
          simp only []
          rw [nilable_findDependencies_ok_iff]
          constructor
          · rintro ⟨before, u, after, h⟩
            exact ⟨ty, nm, ts, before, u, after, hsplit, hty, rfl, h⟩
          · rintro ⟨ty2, nm2, ts2, before, u, after, h2, _, h3, h⟩
            obtain ⟨rfl, rfl⟩ := hinj ty2 nm2 h2
            simp only [Option.some.injEq] at h3
            subst h3
            exact ⟨before, u, after, h⟩
        · simp only []
          rw [nilable_findDependencies_panic_iff]
          constructor
          · rintro ⟨before, after, h⟩
            exact ⟨ty, nm, hsplit, hty, Or.inr ⟨ts, before, after, rfl, h⟩⟩
          · rintro ⟨ty2, nm2, h2, _, h3 | ⟨ts2, before, after, h3, h⟩⟩
            · exact absurd h3 (by simp)
            · obtain ⟨rfl, rfl⟩ := hinj ty2 nm2 h2
              simp only [Option.some.injEq] at h3
              subst h3
              exact ⟨before, after, h⟩
    · rw [nilable_lookup_bad_type r name ty nm hsplit hty]
      refine ⟨?_, ?_, ?_⟩
      · exact ⟨fun _ => Or.inr (Or.inl ⟨ty, nm, hsplit, hty⟩), fun _ => ⟨_, rfl⟩⟩
      · intro deps
        simp only [Run.done.injEq, reduceCtorEq, false_iff, not_exists, not_and]
        intro ty2 nm2 ts before u after h2 hty2
        obtain ⟨rfl, rfl⟩ := hinj ty2 nm2 h2
        exact absurd hty2 hty
      · simp only [reduceCtorEq, false_iff, not_exists, not_and]
        intro ty2 nm2 h2 hty2
        obtain ⟨rfl, rfl⟩ := hinj ty2 nm2 h2
        exact absurd hty2 hty
  · rw [nilable_lookup_bad_shape r name hlen]
    refine ⟨?_, ?_, ?_⟩
    · exact ⟨fun _ => Or.inl hlen, fun _ => ⟨_, rfl⟩⟩
    · intro deps
      simp only [Run.done.injEq, reduceCtorEq, false_iff, not_exists, not_and]
      intro ty2 nm2 ts before u after h2
      rw [h2] at hlen
      simp at hlen
    · simp only [reduceCtorEq, false_iff, not_exists, not_and]
      intro ty2 nm2 h2
      rw [h2] at hlen
      simp at hlen

/-! ## Root selection and the filter on a decoded catalog -/

theorem nilable_initial_loop_panic_iff (l : List (Option StencilTemplate))
    (result : List String) :
    Nilable.getInitialComponentNamesLoop l result = .panic ↔ none ∈ l := by
  induction l generalizing result with
  | nil => simp [Nilable.getInitialComponentNamesLoop]
  | cons e rest ih =>
    cases e with
    | none => simp [Nilable.getInitialComponentNamesLoop]
    | some s =>
      by_cases h : s.MinUsage > 0
      · simp [Nilable.getInitialComponentNamesLoop, h, generateFullyQualifiedName, ih]
      · simp [Nilable.getInitialComponentNamesLoop, h, ih]

theorem nilable_initial_loop_eq (stencils : List StencilTemplate) (result : List String) :
    Nilable.getInitialComponentNamesLoop (stencils.map some) result =
      .done (getInitialComponentNamesLoop stencils result) := by
  induction stencils generalizing result with
  | nil => simp [Nilable.getInitialComponentNamesLoop, getInitialComponentNamesLoop]
  | cons s rest ih =>
    by_cases h : s.MinUsage > 0
    · simp [Nilable.getInitialComponentNamesLoop, getInitialComponentNamesLoop, h,
        generateFullyQualifiedName, ih]
    · simp [Nilable.getInitialComponentNamesLoop, getInitialComponentNamesLoop, h, ih]

theorem nilable_filter_none (l result : List (Option StencilTemplate)) :
    Nilable.filterStencilsLoop [] l result = .done result := by
  induction l generalizing result with
  | nil => simp [Nilable.filterStencilsLoop]
  | cons e rest ih => simp [Nilable.filterStencilsLoop, Nilable.stencilRequired, ih]

theorem nilable_stencilRequired (s : StencilTemplate) (required : List String) :
    Nilable.stencilRequired (some s) required = .done (stencilRequired s required) := by
  induction required with
  | nil => simp [Nilable.stencilRequired, stencilRequired]
  | cons a rest ih =>
    by_cases h : s.Name = a
    · simp [Nilable.stencilRequired, stencilRequired, h]
    · simp [Nilable.stencilRequired, stencilRequired, h, ih]

theorem nilable_filter_loop (required : List String) (stencils result : List StencilTemplate) :
    Nilable.filterStencilsLoop required (stencils.map some) (result.map some) =
      .done ((filterStencilsLoop required stencils result).map some) := by
  induction stencils generalizing result with
  | nil => simp [Nilable.filterStencilsLoop, filterStencilsLoop]
  | cons s rest ih =>
    have happ : result.map some ++ [some s] = (result ++ [s]).map some := by simp
    cases h : stencilRequired s required with
    | true =>
      simp only [List.map_cons, Nilable.filterStencilsLoop, nilable_stencilRequired, h,
        filterStencilsLoop, if_true, happ, ih]
    | false =>
      simp only [List.map_cons, Nilable.filterStencilsLoop, nilable_stencilRequired, h,
        filterStencilsLoop, Bool.false_eq_true, if_false, ih]

/-- C8, minimum-usage root selection, on a decoded catalog: `getInitialComponentNames` panics
exactly when the `templates` object is absent or the stencil list has a null entry; when the
object is present and every entry of the stencil list is a stencil, it returns the names
`stencils/<name>` of exactly the stencils with `min_usage > 0`, in declaration order; and when
moreover no stencil has `min_usage > 0`, the initial names, the list returned by
`getRequiredComponentNames` on them and the filtered stencil list are all empty. -/
theorem minimum_usage_root_selection (r : Nilable.TemplateJSON) :
    (Nilable.getInitialComponentNames r = .panic ↔
      (r.Templates = none ∨ ∃ ts, r.Templates = some ts ∧ none ∈ ts.Stencils)) ∧
    ∀ (ts : Nilable.TemplatesStruct) (stencils : List StencilTemplate),
      r.Templates = some ts → ts.Stencils = stencils.map some →
      Nilable.getInitialComponentNames r =
          .done (.ok ((stencils.filter fun s => decide (s.MinUsage > 0)).map
            fun s => "stencils/" ++ s.Name)) ∧
        ((∀ s ∈ stencils, ¬ s.MinUsage > 0) →
          Nilable.getInitialComponentNames r = .done (.ok []) ∧
          (∀ depth, Nilable.getRequiredComponentNames depth r [] = some (.done ([], .ok []))) ∧
          Nilable.filterStencilsByRequiredComponentNames r [] = .done [] ∧
          ∀ depth, Nilable.requiredStencilsOf depth r = some (.done ([], .ok []))) := by
  constructor
  · unfold Nilable.getInitialComponentNames
    cases hT : r.Templates with
    | none => simp
    | some ts => simp [nilable_initial_loop_panic_iff]
  · intro ts stencils hT hS
    have h1 : Nilable.getInitialComponentNames r =
        .done (.ok ((stencils.filter fun s => decide (s.MinUsage > 0)).map
          fun s => "stencils/" ++ s.Name)) := by
      unfold Nilable.getInitialComponentNames
      rw [hT]
      simp only []
      rw [hS, nilable_initial_loop_eq, getInitialComponentNamesLoop_eq]
      simp
    refine ⟨h1, fun hnone => ?_⟩
    have hfilter : (stencils.filter fun s => decide (s.MinUsage > 0)) = [] := by
      rw [List.filter_eq_nil_iff]
      intro s hs
      simpa using hnone s hs
    have h2 : Nilable.getInitialComponentNames r = .done (.ok []) := by
      rw [h1, hfilter]
      rfl
    have h3 : ∀ depth, Nilable.getRequiredComponentNames depth r [] =
        some (.done ([], .ok [])) := fun _ => rfl
    have h4 : Nilable.filterStencilsByRequiredComponentNames r [] = .done [] := by
      unfold Nilable.filterStencilsByRequiredComponentNames
      rw [hT]
      exact nilable_filter_none _ _
    refine ⟨h2, h3, h4, fun depth => ?_⟩
    simp [Nilable.requiredStencilsOf, h2, h3 depth, h4]

/-- Witness of C8 on a decoded catalog without a mandatory stencil and without a null entry. -/
theorem minimum_usage_root_selection_witness :
    optionalCatalog.toNilable.Templates =
        some { Stencils := optionalCatalog.Templates.Stencils.map some, Policies := [],
               Transformations := [], HelmReleases := [] } ∧
      (∀ s ∈ optionalCatalog.Templates.Stencils, ¬ s.MinUsage > 0) ∧
      Nilable.getInitialComponentNames optionalCatalog.toNilable = .done (.ok []) ∧
      (∀ depth, Nilable.getRequiredComponentNames depth optionalCatalog.toNilable [] =
        some (.done ([], .ok []))) ∧
      Nilable.filterStencilsByRequiredComponentNames optionalCatalog.toNilable [] = .done [] ∧
      ∀ depth, Nilable.requiredStencilsOf depth optionalCatalog.toNilable =
        some (.done ([], .ok [])) :=
  ⟨by decide, by decide,
    ((minimum_usage_root_selection optionalCatalog.toNilable).2
      { Stencils := optionalCatalog.Templates.Stencils.map some, Policies := [],
        Transformations := [], HelmReleases := [] }
      optionalCatalog.Templates.Stencils (by decide) (by decide)).2 (by decide)⟩

/-- C8 as stated fails on the code: for the file without a `templates` object, and for a
stencil list with a null entry, `getInitialComponentNames` panics and returns no names, although
no stencil of either catalog has `min_usage > 0`. -/
theorem minimum_usage_root_selection_counterexample :
    Nilable.getInitialComponentNames absentTemplatesCatalog = .panic ∧
      (¬ ∃ res, Nilable.getInitialComponentNames absentTemplatesCatalog = .done res) ∧
      Nilable.getInitialComponentNames nullStencilCatalog = .panic ∧
      (¬ ∃ res, Nilable.getInitialComponentNames nullStencilCatalog = .done res) ∧
      ∀ depth, Nilable.requiredStencilsOf depth absentTemplatesCatalog = some .panic := by
  have h1 : Nilable.getInitialComponentNames absentTemplatesCatalog = .panic := by decide
  have h2 : Nilable.getInitialComponentNames nullStencilCatalog = .panic := by decide
  refine ⟨h1, ?_, h2, ?_, fun depth => rfl⟩
  · rintro ⟨res, h⟩
    rw [h1] at h
    exact Run.noConfusion h
  · rintro ⟨res, h⟩
    rw [h2] at h
    exact Run.noConfusion h

/-! ## The resolver on a decoded catalog -/

theorem toNilable_dropNulls (t : TemplateJSON) : t.toNilable.dropNulls = t := by
  have h : ∀ {α : Type} (l : List α), (l.map some).reduceOption = l := by
    intro α l
    induction l with
    | nil => rfl
    | cons a rest ih => rw [List.map_cons, List.reduceOption_cons_of_some, ih]
  simp [TemplateJSON.toNilable, Nilable.TemplateJSON.dropNulls, h]

theorem toNilable_nullFree (t : TemplateJSON) : Nilable.nullFree t.toNilable = true := by
  simp [TemplateJSON.toNilable, Nilable.nullFree]

/-- On a catalog with every unit present the lookup on the decoded catalog never panics and
returns what `getTemplateDependencies` returns. -/
theorem toNilable_lookup (t : TemplateJSON) (name : String) :
    Nilable.getTemplateDependencies t.toNilable name = .done (getTemplateDependencies t name) := by
  rcases nilable_lookup t.toNilable name with ⟨_, h⟩ | h
  · rw [toNilable_nullFree] at h
    exact absurd h (by simp)
  · rw [h, toNilable_dropNulls]

/-- On a catalog with every unit present the resolver on the decoded catalog never panics and
returns what `getRequiredComponentNames` returns. -/
theorem toNilable_resolver (t : TemplateJSON) (d : Nat) (initial : List String) :
    Nilable.getRequiredComponentNames d t.toNilable initial =
      (getRequiredComponentNames d t initial).map .done := by
  rcases nilable_resolver t.toNilable d initial with ⟨_, h⟩ | h
  · rw [toNilable_nullFree] at h
    exact absurd h (by simp)
  · rw [h, toNilable_dropNulls]

theorem nilable_lookup_done (r : Nilable.TemplateJSON) (name : String)
    (res : Except String (List String))
    (h : Nilable.getTemplateDependencies r name = .done res) :
    getTemplateDependencies r.dropNulls name = res := by
  rcases nilable_lookup r name with ⟨hp, _⟩ | he
  · rw [hp] at h
    exact Run.noConfusion h
  · rw [he] at h
    exact Run.done.inj h

theorem nilable_reachable (r : Nilable.TemplateJSON) (a b : String)
    (h : Nilable.Reachable r a b) : Reachable r.dropNulls a b := by
  induction h with
  | refl => exact Relation.ReflTransGen.refl
  | tail _ hstep ih =>
    obtain ⟨deps, hd, hm⟩ := hstep
    exact Relation.ReflTransGen.tail ih ⟨deps, nilable_lookup_done r _ _ hd, hm⟩

/-- C2, unknown reference rejection, on a decoded catalog: if the lookup of a name reachable from
an initial name (that name itself included) returns an error, be it because the name is of a
unit the catalog does not have, then `getRequiredComponentNames` never returns a list, whatever
the other initial names are; with a sufficient depth budget it returns an error or it panics;
and it returns an error, and does not panic, when the `templates` object is present and no
entry of the four lists is null. -/
theorem unknown_reference_rejection (r : Nilable.TemplateJSON) (initial : List String)
    (root : String) (hroot : root ∈ initial) (n : String) (hreach : Nilable.Reachable r root n)
    (hbad : ∃ err, Nilable.getTemplateDependencies r n = .done (.error err)) :
    (∀ depth output required,
      Nilable.getRequiredComponentNames depth r initial ≠
        some (.done (output, .ok required))) ∧
    (∀ depth, Nilable.recursionBound r ≤ depth →
      Nilable.getRequiredComponentNames depth r initial = some .panic ∨
      ∃ output err,
        Nilable.getRequiredComponentNames depth r initial = some (.done (output, .error err))) ∧
    (Nilable.nullFree r = true → ∀ depth, Nilable.recursionBound r ≤ depth →
      ∃ output err,
        Nilable.getRequiredComponentNames depth r initial =
          some (.done (output, .error err))) := by
  obtain ⟨err0, herr0⟩ := hbad
  have hold := unknown_reference_present r.dropNulls initial root hroot n
    (nilable_reachable r root n hreach) ⟨err0, nilable_lookup_done r n _ herr0⟩
  refine ⟨?_, ?_, ?_⟩
  · intro depth output required h
    rcases nilable_resolver r depth initial with ⟨hp, _⟩ | he
    · rw [hp] at h
      simp at h
    · rw [he] at h
      cases hx : getRequiredComponentNames depth r.dropNulls initial with
      | none => simp [hx] at h
      | some x =>
        simp only [hx, Option.map_some', Option.some.injEq, Run.done.injEq] at h
        subst h
        exact hold.1 depth output required hx
  · intro depth hdepth
    obtain ⟨output, err, ho⟩ := hold.2 depth hdepth
    rcases nilable_resolver r depth initial with ⟨hp, _⟩ | he
    · exact Or.inl hp
    · exact Or.inr ⟨output, err, by rw [he, ho]; rfl⟩
  · intro hfree depth hdepth
    obtain ⟨output, err, ho⟩ := hold.2 depth hdepth
    rcases nilable_resolver r depth initial with ⟨_, hq⟩ | he
    · rw [hfree] at hq
      exact absurd hq (by simp)
    · exact ⟨output, err, by rw [he, ho]; rfl⟩

/-- Witness of C2: stencil A needs a policy P that the catalog does not have, while the other
initial name, stencil B, resolves cleanly; no entry of the catalog is null. -/
theorem unknown_reference_rejection_witness :
    "stencils/A" ∈ ["stencils/B", "stencils/A"] ∧
      Nilable.Reachable danglingCatalog.toNilable "stencils/A" "policies/P" ∧
      Nilable.getTemplateDependencies danglingCatalog.toNilable "policies/P" =
        .done (.error (notFoundMessage "policies/P")) ∧
      Nilable.nullFree danglingCatalog.toNilable = true ∧
      ∃ output err,
        Nilable.getRequiredComponentNames (Nilable.recursionBound danglingCatalog.toNilable)
          danglingCatalog.toNilable ["stencils/B", "stencils/A"] =
            some (.done (output, .error err)) :=
  have hreach : Nilable.Reachable danglingCatalog.toNilable "stencils/A" "policies/P" :=
    Relation.ReflTransGen.single ⟨["policies/P"], by decide, by simp⟩
  ⟨by simp, hreach, by decide, by decide,
    (unknown_reference_rejection danglingCatalog.toNilable ["stencils/B", "stencils/A"]
      "stencils/A" (by simp) "policies/P" hreach
      ⟨notFoundMessage "policies/P", by decide⟩).2.2 (by decide) _ (Nat.le_refl _)⟩

/-- C2 as stated fails on the code: stencil A depends on the policy P, the `policies` list of
the catalog is `[null]`, so that no policy is named P; the resolver started on A does not return
an error, at any depth budget: from the budget two on it panics. -/
theorem unknown_reference_rejection_counterexample :
    Nilable.Reachable nullPolicyCatalog "stencils/A" "policies/P" ∧
      (nullPolicyCatalog.Templates.map fun ts => Nilable.unitsOfType ts "policies") =
        some [none] ∧
      (∀ depth, 2 ≤ depth →
        Nilable.getRequiredComponentNames depth nullPolicyCatalog ["stencils/A"] =
          some .panic) ∧
      ∀ depth, ¬ ∃ output err,
        Nilable.getRequiredComponentNames depth nullPolicyCatalog ["stencils/A"] =
          some (.done (output, .error err)) := by
  have hpanic : ∀ depth, 2 ≤ depth →
      Nilable.getRequiredComponentNames depth nullPolicyCatalog ["stencils/A"] =
        some .panic := by
    intro depth hdepth
    obtain ⟨k, rfl⟩ : ∃ k, depth = k + 2 := ⟨depth - 2, by omega⟩
    have hA : Nilable.getTemplateDependencies nullPolicyCatalog "stencils/A" =
        .done (.ok ["policies/P"]) := by decide
    have hP : Nilable.getTemplateDependencies nullPolicyCatalog "policies/P" = .panic := by
      decide
    have hne : ("policies/P" = "stencils/A") = False := by decide
    simp [Nilable.getRequiredComponentNames, Nilable.getRequiredComponentNamesLoop,
      Nilable.getRequiredComponentNamesInternal, Nilable.forEachDependency, hA, hP, GoMap.get?,
      GoMap.set, hne]
  refine ⟨Relation.ReflTransGen.single ⟨["policies/P"], by decide, by simp⟩, ?_, hpanic, ?_⟩
  · decide
  · rintro depth ⟨output, err, h⟩
    by_cases hd : 2 ≤ depth
    · rw [hpanic depth hd] at h
      simp at h
    · have hcases : depth = 0 ∨ depth = 1 := by omega
      have h0 : Nilable.getRequiredComponentNames 0 nullPolicyCatalog ["stencils/A"] = none := by
        decide
      have h1 : Nilable.getRequiredComponentNames 1 nullPolicyCatalog ["stencils/A"] = none := by
        decide
      rcases hcases with rfl | rfl
      · rw [h0] at h
        exact Option.noConfusion h
      · rw [h1] at h
        exact Option.noConfusion h

/-- C9 as stated fails on the code: the `policies` list of the catalog is `[null]`, so that no
policy is named P, and the lookup of `policies/P` panics where an error is claimed; and with no
`templates` object every well-formed name panics. -/
theorem lookup_contract_counterexample :
    stringsSplitSlash "policies/P" = ["policies", "P"] ∧
      (nullPolicyCatalog.Templates.map fun ts => Nilable.unitsOfType ts "policies") =
        some [none] ∧
      Nilable.getTemplateDependencies nullPolicyCatalog "policies/P" = .panic ∧
      (¬ ∃ err, Nilable.getTemplateDependencies nullPolicyCatalog "policies/P" =
        .done (.error err)) ∧
      Nilable.getTemplateDependencies absentTemplatesCatalog "stencils/A" = .panic := by
  have hP : Nilable.getTemplateDependencies nullPolicyCatalog "policies/P" = .panic := by
    decide
  refine ⟨by decide, ?_, hP, ?_, by decide⟩
  · decide
  · rintro ⟨err, h⟩
    rw [hP] at h
    exact Run.noConfusion h

/-! ## The diagnostics name the re-entered units -/

/-- The loop over the dependencies prints the diagnostics of the units that the exploration of
the dependencies re-enters, when each call does. -/
theorem forEachDependency_reEntered (rootName : String)
    (call : String → ResolveState → Option (ResolveState × Option String))
    (explore : String → List String → Option (List String × List String))
    (path : List String)
    (hcall : ∀ name st st1 finished, call name st = some (st1, none) →
      Tracks st.visited path finished →
      ∃ units finished1, explore name finished = some (units, finished1) ∧
        st1.output = st.output ++ units.map (fun y => circularMessage y rootName) ∧
        Tracks st1.visited path finished1)
    (deps : List String) (st st1 : ResolveState) (finished : List String)
    (h : forEachDependency call deps st = some (st1, none))
    (htr : Tracks st.visited path finished) :
    ∃ units finished1, exploreAll explore deps finished = some (units, finished1) ∧
      st1.output = st.output ++ units.map (fun y => circularMessage y rootName) ∧
      Tracks st1.visited path finished1 := by
  induction deps generalizing st finished with
  | nil =>
    simp only [forEachDependency, Option.some.injEq, Prod.mk.injEq, and_true] at h
    subst h
    exact ⟨[], finished, rfl, by simp, htr⟩
  | cons dep rest ih =>
    simp only [forEachDependency] at h
    cases hc : call dep st with
    | none => simp [hc] at h
    | some x =>
      obtain ⟨st2, e⟩ := x
      cases e with
      | some err => simp [hc] at h
      | none =>
        simp only [hc] at h
        obtain ⟨u1, f1, he1, ho1, ht1⟩ := hcall dep st st2 finished hc htr
        obtain ⟨u2, f2, he2, ho2, ht2⟩ := ih st2 f1 h ht1
        refine ⟨u1 ++ u2, f2, by simp [exploreAll, he1, he2], ?_, ht2⟩
        rw [ho2, ho1, List.map_append, List.append_assoc]

/-- A successful walk prints, in order, the diagnostics of the units that the exploration from
its name re-enters, and its map and the lists of the exploration go on saying the same. -/
theorem internal_reEntered (t : TemplateJSON) (rootName : String) (d : Nat) :
    ∀ (name : String) (st st1 : ResolveState) (path finished : List String),
      getRequiredComponentNamesInternal t rootName d name st = some (st1, none) →
      Tracks st.visited path finished →
      ∃ units finished1, reEnteredUnits t d path name finished = some (units, finished1) ∧
        st1.output = st.output ++ units.map (fun y => circularMessage y rootName) ∧
        Tracks st1.visited path finished1 := by
  induction d with
  | zero =>
    intro name st st1 path finished h
    simp [getRequiredComponentNamesInternal] at h
  | succ d ih =>
    intro name st st1 path finished h htr
    rcases color_cases st.visited name with hf | hg | hb
    · have hnp : name ∉ path := by
        intro hin
        have hgrey := (htr.1 name).2 hin
        rcases hf with hf | hf <;> rw [hf] at hgrey <;> simp at hgrey
      have hnf : name ∉ finished := by
        intro hin
        have hblack := (htr.2 name).2 hin
        rcases hf with hf | hf <;> rw [hf] at hblack <;> simp at hblack
      rw [internal_fresh t rootName d name st hf] at h
      cases hd : getTemplateDependencies t name with
      | error err => simp [hd] at h
      | ok deps =>
        simp only [hd] at h
        cases hl : forEachDependency (getRequiredComponentNamesInternal t rootName d) deps
            { st with visited := st.visited.set name color.grey } with
        | none => simp [hl] at h
        | some x =>
          obtain ⟨st3, e⟩ := x
          cases e with
          | some err => simp [hl] at h
          | none =>
            simp only [hl, Option.some.injEq, Prod.mk.injEq, and_true] at h
            subst h
            have htr2 : Tracks (st.visited.set name color.grey) (name :: path) finished := by
              constructor
              · intro n
                by_cases e : n = name
                · subst e
                  simp [GoMap.get?_set_self]
                · rw [GoMap.get?_set_ne _ _ _ _ e, htr.1 n]
                  simp [e]
              · intro n
                by_cases e : n = name
                · subst e
                  simp [GoMap.get?_set_self, hnf]
                · rw [GoMap.get?_set_ne _ _ _ _ e, htr.2 n]
            obtain ⟨units, f1, he, ho, ht3⟩ := forEachDependency_reEntered rootName _
              (reEnteredUnits t d (name :: path)) (name :: path)
              (fun n s s1 f hc hs => ih n s s1 (name :: path) f hc hs) deps _ st3 finished hl htr2
            refine ⟨units, name :: f1, by simp [reEnteredUnits, hnp, hnf, hd, he], ho, ?_⟩
            constructor
            · intro n
              by_cases e : n = name
              · subst e
                simp [GoMap.get?_set_self, hnp]
              · have h3 : (st3.visited.set name color.black).get? n = st3.visited.get? n :=
                  GoMap.get?_set_ne _ _ _ _ e
                rw [h3, ht3.1 n]
                simp [e]
            · intro n
              by_cases e : n = name
              · subst e
                simp [GoMap.get?_set_self]
              · have h3 : (st3.visited.set name color.black).get? n = st3.visited.get? n :=
                  GoMap.get?_set_ne _ _ _ _ e
                rw [h3, ht3.2 n]
                simp [e]
    · rw [internal_grey t rootName d name st hg] at h
      simp only [Option.some.injEq, Prod.mk.injEq, and_true] at h
      subst h
      have hin : name ∈ path := (htr.1 name).1 hg
      exact ⟨[name], finished, by simp [reEnteredUnits, hin], by simp, htr⟩
    · rw [internal_black t rootName d name st hb] at h
      simp only [Option.some.injEq, Prod.mk.injEq, and_true] at h
      subst h
      have hin : name ∈ finished := (htr.2 name).1 hb
      have hnp : name ∉ path := by
        intro hp
        have hgrey := (htr.1 name).2 hp
        rw [hb] at hgrey
        simp at hgrey
      exact ⟨[], finished, by simp [reEnteredUnits, hin, hnp], by simp, htr⟩

/-- The lines printed during the walk from one initial name, started with the empty map. -/
theorem walk_exact_diagnostics (t : TemplateJSON) (root : String) (d : Nat)
    (out0 : List String) (st : ResolveState)
    (h : getRequiredComponentNamesInternal t root d root { visited := [], output := out0 } =
      some (st, none)) :
    ∃ lines, st.output = out0 ++ lines ∧ ExactDiagnostics t d root lines := by
  obtain ⟨lines, hout, hdiag⟩ := walk_diagnostics t root d out0 st h
  obtain ⟨units, finished, he, ho, _⟩ := internal_reEntered t root d root _ st [] [] h
    ⟨fun n => by simp [GoMap.get?], fun n => by simp [GoMap.get?]⟩
  refine ⟨lines, hout, hdiag, units, finished, he, ?_⟩
  have hboth : out0 ++ lines = out0 ++ units.map (fun y => circularMessage y root) := by
    rw [← hout, ho]
  exact List.append_cancel_left hboth

/-- The lines printed by the loop over the initial names, one group per initial name. -/
theorem loop_exact_diagnostics (t : TemplateJSON) (d : Nat) (initial : List String) :
    ∀ (acc : GoMap Bool) (out out1 : List String) (acc1 : GoMap Bool),
      getRequiredComponentNamesLoop t d initial acc out = some (out1, .ok acc1) →
      ∃ perRoot : List (List String), out1 = out ++ perRoot.flatten ∧
        List.Forall₂ (ExactDiagnostics t d) initial perRoot := by
  induction initial with
  | nil =>
    intro acc out out1 acc1 h
    simp only [getRequiredComponentNamesLoop, Option.some.injEq, Prod.mk.injEq,
      Except.ok.injEq] at h
    obtain ⟨rfl, _⟩ := h
    exact ⟨[], by simp, List.Forall₂.nil⟩
  | cons a rest ih =>
    intro acc out out1 acc1 h
    simp only [getRequiredComponentNamesLoop] at h
    cases hc : getRequiredComponentNamesInternal t a d a { visited := [], output := out } with
    | none => simp [hc] at h
    | some r =>
      obtain ⟨st, e⟩ := r
      cases e with
      | some err => simp [hc] at h
      | none =>
        simp only [hc] at h
        obtain ⟨lines, hlines, hdiag⟩ := walk_exact_diagnostics t a d out st hc
        obtain ⟨perRoot, hout, hall⟩ := ih _ _ _ _ h
        refine ⟨lines :: perRoot, ?_, List.Forall₂.cons hdiag hall⟩
        rw [hout, hlines]
        simp

/-- C20, cycle diagnostics: when the resolver succeeds, the lines it printed are, initial name
after initial name, the lines of the walk from that name; the walk from an initial name prints
a line exactly when a name reachable from it lies on a dependency cycle; its lines are, in
order and one for one, the circular-dependency diagnostics that name a unit re-entered during
the exploration from the initial name, a unit entered and not yet left, and the initial name
being processed; every such unit is reachable from the initial name and lies on a cycle; a
catalog without a cycle gives no line; and a call of the walk on a name marked grey prints the
diagnostic of that name and the root and changes no mark. -/
theorem cycle_diagnostics (t : TemplateJSON) (depth : Nat) (initial output required : List String)
    (h : getRequiredComponentNames depth t initial = some (output, .ok required)) :
    (∃ perRoot : List (List String), output = perRoot.flatten ∧
      List.Forall₂
        (fun root lines =>
          (lines ≠ [] ↔ ∃ n, Reachable t root n ∧ OnCycle t n) ∧
          (∃ units finished,
            reEnteredUnits t depth [] root [] = some (units, finished) ∧
            lines = units.map fun y => circularMessage y root) ∧
          ∀ line ∈ lines, ∃ y, line = circularMessage y root ∧ Reachable t root y ∧
            OnCycle t y)
        initial perRoot) ∧
    ((∀ n, ¬ OnCycle t n) → output = []) ∧
    ∀ (rootName : String) (d : Nat) (name : String) (st : ResolveState),
      st.visited.get? name = some color.grey →
      getRequiredComponentNamesInternal t rootName (d + 1) name st =
        some ({ st with output := st.output ++ [circularMessage name rootName] }, none) := by
  refine ⟨?_, ?_, fun rootName d name st hg => internal_grey t rootName d name st hg⟩
  · unfold getRequiredComponentNames at h
    cases hl : getRequiredComponentNamesLoop t depth initial [] [] with
    | none => simp [hl] at h
    | some x =>
      obtain ⟨out1, res⟩ := x
      cases res with
      | error err => simp [hl] at h
      | ok m =>
        simp only [hl, Option.some.injEq, Prod.mk.injEq, Except.ok.injEq] at h
        obtain ⟨rfl, _⟩ := h
        obtain ⟨perRoot, hout, hall⟩ := loop_exact_diagnostics t depth initial _ _ _ _ hl
        simp only [List.nil_append] at hout
        refine ⟨perRoot, hout, ?_⟩
        clear hout hl
        induction hall with
        | nil => exact List.Forall₂.nil
        | cons hhead _ ih => exact List.Forall₂.cons ⟨hhead.1.1, hhead.2, hhead.1.2⟩ ih
  · intro hacyclic
    unfold getRequiredComponentNames at h
    cases hl : getRequiredComponentNamesLoop t depth initial [] [] with
    | none => simp [hl] at h
    | some x =>
      obtain ⟨out1, res⟩ := x
      cases res with
      | error err => simp [hl] at h
      | ok m =>
        simp only [hl, Option.some.injEq, Prod.mk.injEq, Except.ok.injEq] at h
        obtain ⟨rfl, _⟩ := h
        obtain ⟨perRoot, hout, hall⟩ := loop_diagnostics t depth initial _ _ _ _ hl
        simp only [List.nil_append] at hout
        rw [hout]
        have hnil : ∀ lines ∈ perRoot, lines = [] := by
          clear hout hl
          induction hall with
          | nil =>
            intro lines hin
            simp at hin
          | cons hhead _ ih =>
            intro lines hin
            rcases List.mem_cons.1 hin with rfl | hin
            · by_contra hne
              obtain ⟨n, _, hcycle⟩ := hhead.1.1 hne
              exact hacyclic n hcycle
            · exact ih lines hin
        clear hout hall
        induction perRoot with
        | nil => rfl
        | cons a rest ih =>
          rw [List.flatten_cons, hnil a (List.mem_cons_self _ _), List.nil_append]
          exact ih (fun lines hin => hnil lines (List.mem_cons_of_mem _ hin))

/-- Witness of C20 on the two-stencil cycle: the walk from A re-enters A, not B, and prints the
one diagnostic for A. -/
theorem cycle_diagnostics_witness :
    getRequiredComponentNames 4 cycleCatalog ["stencils/A"] =
        some ([circularMessage "stencils/A" "stencils/A"],
          .ok ["stencils/A", "stencils/B"]) ∧
      reEnteredUnits cycleCatalog 4 [] "stencils/A" [] =
        some (["stencils/A"], ["stencils/A", "stencils/B"]) ∧
      (∃ perRoot : List (List String),
        [circularMessage "stencils/A" "stencils/A"] = perRoot.flatten ∧
        List.Forall₂
          (fun root lines =>
            (lines ≠ [] ↔ ∃ n, Reachable cycleCatalog root n ∧ OnCycle cycleCatalog n) ∧
            (∃ units finished,
              reEnteredUnits cycleCatalog 4 [] root [] = some (units, finished) ∧
              lines = units.map fun y => circularMessage y root) ∧
            ∀ line ∈ lines, ∃ y, line = circularMessage y root ∧
              Reachable cycleCatalog root y ∧ OnCycle cycleCatalog y)
          ["stencils/A"] perRoot) :=
  ⟨by decide, by decide,
    (cycle_diagnostics cycleCatalog 4 ["stencils/A"]
      [circularMessage "stencils/A" "stencils/A"] ["stencils/A", "stencils/B"]
      (by decide)).1⟩

/-- On the catalog in which A needs B and C, B needs C and C needs B, the walk from A re-enters
B, from C, and prints the one diagnostic for B; C, which the edge from B enters for the first
time, gets none. -/
theorem cross_prints_re_entered :
    getRequiredComponentNames 5 crossCatalog ["stencils/A"] =
        some ([circularMessage "stencils/B" "stencils/A"],
          .ok ["stencils/A", "stencils/B", "stencils/C"]) ∧
      reEnteredUnits crossCatalog 5 [] "stencils/A" [] =
        some (["stencils/B"], ["stencils/A", "stencils/B", "stencils/C"]) := by
  decide

end Bundle
